import Mathlib

/-!
# Verification of the Ford-Fulkerson repository

Shallow embedding of the two max-flow implementations of the repository
(the adjacency-matrix variant of `main.py` and the NetworkX edge-list
variant of `ford_fulkerson.py`) together with the random flow-network
generator of `graph_generator.py`, and proofs of the specification claims
about them.

Machine integers are modelled as `Int` (Python integers are unbounded),
randomness as explicit parameters (the shuffled candidate list of
`random.shuffle` and the per-call results of `random.randint`), and the
`while` loops as fuel-indexed recursions whose fuel is computed from a
decreasing measure; `none` marks a computation the Python code would not
complete (never reached on the inputs the theorems speak about).
-/

namespace MainPy

/-- The adjacency matrix `self.graph` of the `Graph` class of `main.py`:
`graph[u][v]` is the capacity (and, during the run, the residual capacity)
of the edge `u → v`.  Python's list-of-lists is modelled as a total
function; the algorithm only ever touches indices below `V`. -/
def Res : Type := Nat → Nat → Int

/-- The `visited` array of `Graph.bfs`. -/
def Vis : Type := Nat → Bool

/-- The `parent` array of `Graph.ford_fulkerson` (a Python list of ints,
initialised to `-1`). -/
def Par : Type := Nat → Int

/-- Python list indexing on a list of length `V`: a negative index `i`
addresses position `V + i`. -/
def pyIdx (V : Nat) (i : Int) : Nat :=
  if i < 0 then (V + i).toNat else i.toNat

/-- Assignment `graph[a][b] = x` on the matrix. -/
def writeCell (g : Res) (a b : Nat) (x : Int) : Res :=
  fun a' b' => if a' = a ∧ b' = b then x else g a' b'

/-- The inner `for ind, val in enumerate(self.graph[u])` loop of
`Graph.bfs`: scan the candidate neighbours `l` (called with
`l = List.range V`), enqueueing each unvisited `ind` with
`graph[u][ind] > 0`; on enqueueing the sink `t` stop at once and report
success (`return True` in the source). -/
def bfsScan (g : Res) (t u : Nat) :
    List Nat → List Nat → Vis → Par → (List Nat × Vis × Par × Bool)
  | [], q, vis, par => (q, vis, par, false)
  | ind :: rest, q, vis, par =>
    if vis ind = false ∧ 0 < g u ind then
      let q' := q ++ [ind]
      let vis' : Vis := fun x => if x = ind then true else vis x
      let par' : Par := fun x => if x = ind then (u : Int) else par x
      if ind = t then (q', vis', par', true)
      else bfsScan g t u rest q' vis' par'
    else bfsScan g t u rest q vis par

/-- The `while queue:` loop of `Graph.bfs`.  One unit of fuel per
dequeue; each vertex is enqueued at most once, so `V + 2` units always
suffice (`bfsLoop_isSome`); `none` marks fuel exhaustion. -/
def bfsLoop (V : Nat) (g : Res) (t : Nat) :
    Nat → List Nat → Vis → Par → Option (Bool × Par)
  | 0, _, _, _ => none
  | _ + 1, [], _, par => some (false, par)
  | fuel + 1, u :: q, vis, par =>
    match bfsScan g t u (List.range V) q vis par with
    | (_, _, par', true) => some (true, par')
    | (q', vis', par', false) => bfsLoop V g t fuel q' vis' par'

/-- `Graph.bfs(s, t, parent)`: mark the source visited, enqueue it and
run the loop.  Returns the `True`/`False` result together with the
`parent` array as mutated by the call. -/
def bfs (V : Nat) (g : Res) (s t : Nat) (par : Par) : Bool × Par :=
  (bfsLoop V g t (V + 2) [s] (fun x => x == s) par).getD (false, par)

/-- First walk of the augmentation body: starting from the sink, follow
`parent` links back to the source, accumulating
`path_flow = min(path_flow, graph[parent[s]][s])`.  `path_flow` starts at
`float("Inf")`, modelled as `none`; `none` out of fuel likewise marks a
walk the Python code would not complete. -/
def walkMin (V : Nat) (g : Res) (source : Nat) (par : Par) :
    Nat → Nat → Option Int → Option Int
  | 0, _, _ => none
  | fuel + 1, s, acc =>
    if s = source then acc
    else
      let p := pyIdx V (par s)
      let v := g p s
      walkMin V g source par fuel p
        (some (match acc with | none => v | some a => min a v))

/-- Second walk of the augmentation body: follow `parent` links from the
sink, performing `graph[u][v] -= path_flow; graph[v][u] += path_flow`. -/
def updWalk (V : Nat) (source : Nat) (pf : Int) (par : Par) :
    Nat → Nat → Res → Option Res
  | 0, _, _ => none
  | fuel + 1, v, g =>
    if v = source then some g
    else
      let u := pyIdx V (par v)
      let g1 := writeCell g u v (g u v - pf)
      let g2 := writeCell g1 v u (g1 v u + pf)
      updWalk V source pf par fuel u g2

/-- The `while self.bfs(source, sink, parent):` loop of
`Graph.ford_fulkerson`; the state is the (mutated) matrix, the `parent`
array, which the source reuses across iterations, and the accumulated
`max_flow`.  Returns the final flow together with the final matrix
(`self.graph` after the call). -/
def ffLoop (V : Nat) (s t : Nat) :
    Nat → Res → Par → Int → Option (Int × Res)
  | 0, _, _, _ => none
  | fuel + 1, g, par, acc =>
    match bfs V g s t par with
    | (false, _) => some (acc, g)
    | (true, par') =>
      match walkMin V g s par' (V + 1) t none with
      | none => none
      | some pf =>
        match updWalk V s pf par' (V + 1) t g with
        | none => none
        | some g' => ffLoop V s t fuel g' par' (acc + pf)

/-- Sum of row `s` of the matrix: the residual capacity leaving the
source.  Each augmentation strictly decreases it, which bounds the
number of iterations. -/
def rowSumI (V : Nat) (g : Res) (s : Nat) : Int :=
  ∑ b ∈ Finset.range V, g s b

/-- `Graph.ford_fulkerson(source, sink)` of `main.py`, with the fuel
`1 + Σ_b graph[source][b]` that the termination theorem proves
sufficient for non-negative capacities. -/
def ford_fulkerson (V : Nat) (g : Res) (s t : Nat) : Option (Int × Res) :=
  ffLoop V s t (1 + (rowSumI V g s).toNat) g (fun _ => (-1 : Int)) 0

/-- One iteration of the augmentation loop as a relation between
`(matrix, parent, max_flow)` states: BFS succeeds, the bottleneck
`pf` is read off along the parent chain, and the matrix is updated. -/
def FFStep (V s t : Nat) :
    (Res × Par × Int) → (Res × Par × Int) → Prop :=
  fun st st' => ∃ par' pf,
    bfs V st.1 s t st.2.1 = (true, par') ∧
    walkMin V st.1 s par' (V + 1) t none = some pf ∧
    updWalk V s pf par' (V + 1) t st.1 = some st'.1 ∧
    st'.2.1 = par' ∧ st'.2.2 = st.2.2 + pf

/-- The consecutive pairs of a vertex list. -/
def chainPairs (l : List Nat) : List (Nat × Nat) := l.zip l.tail

/-- A well-formed parent chain: the list `v :: … :: s` follows the
`parent` array from `v` down to the source `s`; every vertex above the
source is a vertex of the graph and distinct from the source. -/
inductive PureChain (V s : Nat) (par : Par) : List Nat → Prop where
  | base : PureChain V s par [s]
  | step (v u : Nat) (l : List Nat) (hv : v ≠ s) (hV : v < V)
      (hp : par v = (u : Int)) (h : PureChain V s par (u :: l)) :
      PureChain V s par (v :: u :: l)

/-- Every edge `(pr.2 → pr.1)` read along a parent chain has strictly
positive residual capacity. -/
def pairsPos (g : Res) (l : List Nat) : Prop :=
  ∀ pr ∈ chainPairs l, 0 < g pr.2 pr.1

/-- Every vertex of a chain is discovered (or is the source). -/
def chainVis (vis : Vis) (s : Nat) (l : List Nat) : Prop :=
  ∀ x ∈ l, vis x = true ∨ x = s

/-- The BFS invariant: every discovered vertex carries a parent chain
down to the source along edges of positive residual capacity. -/
def Qinv (V : Nat) (g : Res) (s : Nat) (vis : Vis) (par : Par) : Prop :=
  ∀ x, vis x = true →
    ∃ l, PureChain V s par (x :: l) ∧ pairsPos g (x :: l) ∧
      chainVis vis s (x :: l)

/-- An augmenting path in the sense of the spec: a non-empty vertex
sequence from the source to the sink each consecutive pair of which has
strictly positive residual capacity. -/
def AugPath (g : Res) (s t : Nat) (p : List Nat) : Prop :=
  p ≠ [] ∧ p.head? = some s ∧ p.getLast? = some t ∧
    ∀ pr ∈ p.zip p.tail, 0 < g pr.1 pr.2

/-- Number of undiscovered vertices; together with the queue length it
bounds the number of BFS iterations. -/
def unvis (V : Nat) (vis : Vis) : Nat :=
  ((List.range V).filter (fun x => !vis x)).length

end MainPy

/-- The concrete scenario of the spec: 4 vertices, edges
(0→1, 3), (0→2, 2), (1→3, 2), (2→3, 3), as an adjacency matrix. -/
def scenM : MainPy.Res := fun u v =>
  if u = 0 ∧ v = 1 then 3
  else if u = 0 ∧ v = 2 then 2
  else if u = 1 ∧ v = 3 then 2
  else if u = 2 ∧ v = 3 then 3
  else 0

/-- The initial `parent` array of `Graph.ford_fulkerson`. -/
def scenPar0 : MainPy.Par := fun _ => (-1 : Int)

/-- The `parent` array after the first BFS of the scenario run. -/
def scenPar1 : MainPy.Par := (MainPy.bfs 4 scenM 0 3 scenPar0).2

/-- The first bottleneck of the scenario run. -/
def scenPf1 : Int := (MainPy.walkMin 4 scenM 0 scenPar1 5 3 none).getD 0

/-- The matrix after the first augmentation of the scenario run. -/
def scenG1 : MainPy.Res :=
  (MainPy.updWalk 4 0 scenPf1 scenPar1 5 3 scenM).getD scenM

namespace NX

/-- A NetworkX `DiGraph` adjacency structure: an association list from
each node to its successor list `(successor, capacity)`, both in
insertion order (Python dicts preserve insertion order, which fixes the
iteration order of `residual_graph.neighbors(u)`). -/
abbrev AdjL : Type := List (Nat × List (Nat × Int))

/-- The input capacity graph handed to the `FordFulkerson` class of
`ford_fulkerson.py`: its node list and its edge list `(u, v, capacity)`,
each in insertion order. -/
structure NXGraph where
  nodes : List Nat
  edges : List (Nat × Nat × Int)
deriving DecidableEq

/-- `G.add_node(n)` (also performed implicitly by `add_edge`): a new node
is appended; an existing one is left alone. -/
def addNode (n : Nat) (G : AdjL) : AdjL :=
  if G.any (fun e => e.1 == n) then G else G ++ [(n, [])]

/-- Set the capacity attribute of edge `· → v` inside a successor list:
overwrite in place if present, append otherwise. -/
def setAdj (v : Nat) (c : Int) : List (Nat × Int) → List (Nat × Int)
  | [] => [(v, c)]
  | (w, cc) :: rest =>
    if w = v then (w, c) :: rest else (w, cc) :: setAdj v c rest

/-- `G.add_edge(u, v, capacity=c)`: add the endpoints as nodes if
missing, then set the capacity attribute of `u → v`. -/
def addEdge (u v : Nat) (c : Int) (G : AdjL) : AdjL :=
  (addNode v (addNode u G)).map
    (fun e => if e.1 = u then (e.1, setAdj v c e.2) else e)

/-- `G.has_edge(u, v)`. -/
def hasEdge (u v : Nat) (G : AdjL) : Bool :=
  G.any (fun e => e.1 == u && e.2.any (fun w => w.1 == v))

/-- The successor list of `u` (`residual_graph.neighbors(u)` iterates its
first components in order). -/
def adjOf (u : Nat) (G : AdjL) : List (Nat × Int) :=
  match G.find? (fun e => e.1 == u) with
  | some e => e.2
  | none => []

/-- `G[u][v]['capacity']`; the algorithm only reads edges that exist. -/
def getCap (u v : Nat) (G : AdjL) : Int :=
  match (adjOf u G).find? (fun w => w.1 == v) with
  | some w => w.2
  | none => 0

/-- `G[u][v]['capacity'] = c` on an existing edge. -/
def setCap (u v : Nat) (c : Int) (G : AdjL) : AdjL :=
  G.map (fun e =>
    if e.1 = u then (e.1, e.2.map (fun w => if w.1 = v then (w.1, c) else w))
    else e)

/-- Residual-graph construction at the top of
`FordFulkerson.find_max_flow`: copy every node, then every edge with its
capacity, adding a reverse edge of capacity 0 whenever the reverse is not
already present.  The construction is total: the source performs no
validation of the capacities. -/
def buildResidual (G : NXGraph) : AdjL :=
  let R0 : AdjL := G.nodes.foldl (fun R n => addNode n R) []
  G.edges.foldl (fun R e =>
    let R1 := addEdge e.1 e.2.1 e.2.2 R
    if hasEdge e.2.1 e.1 R1 then R1 else addEdge e.2.1 e.1 0 R1) R0

/-- Membership test `v not in parent` on the BFS parent dictionary
(`parent = {source: None}` initially). -/
def pmem (v : Nat) (par : List (Nat × Option Nat)) : Bool :=
  par.any (fun e => e.1 == v)

/-- `parent.get(u)` (`none` when the key is absent; the outer `Option`
distinguishes the two cases). -/
def pget (u : Nat) (par : List (Nat × Option Nat)) : Option (Option Nat) :=
  match par.find? (fun e => e.1 == u) with
  | some e => some e.2
  | none => none

/-- Path reconstruction inside `FordFulkerson.bfs`: starting from the
sink, append each vertex and follow the parent link until `None`.
The accumulated list is later reversed (`path[::-1]`). -/
def reconstruct (par : List (Nat × Option Nat)) :
    Nat → Nat → List Nat → Option (List Nat)
  | 0, _, _ => none
  | fuel + 1, u, acc =>
    match pget u par with
    | some (some u') => reconstruct par fuel u' (acc ++ [u])
    | _ => some (acc ++ [u])

/-- The `while queue:` loop of `FordFulkerson.bfs`: pop a vertex, stop
and reconstruct the path as soon as the sink is popped, otherwise
enqueue every undiscovered neighbour with positive residual capacity.
Inner `Option` = absence of a path (`return None`); outer `none` marks
fuel exhaustion, which a sufficient fuel avoids. -/
def bfsLoop (R : AdjL) (t : Nat) :
    Nat → List Nat → List (Nat × Option Nat) → Option (Option (List Nat))
  | 0, _, _ => none
  | _ + 1, [], _ => some none
  | fuel + 1, u :: q, par =>
    if u = t then
      match reconstruct par (par.length + 1) u [] with
      | some p => some (some p.reverse)
      | none => none
    else
      let st := (adjOf u R).foldl
        (fun (st : List Nat × List (Nat × Option Nat)) w =>
          if pmem w.1 st.2 = false ∧ 0 < w.2 then
            (st.1 ++ [w.1], st.2 ++ [(w.1, some u)])
          else st)
        (q, par)
      bfsLoop R t fuel st.1 st.2

/-- `FordFulkerson.bfs(residual_graph, source, sink)`. -/
def bfs (R : AdjL) (s t : Nat) : Option (Option (List Nat)) :=
  bfsLoop R t (R.length + 2) [s] [(s, none)]

/-- `path_flow`: the running minimum of the residual capacities along the
path, starting at `float("Inf")` (modelled by `none`). -/
def pathMin (R : AdjL) (p : List Nat) : Option Int :=
  (p.zip p.tail).foldl
    (fun acc e => some (match acc with
      | none => getCap e.1 e.2 R
      | some a => min a (getCap e.1 e.2 R)))
    none

/-- The augmentation update: along every consecutive pair of the path,
decrease the forward residual capacity by `path_flow` and increase the
reverse one. -/
def applyAug (pf : Int) (p : List Nat) (R : AdjL) : AdjL :=
  (p.zip p.tail).foldl
    (fun R e =>
      let R1 := setCap e.1 e.2 (getCap e.1 e.2 R - pf) R
      setCap e.2 e.1 (getCap e.2 e.1 R1 + pf) R1)
    R

/-- The `while path:` loop of `FordFulkerson.find_max_flow`.  When the
path carries no edge (`source == sink`), `path_flow` stays infinite and
Python's `max_flow += float("Inf")` makes the loop run forever; that
divergence is modelled by `none`, as is fuel exhaustion. -/
def nxLoop (s t : Nat) : Nat → AdjL → Int → Option Int
  | 0, _, _ => none
  | fuel + 1, R, acc =>
    match bfs R s t with
    | none => none
    | some none => some acc
    | some (some p) =>
      match pathMin R p with
      | none => none
      | some pf => nxLoop s t fuel (applyAug pf p R) (acc + pf)

/-- `FordFulkerson.find_max_flow(source, sink)` of `ford_fulkerson.py`
(the returned wall-clock `execution_time` is not modelled).  The fuel
`1 + Σ max(cap, 0)` suffices for the inputs the theorems evaluate. -/
def find_max_flow (G : NXGraph) (s t : Nat) : Option Int :=
  nxLoop s t (1 + G.edges.foldl (fun a e => a + e.2.2.toNat) 0)
    (buildResidual G) 0

/-- `find_max_flow` together with the state of `self.graph` after the
call: the method builds its own residual copy and contains no assignment
to `self.graph`, so the object's graph after the call is the input
itself. -/
def find_max_flow_state (G : NXGraph) (s t : Nat) :
    Option Int × NXGraph :=
  (find_max_flow G s t, G)


/-- Whether the adjacency structure records an edge `u → v`, as the reads
and writes (`getCap`, `setCap`) see it: a `v`-entry present in the
successor list of `u`. -/
def epresent (u v : Nat) (G : AdjL) : Bool :=
  ((adjOf u G).find? (fun w => w.1 == v)).isSome

/-- Existence-symmetry of a residual structure: an edge is recorded
exactly when its reverse is.  `buildResidual` establishes it by inserting
a 0-capacity reverse edge for every copied edge. -/
def SymR (G : AdjL) : Prop := ∀ x y, epresent x y G = epresent y x G

/-- Row keys appear at most once (Python dict keys are unique). -/
def KeysNd (G : AdjL) : Prop := (G.map Prod.fst).Nodup

/-- Successor keys appear at most once in every successor list (inner
Python dict keys are unique). -/
def InnerNd (G : AdjL) : Prop := ∀ e ∈ G, (e.2.map Prod.fst).Nodup

/-- Every successor mentioned in a row is itself a row key. -/
def ClosedT (G : AdjL) : Prop :=
  ∀ e ∈ G, ∀ w ∈ e.2, w.1 ∈ G.map Prod.fst

/-- Every stored capacity is non-negative. -/
def NonnegR (G : AdjL) : Prop := ∀ e ∈ G, ∀ w ∈ e.2, 0 ≤ w.2

/-- The residual capacity leaving `s`: the sum of the capacities stored
in the successor list of `s`. -/
def nxRowSum (s : Nat) (G : AdjL) : Int :=
  ((adjOf s G).map (fun w => w.2)).sum

/-- One iteration of the `while path:` loop of
`FordFulkerson.find_max_flow` as a relation between pairs
(residual structure, accumulated flow). -/
def NXStep (s t : Nat) : (AdjL × Int) → (AdjL × Int) → Prop :=
  fun st st' => ∃ p pf,
    bfs st.1 s t = some (some p) ∧
    pathMin st.1 p = some pf ∧
    st'.1 = applyAug pf p st.1 ∧
    st'.2 = st.2 + pf

/-- A well-formed parent-dictionary chain: the list `v :: … :: s` follows
the recorded parent links down to the source, and every followed link is
an edge of strictly positive residual capacity. -/
inductive DChain (R : AdjL) (s : Nat) (par : List (Nat × Option Nat)) :
    List Nat → Prop where
  | base : DChain R s par [s]
  | step (v u : Nat) (l : List Nat) :
      v ≠ s → pget v par = some (some u) → 0 < getCap u v R →
      DChain R s par (u :: l) → DChain R s par (v :: u :: l)

/-- An augmenting path of the NetworkX residual structure: a non-empty
vertex list from source to sink whose consecutive pairs all carry
strictly positive residual capacity. -/
def AugPathNX (R : AdjL) (s t : Nat) (p : List Nat) : Prop :=
  p ≠ [] ∧ p.head? = some s ∧ p.getLast? = some t ∧
    ∀ pr ∈ p.zip p.tail, 0 < getCap pr.1 pr.2 R

/-- Row keys not yet recorded in the parent dictionary; together with the
queue length it bounds the remaining BFS work. -/
def unpar (R : AdjL) (par : List (Nat × Option Nat)) : Nat :=
  ((R.map Prod.fst).filter (fun k => ! pmem k par)).length


/-- The neighbour scan of one `while queue:` iteration of
`FordFulkerson.bfs`, as a recursion over the successor list: each
undiscovered neighbour of positive residual capacity is appended to the
queue and recorded in the parent dictionary. -/
def nxScan (u : Nat) :
    List (Nat × Int) → List Nat × List (Nat × Option Nat) →
      List Nat × List (Nat × Option Nat)
  | [], st => st
  | w :: adj, st =>
    nxScan u adj
      (if pmem w.1 st.2 = false ∧ 0 < w.2 then
        (st.1 ++ [w.1], st.2 ++ [(w.1, some u)])
      else st)

end NX

/-- The concrete scenario of the spec as a NetworkX graph. -/
def scenNX : NX.NXGraph :=
  ⟨[0, 1, 2, 3], [(0, 1, 3), (0, 2, 2), (1, 3, 2), (2, 3, 3)]⟩

namespace Gen

/-- The candidate edge list of `GraphGenerator.generate_graph`: all
ordered pairs `(u, v)` with `u ≠ v`, no edge into the source `0` and no
edge out of the sink `N - 1`, in the order of the two nested `for`
loops. -/
def possible_edges (N : Nat) : List (Nat × Nat) :=
  (List.range N).flatMap (fun u =>
    (List.range N).filterMap (fun v =>
      if u = v then none
      else if v = 0 then none
      else if u = N - 1 then none
      else some (u, v)))

/-- Python `int(q)`: truncation toward zero. -/
def pyInt (q : ℚ) : Int := if q < 0 then ⌈q⌉ else ⌊q⌋

/-- Python slicing `l[:n]` with a possibly negative `n`. -/
def pySlice {α : Type} (l : List α) (n : Int) : List α :=
  if 0 ≤ n then l.take n.toNat else l.take ((l.length : Int) + n).toNat

/-- `GraphGenerator.generate_graph()`.  The call `random.shuffle` is
modelled by the parameter `shuffled` (any permutation of
`possible_edges N`), and the successive results of
`random.randint(min_capacity, max_capacity)` by the oracle `caps`
(whose contract, an integer in `[min_capacity, max_capacity]`, appears
as a hypothesis of the theorems).  No parameter validation is performed,
mirroring the source. -/
def generate_graph (N : Nat) (p : ℚ) (shuffled : List (Nat × Nat))
    (caps : Nat → Int) : NX.AdjL :=
  let G0 : NX.AdjL := (List.range N).foldl (fun G n => NX.addNode n G) []
  let num_edges_to_add : Int := pyInt ((shuffled.length : ℚ) * p)
  ((pySlice shuffled num_edges_to_add).enum).foldl
    (fun G ie => NX.addEdge ie.2.1 ie.2.2 (caps ie.1) G) G0

/-- The edge list `(u, v, capacity)` recorded in an adjacency
structure. -/
def edgesOf (G : NX.AdjL) : List (Nat × Nat × Int) :=
  G.flatMap (fun e => e.2.map (fun w => (e.1, w.1, w.2)))

/-- The ordered vertex pairs carrying an edge. -/
def pairsOf (G : NX.AdjL) : List (Nat × Nat) :=
  (edgesOf G).map (fun e => (e.1, e.2.1))

end Gen

namespace MainPy


/-- `generate_random_graph(size, max_capacity)` of `main.py`: starting
from the all-zero matrix of `Graph(size)`, every ordered pair `(i, j)`
with `i ≠ j` receives an edge exactly when the draw `np.random.rand()`
falls below 0.3, with capacity `np.random.randint(1, max_capacity)`.
The two random draws are modelled by the oracles `coin` (the outcome of
the comparison at pair `(i, j)`) and `cap` (the capacity drawn at pair
`(i, j)`). -/
def generate_random_graph (size : Nat) (coin : Nat → Nat → Bool)
    (cap : Nat → Nat → Int) : Res :=
  (List.range size).foldl (fun g i =>
    (List.range size).foldl (fun g j =>
      if i ≠ j ∧ coin i j then writeCell g i j (cap i j) else g) g)
    (fun _ _ => 0)

/-- Number of positive-capacity cells of an adjacency matrix: the edge
count of a `main.py` graph. -/
def matrixEdgeCount (size : Nat) (g : Res) : Nat :=
  ((List.range size).map (fun i =>
    ((List.range size).filter (fun j => decide (0 < g i j))).length)).sum


end MainPy

/-! ## Lemmas about the adjacency-matrix implementation -/

namespace MainPy

lemma pyIdx_natCast (V u : Nat) : pyIdx V (u : Int) = u := by
  unfold pyIdx
  simp

lemma writeCell_ne (g : Res) (u v : Nat) (x : Int) (a b : Nat)
    (h : ¬(a = u ∧ b = v)) : writeCell g u v x a b = g a b := if_neg h

/-- The two sequential assignments of one step of the update walk
conserve the sum `g a b + g b a` for every ordered pair. -/
lemma augWrite_conserve (g : Res) (u v : Nat) (pf : Int) (a b : Nat) :
    writeCell (writeCell g u v (g u v - pf)) v u
        (writeCell g u v (g u v - pf) v u + pf) a b +
      writeCell (writeCell g u v (g u v - pf)) v u
        (writeCell g u v (g u v - pf) v u + pf) b a =
      g a b + g b a := by
  by_cases h3 : u = v
  · subst h3
    by_cases h : a = u ∧ b = u
    · obtain ⟨rfl, rfl⟩ := h
      simp [writeCell]
    · have h' : ¬(b = u ∧ a = u) := fun hh => h ⟨hh.2, hh.1⟩
      simp only [writeCell, if_neg h, if_neg h']
  · by_cases h1 : a = u ∧ b = v
    · obtain ⟨rfl, rfl⟩ := h1
      simp [writeCell, h3, Ne.symm h3]
    · by_cases h2 : a = v ∧ b = u
      · obtain ⟨rfl, rfl⟩ := h2
        simp [writeCell, h3, Ne.symm h3]
      · have h1' : ¬(b = v ∧ a = u) := fun hh => h1 ⟨hh.2, hh.1⟩
        have h2' : ¬(b = u ∧ a = v) := fun hh => h2 ⟨hh.2, hh.1⟩
        simp only [writeCell, if_neg h1, if_neg h2, if_neg h1', if_neg h2']

/-- Any completed update walk conserves `g a b + g b a` for every
ordered pair: each forward decrement is mirrored by the reverse
increment. -/
lemma updWalk_conserve (V source : Nat) (pf : Int) (par : Par) :
    ∀ (fuel : Nat) (v : Nat) (g g' : Res),
      updWalk V source pf par fuel v g = some g' →
      ∀ a b, g' a b + g' b a = g a b + g b a := by
  intro fuel
  induction fuel with
  | zero => intro v g g' h; simp [updWalk] at h
  | succ n ih =>
    intro v g g' h a b
    simp only [updWalk] at h
    by_cases hv : v = source
    · rw [if_pos hv] at h
      obtain rfl : g = g' := Option.some.inj h
      rfl
    · rw [if_neg hv] at h
      rw [ih _ _ _ h a b]
      exact augWrite_conserve g (pyIdx V (par v)) v pf a b

lemma ffStep_conserve {V s t : Nat} {st st' : Res × Par × Int}
    (h : FFStep V s t st st') :
    ∀ a b, st'.1 a b + st'.1 b a = st.1 a b + st.1 b a := by
  obtain ⟨par', pf, _, _, hupd, _, _⟩ := h
  exact fun a b => updWalk_conserve _ _ _ _ _ _ _ _ hupd a b

lemma rtg_conserve {V s t : Nat} {st st' : Res × Par × Int}
    (h : Relation.ReflTransGen (FFStep V s t) st st') :
    ∀ a b, st'.1 a b + st'.1 b a = st.1 a b + st.1 b a := by
  induction h with
  | refl => intro a b; rfl
  | tail _ hbc ih => intro a b; rw [ffStep_conserve hbc a b]; exact ih a b

end MainPy

namespace MainPy

lemma chainPairs_cons (v u : Nat) (l : List Nat) :
    chainPairs (v :: u :: l) = (v, u) :: chainPairs (u :: l) := rfl

/-- The parent array is a function, so the chain hanging from a vertex
is unique. -/
lemma pureChain_det {V s : Nat} {par : Par} :
    ∀ {l₁ : List Nat} {v : Nat} {l₂ : List Nat},
      PureChain V s par (v :: l₁) → PureChain V s par (v :: l₂) →
      l₁ = l₂ := by
  intro l₁
  induction l₁ with
  | nil =>
    intro v l₂ h₁ h₂
    cases h₁ with
    | base =>
      cases h₂ with
      | base => rfl
      | step _ _ _ hv _ _ _ => exact absurd rfl hv
  | cons u l₁' ih =>
    intro v l₂ h₁ h₂
    cases h₁ with
    | step _ _ _ hv hV hp hch₁ =>
      cases h₂ with
      | base => exact absurd rfl hv
      | step _ u₂ l₂' _ _ hp₂ hch₂ =>
        have hu : u = u₂ := by
          have := hp.symm.trans hp₂
          exact_mod_cast this
        subst hu
        rw [ih hch₁ hch₂]

lemma pureChain_mem_suffix {V s : Nat} {par : Par} :
    ∀ {L : List Nat}, PureChain V s par L → ∀ {x : Nat}, x ∈ L →
      ∃ m, PureChain V s par (x :: m) ∧ (x :: m).length ≤ L.length := by
  intro L h
  induction h with
  | base =>
    intro x hx
    rw [List.mem_singleton] at hx
    subst hx
    exact ⟨[], PureChain.base, le_refl _⟩
  | step v u l hv hV hp hch ih =>
    intro x hx
    rcases List.mem_cons.mp hx with rfl | hx'
    · exact ⟨u :: l, PureChain.step _ u l hv hV hp hch, le_refl _⟩
    · obtain ⟨m, hm, hlen⟩ := ih hx'
      exact ⟨m, hm, Nat.le_succ_of_le hlen⟩

/-- A parent chain visits no vertex twice. -/
lemma pureChain_nodup {V s : Nat} {par : Par} :
    ∀ {L : List Nat}, PureChain V s par L → L.Nodup := by
  intro L h
  induction h with
  | base => simp
  | step v u l hv hV hp hch ih =>
    refine List.nodup_cons.mpr ⟨?_, ih⟩
    intro hmem
    obtain ⟨m, hm, hlen⟩ := pureChain_mem_suffix hch hmem
    have hdet := pureChain_det hm (PureChain.step v u l hv hV hp hch)
    rw [hdet] at hlen
    simp at hlen

lemma pureChain_last {V s : Nat} {par : Par} :
    ∀ {L : List Nat}, PureChain V s par L → L.getLast? = some s := by
  intro L h
  induction h with
  | base => rfl
  | step v u l _ _ _ _ ih => rw [List.getLast?_cons_cons]; exact ih

lemma pureChain_mem_bound {V s : Nat} {par : Par} :
    ∀ {L : List Nat}, PureChain V s par L → ∀ x ∈ L, x = s ∨ x < V := by
  intro L h
  induction h with
  | base =>
    intro x hx
    rw [List.mem_singleton] at hx
    exact Or.inl hx
  | step v u l hv hV hp hch ih =>
    intro x hx
    rcases List.mem_cons.mp hx with rfl | hx'
    · exact Or.inr hV
    · exact ih x hx'

lemma nodup_length_le (V s : Nat) (L : List Nat) (hnd : L.Nodup)
    (hmem : ∀ x ∈ L, x = s ∨ x < V) : L.length ≤ V + 1 := by
  have hsub : L.toFinset ⊆ insert s (Finset.range V) := by
    intro x hx
    rw [List.mem_toFinset] at hx
    rcases hmem x hx with rfl | h
    · exact Finset.mem_insert_self _ _
    · exact Finset.mem_insert_of_mem (Finset.mem_range.mpr h)
  have hcard := Finset.card_le_card hsub
  rw [List.toFinset_card_of_nodup hnd] at hcard
  calc L.length ≤ (insert s (Finset.range V)).card := hcard
    _ ≤ (Finset.range V).card + 1 := Finset.card_insert_le _ _
    _ = V + 1 := by rw [Finset.card_range]

lemma pureChain_length_le {V s : Nat} {par : Par} {L : List Nat}
    (h : PureChain V s par L) : L.length ≤ V + 1 :=
  nodup_length_le V s L (pureChain_nodup h) (pureChain_mem_bound h)

lemma rowSumI_write_other (V : Nat) (g : Res) (s a b : Nat) (x : Int)
    (ha : a ≠ s) :
    rowSumI V (writeCell g a b x) s = rowSumI V g s := by
  unfold rowSumI
  refine Finset.sum_congr rfl fun y _ => ?_
  exact writeCell_ne g a b x s y (fun hh => ha hh.1.symm)

lemma rowSumI_write_row (V : Nat) (g : Res) (s b : Nat) (x : Int)
    (hb : b < V) :
    rowSumI V (writeCell g s b x) s = rowSumI V g s - g s b + x := by
  have hsub : rowSumI V (writeCell g s b x) s - rowSumI V g s
      = x - g s b := by
    unfold rowSumI
    rw [← Finset.sum_sub_distrib]
    have h1 : ∀ y ∈ Finset.range V,
        writeCell g s b x s y - g s y
          = if y = b then x - g s b else 0 := by
      intro y _
      unfold writeCell
      by_cases hy : y = b
      · subst hy
        simp
      · simp [hy]
    rw [Finset.sum_congr rfl h1]
    rw [Finset.sum_ite_eq' (Finset.range V) b (fun _ => x - g s b)]
    rw [if_pos (Finset.mem_range.mpr hb)]
  omega

end MainPy

namespace MainPy

/-- Specification of the bottleneck walk: along a well-formed parent
chain it returns a value `r` bounded by every residual capacity on the
chain (and by the incoming accumulator), and `r ≥ 1` when all those
capacities are positive integers. -/
lemma walkMin_spec (V s : Nat) (g : Res) (par : Par) :
    ∀ (l : List Nat) (v : Nat), PureChain V s par (v :: l) → v ≠ s →
      ∀ (fuel : Nat), (v :: l).length ≤ fuel →
      ∀ (acc : Option Int),
      ∃ r, walkMin V g s par fuel v acc = some r ∧
        (∀ pr ∈ chainPairs (v :: l), r ≤ g pr.2 pr.1) ∧
        (∀ a, acc = some a → r ≤ a) ∧
        (pairsPos g (v :: l) → (∀ a, acc = some a → 1 ≤ a) → 1 ≤ r) := by
  intro l
  induction l with
  | nil =>
    intro v hch hv
    cases hch with
    | base => exact absurd rfl hv
  | cons u l' ih =>
    intro v hch hv fuel hfuel acc
    cases hch with
    | step _ _ _ _ hV hp hch' =>
    obtain ⟨f, rfl⟩ : ∃ f, fuel = f + 1 :=
      ⟨fuel - 1, by simp at hfuel; omega⟩
    simp only [walkMin]
    rw [if_neg hv, hp, pyIdx_natCast]
    have hhead : (v, u) ∈ chainPairs (v :: u :: l') := by
      rw [chainPairs_cons]
      exact List.mem_cons_self _ _
    -- abstract the new accumulator value
    generalize hX : (match acc with
      | none => g u v
      | some a => min a (g u v)) = X
    have hX1 : X ≤ g u v := by
      cases acc with
      | none => rw [← hX]
      | some a => rw [← hX]; exact min_le_right _ _
    have hX2 : ∀ a, acc = some a → X ≤ a := by
      intro a ha
      subst ha
      rw [← hX]
      exact min_le_left _ _
    have hX3 : 0 < g u v → (∀ a, acc = some a → 1 ≤ a) → 1 ≤ X := by
      intro hpos hacc
      cases acc with
      | none =>
        have heq : g u v = X := hX
        omega
      | some a =>
        have heq : min a (g u v) = X := hX
        have h1 := hacc a rfl
        omega
    by_cases hu : u = s
    · subst hu
      have hl' : l' = [] := by
        cases hch' with
        | base => rfl
        | step _ _ _ hvv _ _ _ => exact absurd rfl hvv
      subst hl'
      obtain ⟨f', rfl⟩ : ∃ f', f = f' + 1 :=
        ⟨f - 1, by simp at hfuel; omega⟩
      refine ⟨X, by simp [walkMin], ?_, ?_, ?_⟩
      · intro pr hpr
        have hpru : pr = (v, u) := by
          simpa [chainPairs] using hpr
        rw [hpru]
        exact hX1
      · exact hX2
      · intro hpos hacc
        exact hX3 (hpos _ hhead) hacc
    · have hfuel' : (u :: l').length ≤ f := by simp at hfuel ⊢; omega
      obtain ⟨r, hr, hrpairs, hracc, hrpos⟩ :=
        ih u hch' hu f hfuel' (some X)
      refine ⟨r, hr, ?_, ?_, ?_⟩
      · intro pr hpr
        rw [chainPairs_cons] at hpr
        rcases List.mem_cons.mp hpr with rfl | hpr'
        · exact (hracc X rfl).trans hX1
        · exact hrpairs pr hpr'
      · intro a ha
        exact (hracc X rfl).trans (hX2 a ha)
      · intro hpos hacc
        refine hrpos ?_ ?_
        · intro pr hpr'
          exact hpos pr (by rw [chainPairs_cons]; exact List.mem_cons_of_mem _ hpr')
        · intro a ha
          obtain rfl : X = a := Option.some.inj ha
          exact hX3 (hpos _ hhead) hacc

end MainPy

namespace MainPy

/-- Specification of the update walk along a well-formed parent chain:
it completes, decreases the residual capacity leaving the source by
exactly the bottleneck, and preserves non-negativity of all residual
capacities. -/
lemma updWalk_spec (V s : Nat) (par : Par) :
    ∀ (l : List Nat) (v : Nat), PureChain V s par (v :: l) → v ≠ s →
      ∀ (g : Res) (pf : Int), 0 ≤ pf →
      (∀ pr ∈ chainPairs (v :: l), pf ≤ g pr.2 pr.1) →
      ∀ (fuel : Nat), (v :: l).length ≤ fuel →
      ∃ g', updWalk V s pf par fuel v g = some g' ∧
        rowSumI V g' s = rowSumI V g s - pf ∧
        ((∀ a b, 0 ≤ g a b) → ∀ a b, 0 ≤ g' a b) := by
  intro l
  induction l with
  | nil =>
    intro v hch hv
    cases hch with
    | base => exact absurd rfl hv
  | cons u l' ih =>
    intro v hch hv g pf hpf hbound fuel hfuel
    have hnd := pureChain_nodup hch
    have hvnotin : v ∉ u :: l' := (List.nodup_cons.mp hnd).1
    have hvu : v ≠ u := fun h => hvnotin (h ▸ List.mem_cons_self _ _)
    have hhead : (v, u) ∈ chainPairs (v :: u :: l') := by
      rw [chainPairs_cons]
      exact List.mem_cons_self _ _
    have hheadb : pf ≤ g u v := hbound (v, u) hhead
    cases hch with
    | step _ _ _ _ hV hp hch' =>
    obtain ⟨f, rfl⟩ : ∃ f, fuel = f + 1 :=
      ⟨fuel - 1, by simp at hfuel; omega⟩
    simp only [updWalk]
    rw [if_neg hv, hp, pyIdx_natCast]
    set g1 := writeCell g u v (g u v - pf) with hg1def
    set g2 := writeCell g1 v u (g1 v u + pf) with hg2def
    have hg1vu : g1 v u = g v u := by
      rw [hg1def]
      exact writeCell_ne g u v _ v u (fun hh => hvu hh.1)
    have hg2cells : ∀ a b, ¬(a = v ∧ b = u) → ¬(a = u ∧ b = v) →
        g2 a b = g a b := by
      intro a b h1 h2
      calc g2 a b = g1 a b := writeCell_ne _ _ _ _ _ _ h1
        _ = g a b := writeCell_ne _ _ _ _ _ _ h2
    have hg2uv : g2 u v = g u v - pf := by
      have h1 : g2 u v = g1 u v :=
        writeCell_ne _ _ _ _ _ _ (fun hh => hvu hh.1.symm)
      rw [h1, hg1def]
      exact if_pos ⟨rfl, rfl⟩
    have hg2vu : g2 v u = g v u + pf := by
      have h1 : g2 v u = g1 v u + pf := if_pos ⟨rfl, rfl⟩
      rw [h1, hg1vu]
    by_cases hu : u = s
    · subst hu
      have hl' : l' = [] := by
        cases hch' with
        | base => rfl
        | step _ _ _ hvv _ _ _ => exact absurd rfl hvv
      subst hl'
      obtain ⟨f', rfl⟩ : ∃ f', f = f' + 1 :=
        ⟨f - 1, by simp at hfuel; omega⟩
      refine ⟨g2, by simp [updWalk], ?_, ?_⟩
      · have h1 : rowSumI V g1 u = rowSumI V g u - g u v + (g u v - pf) := by
          rw [hg1def]
          exact rowSumI_write_row V g u v (g u v - pf) hV
        have h2 : rowSumI V g2 u = rowSumI V g1 u := by
          rw [hg2def]
          exact rowSumI_write_other V g1 u v u (g1 v u + pf) hv
        omega
      · intro hnn a b
        by_cases hab1 : a = v ∧ b = u
        · obtain ⟨rfl, rfl⟩ := hab1
          have h1 := hnn a b
          omega
        · by_cases hab2 : a = u ∧ b = v
          · obtain ⟨rfl, rfl⟩ := hab2
            have h1 := hg2uv
            omega
          · rw [hg2cells a b hab1 hab2]
            exact hnn a b
    · have hbound2 : ∀ pr ∈ chainPairs (u :: l'), pf ≤ g2 pr.2 pr.1 := by
        intro pr hpr
        obtain ⟨x, y⟩ := pr
        have hm := List.of_mem_zip hpr
        have hyv : y ≠ v := fun h =>
          hvnotin (List.mem_of_mem_tail (h ▸ hm.2))
        have hxv : x ≠ v := fun h => hvnotin (h ▸ hm.1)
        have hcell : g2 y x = g y x :=
          hg2cells y x (fun hh => hyv hh.1) (fun hh => hxv hh.2)
        rw [hcell]
        exact hbound (x, y)
          (by rw [chainPairs_cons]; exact List.mem_cons_of_mem _ hpr)
      have hfuel' : (u :: l').length ≤ f := by simp at hfuel ⊢; omega
      obtain ⟨g', hg', hrow, hnnp⟩ := ih u hch' hu g2 pf hpf hbound2 f hfuel'
      refine ⟨g', hg', ?_, ?_⟩
      · have h1 : rowSumI V g1 s = rowSumI V g s := by
          rw [hg1def]
          exact rowSumI_write_other V g s u v _ hu
        have h2 : rowSumI V g2 s = rowSumI V g1 s := by
          rw [hg2def]
          exact rowSumI_write_other V g1 s v u _ hv
        omega
      · intro hnn
        refine hnnp ?_
        intro a b
        by_cases hab1 : a = v ∧ b = u
        · obtain ⟨rfl, rfl⟩ := hab1
          have h1 := hnn a b
          have h2 := hg2vu
          omega
        · by_cases hab2 : a = u ∧ b = v
          · obtain ⟨rfl, rfl⟩ := hab2
            have h1 := hg2uv
            omega
          · rw [hg2cells a b hab1 hab2]
            exact hnn a b

end MainPy

namespace MainPy

/-- Parent chains only mention discovered vertices, so updating the
parent array at an undiscovered vertex leaves them intact. -/
lemma pureChain_lift {V s : Nat} {par par' : Par} :
    ∀ {L : List Nat}, PureChain V s par L →
      (∀ x ∈ L, x ≠ s → par' x = par x) → PureChain V s par' L := by
  intro L h
  induction h with
  | base => intro _; exact PureChain.base
  | step v u l hv hV hp hch ih =>
    intro hagree
    refine PureChain.step v u l hv hV ?_ (ih ?_)
    · rw [hagree v (List.mem_cons_self _ _) hv]
      exact hp
    · intro x hx hxs
      exact hagree x (List.mem_cons_of_mem _ hx) hxs

/-- Discovering a fresh vertex `ind` from a discovered vertex `u` with
positive residual capacity preserves the BFS invariant. -/
lemma qinv_update (V : Nat) (g : Res) (s : Nat) (vis : Vis) (par : Par)
    (ind u : Nat) (hind : vis ind = false) (hu : vis u = true)
    (hs : vis s = true) (hiV : ind < V) (hpos : 0 < g u ind)
    (hinv : Qinv V g s vis par) :
    Qinv V g s (fun x => if x = ind then true else vis x)
      (fun x => if x = ind then (u : Int) else par x) := by
  have hinds : ind ≠ s := by
    intro h
    rw [h, hs] at hind
    cases hind
  intro x hx
  by_cases hxind : x = ind
  · subst hxind
    obtain ⟨l, hch, hpos', hcvis⟩ := hinv u hu
    have hagree : ∀ y ∈ u :: l, y ≠ s →
        (fun z => if z = x then (u : Int) else par z) y = par y := by
      intro y hy hys
      have hvy : vis y = true := by
        rcases hcvis y hy with h | h
        · exact h
        · exact absurd h hys
      have hyind : y ≠ x := by
        intro h
        rw [h, hind] at hvy
        cases hvy
      simp [hyind]
    refine ⟨u :: l, PureChain.step x u l hinds hiV (by simp)
      (pureChain_lift hch hagree), ?_, ?_⟩
    · intro pr hpr
      rw [chainPairs_cons] at hpr
      rcases List.mem_cons.mp hpr with rfl | hpr'
      · exact hpos
      · exact hpos' pr hpr'
    · intro y hy
      rcases List.mem_cons.mp hy with rfl | hy'
      · left; simp
      · rcases hcvis y hy' with h | h
        · left
          by_cases hyind : y = x
          · simp [hyind]
          · simp only [if_neg hyind]
            exact h
        · right; exact h
  · have hvx : vis x = true := by
      have hx' : (if x = ind then true else vis x) = true := hx
      rwa [if_neg hxind] at hx'
    obtain ⟨l, hch, hpos', hcvis⟩ := hinv x hvx
    have hagree : ∀ y ∈ x :: l, y ≠ s →
        (fun z => if z = ind then (u : Int) else par z) y = par y := by
      intro y hy hys
      have hvy : vis y = true := by
        rcases hcvis y hy with h | h
        · exact h
        · exact absurd h hys
      have hyind : y ≠ ind := by
        intro h
        rw [h, hind] at hvy
        cases hvy
      simp [hyind]
    refine ⟨l, pureChain_lift hch hagree, hpos', ?_⟩
    intro y hy
    rcases hcvis y hy with h | h
    · left
      by_cases hyind : y = ind
      · simp [hyind]
      · simp only [if_neg hyind]
        exact h
    · right; exact h

/-- The neighbour scan preserves the BFS invariant; on success the sink
has just been discovered. -/
lemma bfsScan_inv (V : Nat) (g : Res) (s t u : Nat) :
    ∀ (cand : List Nat) (q : List Nat) (vis : Vis) (par : Par)
      (q' : List Nat) (vis' : Vis) (par' : Par) (found : Bool),
      bfsScan g t u cand q vis par = (q', vis', par', found) →
      (∀ i ∈ cand, i < V) →
      vis u = true →
      vis s = true →
      (∀ x ∈ q, vis x = true) →
      Qinv V g s vis par →
      vis' s = true ∧
      (∀ x ∈ q', vis' x = true) ∧
      Qinv V g s vis' par' ∧
      (found = true → vis' t = true) := by
  intro cand
  induction cand with
  | nil =>
    intro q vis par q' vis' par' found h _ _ hs hq hinv
    simp only [bfsScan] at h
    cases h
    exact ⟨hs, hq, hinv, by simp⟩
  | cons ind rest ih =>
    intro q vis par q' vis' par' found h hc hu hs hq hinv
    simp only [bfsScan] at h
    by_cases hcond : vis ind = false ∧ 0 < g u ind
    · rw [if_pos hcond] at h
      have hiV : ind < V := hc ind (List.mem_cons_self _ _)
      have hinv₁ := qinv_update V g s vis par ind u hcond.1 hu hs hiV
        hcond.2 hinv
      have hs₁ : (fun x => if x = ind then true else vis x) s = true := by
        by_cases hsi : s = ind
        · simp [hsi]
        · simp only [if_neg hsi]
          exact hs
      have hmono : ∀ x, vis x = true →
          (fun x => if x = ind then true else vis x) x = true := by
        intro x hx
        by_cases hxi : x = ind
        · simp [hxi]
        · simp only [if_neg hxi]
          exact hx
      have hq₁ : ∀ x ∈ q ++ [ind],
          (fun x => if x = ind then true else vis x) x = true := by
        intro x hx
        rcases List.mem_append.mp hx with hx' | hx'
        · exact hmono x (hq x hx')
        · rw [List.mem_singleton] at hx'
          simp [hx']
      by_cases hit : ind = t
      · rw [if_pos hit] at h
        cases h
        refine ⟨hs₁, hq₁, hinv₁, fun _ => ?_⟩
        subst hit
        simp
      · rw [if_neg hit] at h
        have hrest : ∀ i ∈ rest, i < V :=
          fun i hi => hc i (List.mem_cons_of_mem _ hi)
        exact ih _ _ _ _ _ _ _ h hrest (hmono u hu) hs₁ hq₁ hinv₁
    · rw [if_neg hcond] at h
      have hrest : ∀ i ∈ rest, i < V :=
        fun i hi => hc i (List.mem_cons_of_mem _ hi)
      exact ih _ _ _ _ _ _ _ h hrest hu hs hq hinv

/-- When the BFS loop reports success, the returned parent array carries
a positive-capacity chain from the sink back to the source. -/
lemma bfsLoop_chain (V : Nat) (g : Res) (s t : Nat) :
    ∀ (fuel : Nat) (q : List Nat) (vis : Vis) (par : Par) (par' : Par),
      vis s = true → (∀ x ∈ q, vis x = true) → Qinv V g s vis par →
      bfsLoop V g t fuel q vis par = some (true, par') →
      ∃ l, PureChain V s par' (t :: l) ∧ pairsPos g (t :: l) := by
  intro fuel
  induction fuel with
  | zero =>
    intro q vis par par' _ _ _ h
    simp [bfsLoop] at h
  | succ n ih =>
    intro q vis par par' hs hq hinv h
    cases q with
    | nil => simp [bfsLoop] at h
    | cons u qrest =>
      simp only [bfsLoop] at h
      rcases hsc : bfsScan g t u (List.range V) qrest vis par with
        ⟨q₁, vis₁, par₁, fnd⟩
      rw [hsc] at h
      obtain ⟨hs₁, hq₁, hinv₁, hfnd⟩ :=
        bfsScan_inv V g s t u (List.range V) qrest vis par q₁ vis₁ par₁ fnd
          hsc (fun i hi => List.mem_range.mp hi)
          (hq u (List.mem_cons_self _ _)) hs
          (fun x hx => hq x (List.mem_cons_of_mem _ hx)) hinv
      cases fnd with
      | true =>
        have h' : some (true, par₁) = some (true, par') := h
        obtain rfl : par₁ = par' := congrArg Prod.snd (Option.some.inj h')
        obtain ⟨l, hch, hpos, _⟩ := hinv₁ t (hfnd rfl)
        exact ⟨l, hch, hpos⟩
      | false =>
        exact ih q₁ vis₁ par₁ par' hs₁ hq₁ hinv₁ h

/-- If `Graph.bfs` answers `True`, the mutated parent array carries a
positive-capacity chain from the sink back to the source. -/
lemma bfs_true_chain {V : Nat} {g : Res} {s t : Nat} {par par' : Par}
    (h : bfs V g s t par = (true, par')) :
    ∃ l, PureChain V s par' (t :: l) ∧ pairsPos g (t :: l) := by
  unfold bfs at h
  have hsome : bfsLoop V g t (V + 2) [s] (fun x => x == s) par
      = some (true, par') := by
    rcases hres : bfsLoop V g t (V + 2) [s] (fun x => x == s) par with
      _ | ⟨b, p⟩
    · rw [hres] at h
      simp at h
    · rw [hres] at h
      rw [Option.getD_some] at h
      rw [h]
  have hq : ∀ x ∈ [s], (fun x => x == s) x = true := by
    intro x hx
    rw [List.mem_singleton] at hx
    simp [hx]
  have hinv : Qinv V g s (fun x => x == s) par := by
    intro x hx
    have hxs : x = s := by
      simpa using hx
    subst hxs
    refine ⟨[], PureChain.base, ?_, ?_⟩
    · intro pr hpr
      cases hpr
    · intro y hy
      right
      simpa using hy
  exact bfsLoop_chain V g s t (V + 2) [s] _ par par' (by simp) hq hinv hsome

end MainPy

namespace MainPy

/-- Termination of the augmentation loop: with fuel exceeding the
residual capacity leaving the source, the loop completes.  Each
iteration pushes a bottleneck of at least 1 along a simple chain whose
only edge out of the source loses that bottleneck. -/
lemma ffLoop_isSome (V s t : Nat) (hst : s ≠ t) :
    ∀ (fuel : Nat) (g : Res) (par : Par) (acc : Int),
      (∀ a b, 0 ≤ g a b) → (rowSumI V g s).toNat < fuel →
      (ffLoop V s t fuel g par acc).isSome := by
  intro fuel
  induction fuel with
  | zero =>
    intro g par acc _ h
    exact absurd h (Nat.not_lt_zero _)
  | succ n ih =>
    intro g par acc hnn hfuel
    simp only [ffLoop]
    rcases hb : bfs V g s t par with ⟨found, par'⟩
    cases found with
    | false => simp
    | true =>
      obtain ⟨l, hch, hpos⟩ := bfs_true_chain hb
      have hts : t ≠ s := fun h => hst h.symm
      have hlen : (t :: l).length ≤ V + 1 := pureChain_length_le hch
      obtain ⟨pf, hpf, hpfpairs, _, hpf1⟩ :=
        walkMin_spec V s g par' l t hch hts (V + 1) hlen none
      have hpf1' : 1 ≤ pf := hpf1 hpos (by intro a ha; cases ha)
      obtain ⟨g', hg', hrow, hnn'⟩ :=
        updWalk_spec V s par' l t hch hts g pf (by omega) hpfpairs
          (V + 1) hlen
      simp only [hpf, hg']
      have h0 : (0 : Int) ≤ rowSumI V g' s := by
        unfold rowSumI
        exact Finset.sum_nonneg fun b _ => hnn' hnn s b
      exact ih g' par' (acc + pf) (hnn' hnn) (by omega)

end MainPy

namespace MainPy

lemma chainPairs_concat :
    ∀ (p : List Nat) (v w : Nat), p.getLast? = some w →
      chainPairs (p ++ [v]) = chainPairs p ++ [(w, v)] := by
  intro p
  induction p with
  | nil =>
    intro v w h
    cases h
  | cons x rest ih =>
    intro v w h
    cases rest with
    | nil =>
      obtain rfl : x = w := by simpa using h
      rfl
    | cons y rest' =>
      rw [List.getLast?_cons_cons] at h
      have e1 : chainPairs ((x :: y :: rest') ++ [v])
          = (x, y) :: chainPairs ((y :: rest') ++ [v]) := rfl
      rw [e1, ih v w h]
      rfl

/-- A parent chain from the sink reversed is an augmenting path from the
source in the sense of the spec. -/
lemma pureChain_to_augPath {V s : Nat} {par : Par} {g : Res} :
    ∀ {L : List Nat}, PureChain V s par L → pairsPos g L →
      ∃ p, p ≠ [] ∧ p.head? = some s ∧ p.getLast? = L.head? ∧
        ∀ pr ∈ p.zip p.tail, 0 < g pr.1 pr.2 := by
  intro L h
  induction h with
  | base =>
    intro _
    refine ⟨[s], by simp, by simp, by simp, ?_⟩
    intro pr hpr
    cases hpr
  | step v u l hv hV hp hch ih =>
    intro hpos
    have hpos' : pairsPos g (u :: l) := by
      intro pr hpr
      exact hpos pr (by rw [chainPairs_cons]; exact List.mem_cons_of_mem _ hpr)
    obtain ⟨p, hne, hhead, hlast, hpairs⟩ := ih hpos'
    obtain ⟨a, p', rfl⟩ : ∃ a p', p = a :: p' := by
      cases p with
      | nil => exact absurd rfl hne
      | cons a p' => exact ⟨a, p', rfl⟩
    refine ⟨(a :: p') ++ [v], by simp, by simpa using hhead, ?_, ?_⟩
    · rw [List.getLast?_concat]
      rfl
    · have hw : (a :: p').getLast? = some u := by
        rw [hlast]
        rfl
      have e := chainPairs_concat (a :: p') v u hw
      intro pr hpr
      rw [show ((a :: p') ++ [v]).zip ((a :: p') ++ [v]).tail
          = chainPairs ((a :: p') ++ [v]) from rfl, e] at hpr
      rcases List.mem_append.mp hpr with hpr' | hpr'
      · exact hpairs pr hpr'
      · rw [List.mem_singleton] at hpr'
        subst hpr'
        exact hpos (v, u) (by rw [chainPairs_cons]; exact List.mem_cons_self _ _)

end MainPy

namespace MainPy

/-- The scan never reports success when the sink is already marked
visited (it only fires on newly discovered vertices), and the sink stays
visited. -/
lemma bfsScan_vis_t (g : Res) (t u : Nat) :
    ∀ (cand q : List Nat) (vis : Vis) (par : Par)
      (q' : List Nat) (vis' : Vis) (par' : Par) (found : Bool),
      bfsScan g t u cand q vis par = (q', vis', par', found) →
      vis t = true → found = false ∧ vis' t = true := by
  intro cand
  induction cand with
  | nil =>
    intro q vis par q' vis' par' found h hv
    simp only [bfsScan] at h
    cases h
    exact ⟨rfl, hv⟩
  | cons ind rest ih =>
    intro q vis par q' vis' par' found h hv
    simp only [bfsScan] at h
    by_cases hcond : vis ind = false ∧ 0 < g u ind
    · rw [if_pos hcond] at h
      have hit : ind ≠ t := by
        intro he
        have h1 := hcond.1
        rw [he, hv] at h1
        cases h1
      rw [if_neg hit] at h
      have htind : t ≠ ind := fun hh => hit (Eq.symm hh)
      have hv₁ : (fun x => if x = ind then true else vis x) t = true := by
        show (if t = ind then true else vis t) = true
        rw [if_neg htind]
        exact hv
      exact ih _ _ _ _ _ _ _ h hv₁
    · rw [if_neg hcond] at h
      exact ih _ _ _ _ _ _ _ h hv

/-- The BFS loop never answers `True` when the sink was visited from the
start — in particular when the sink is the source. -/
lemma bfsLoop_vis_t (V : Nat) (g : Res) (t : Nat) :
    ∀ (fuel : Nat) (q : List Nat) (vis : Vis) (par : Par)
      (r : Bool) (par' : Par),
      vis t = true → bfsLoop V g t fuel q vis par = some (r, par') →
      r = false := by
  intro fuel
  induction fuel with
  | zero =>
    intro q vis par r par' _ h
    simp [bfsLoop] at h
  | succ n ih =>
    intro q vis par r par' hv h
    cases q with
    | nil =>
      simp only [bfsLoop] at h
      exact (congrArg Prod.fst (Option.some.inj h)).symm
    | cons u qrest =>
      simp only [bfsLoop] at h
      rcases hsc : bfsScan g t u (List.range V) qrest vis par with
        ⟨q₁, vis₁, par₁, fnd⟩
      rw [hsc] at h
      obtain ⟨hfnd, hv₁⟩ := bfsScan_vis_t g t u _ _ _ _ _ _ _ _ hsc hv
      subst hfnd
      exact ih q₁ vis₁ par₁ r par' hv₁ h

end MainPy

/-- **C9 (corrected)**: `maxFlow` performs no endpoint validation.  In
the adjacency-matrix variant a call with `source = sink` runs BFS, which
never re-discovers the already-visited source, and returns flow 0
normally with the matrix untouched; in the edge-list variant of
`ford_fulkerson.py` the trivial one-vertex path keeps `path_flow`
infinite and the loop never terminates (modelled by `none`). -/
theorem C9_amended_no_endpoint_validation :
    (∀ (V : Nat) (g : MainPy.Res) (s : Nat),
      MainPy.ford_fulkerson V g s s = some (0, g)) ∧
    NX.find_max_flow scenNX 0 0 = none := by
  constructor
  · intro V g s
    unfold MainPy.ford_fulkerson
    obtain ⟨n, hn⟩ : ∃ n, 1 + (MainPy.rowSumI V g s).toNat = n + 1 :=
      ⟨(MainPy.rowSumI V g s).toNat, by omega⟩
    rw [hn]
    simp only [MainPy.ffLoop]
    rcases hb : MainPy.bfs V g s s (fun _ => (-1 : Int)) with ⟨found, par'⟩
    have hfound : found = false := by
      unfold MainPy.bfs at hb
      rcases hres : MainPy.bfsLoop V g s (V + 2) [s] (fun x => x == s)
          (fun _ => (-1 : Int)) with _ | ⟨b, p⟩
      · rw [hres] at hb
        simp only [Option.getD_none] at hb
        exact (congrArg Prod.fst hb).symm
      · rw [hres] at hb
        rw [Option.getD_some] at hb
        have hbf := MainPy.bfsLoop_vis_t V g s (V + 2) [s] _ _ b p
          (by simp) hres
        exact (congrArg Prod.fst hb).symm.trans hbf
    subst hfound
    rfl
  · decide

/-- Counterexample for C9 as stated: with source = sink = 0 on the
concrete scenario matrix the call returns the normal value `0` (and the
unchanged matrix) instead of failing with `InvalidEndpoints` — the code
contains no endpoint check at all. -/
theorem C9_counterexample :
    MainPy.ford_fulkerson 4 scenM 0 0 = some (0, scenM) := rfl

/-- **C1**: on the concrete scenario (4 vertices, edges (0→1,3),
(0→2,2), (1→3,2), (2→3,3)), both max-flow implementations return 4 for
source 0 and sink 3. -/
theorem C1_scenario_flow_four :
    NX.find_max_flow scenNX 0 3 = some 4 ∧
    (MainPy.ford_fulkerson 4 scenM 0 3).map Prod.fst = some 4 :=
  ⟨by decide, by decide⟩

/-- Counterexample for C4 as stated: `Graph.ford_fulkerson` of `main.py`
mutates its adjacency matrix in place, so the first call returns 4 but a
second call on the same (now mutated) object returns 0, and the stored
capacity of edge (0,1) has changed. -/
theorem C4_counterexample :
    (MainPy.ford_fulkerson 4 scenM 0 3).map Prod.fst = some 4 ∧
    (MainPy.ford_fulkerson 4
        ((MainPy.ford_fulkerson 4 scenM 0 3).getD (0, scenM)).2
        0 3).map Prod.fst = some 0 ∧
    ((MainPy.ford_fulkerson 4 scenM 0 3).getD (0, scenM)).2 0 1
      ≠ scenM 0 1 :=
  ⟨by decide, by decide, by decide⟩

/-- **C4 (amended)**: the engine of `ford_fulkerson.py` never mutates
the input capacity graph — `find_max_flow` works on its own residual
copy and contains no assignment to `self.graph` — so after a call the
object's graph is the input itself and a second call returns the same
flow value.  (The adjacency-matrix variant of `main.py`, by contrast,
mutates its matrix in place; see the counterexample.) -/
theorem C4_amended_engine_no_mutation :
    ∀ (G : NX.NXGraph) (s t : Nat),
      (NX.find_max_flow_state G s t).2 = G ∧
      (NX.find_max_flow_state ((NX.find_max_flow_state G s t).2) s t).1
        = (NX.find_max_flow_state G s t).1 :=
  fun _ _ _ => ⟨rfl, rfl⟩

/-- Counterexample for C8 as stated: residual-graph construction raises
no error on a negative capacity; the single-edge graph (0→1, −5) is
accepted and the capacity copied verbatim into the residual graph. -/
theorem C8_counterexample :
    NX.buildResidual ⟨[0, 1], [(0, 1, -5)]⟩
      = [(0, [(1, -5)]), (1, [(0, 0)])] := by decide

/-- **C8 (amended)**: residual-graph construction performs no capacity
validation and cannot fail: for the single-edge graph (0→1, c) it
produces the residual graph with forward capacity `c` — whatever the
sign of `c` — and reverse capacity 0. -/
theorem C8_amended_no_capacity_validation :
    ∀ c : Int, NX.buildResidual ⟨[0, 1], [(0, 1, c)]⟩
      = [(0, [(1, c)]), (1, [(0, 0)])] :=
  fun _ => rfl

/-! ## Lemmas about the random generator -/

namespace Gen

lemma mem_possible_edges (N u v : Nat) :
    (u, v) ∈ possible_edges N ↔
      u < N ∧ v < N ∧ u ≠ v ∧ v ≠ 0 ∧ u ≠ N - 1 := by
  constructor
  · intro h
    unfold possible_edges at h
    rw [List.mem_flatMap] at h
    obtain ⟨a, ha, h2⟩ := h
    rw [List.mem_filterMap] at h2
    obtain ⟨b, hb, h3⟩ := h2
    rw [List.mem_range] at ha hb
    split_ifs at h3 with h4 h5 h6
    have h7 := Option.some.inj h3
    rw [Prod.mk.injEq] at h7
    obtain ⟨rfl, rfl⟩ := h7
    exact ⟨ha, hb, h4, h5, h6⟩
  · rintro ⟨h1, h2, h3, h4, h5⟩
    unfold possible_edges
    rw [List.mem_flatMap]
    refine ⟨u, List.mem_range.mpr h1, ?_⟩
    rw [List.mem_filterMap]
    refine ⟨v, List.mem_range.mpr h2, ?_⟩
    rw [if_neg h3, if_neg h4, if_neg h5]

end Gen

namespace NX

lemma addNode_mem (n : Nat) (G : AdjL) (h : n ∈ G.map Prod.fst) :
    addNode n G = G := by
  unfold addNode
  rw [if_pos]
  rw [List.any_eq_true]
  obtain ⟨e, heG, he1⟩ := List.mem_map.mp h
  exact ⟨e, heG, by rw [beq_iff_eq]; exact he1⟩

lemma addNode_not_mem (n : Nat) (G : AdjL) (h : ¬ n ∈ G.map Prod.fst) :
    addNode n G = G ++ [(n, [])] := by
  unfold addNode
  rw [if_neg]
  intro hany
  rw [List.any_eq_true] at hany
  obtain ⟨e, heG, he1⟩ := hany
  rw [beq_iff_eq] at he1
  exact h (List.mem_map.mpr ⟨e, heG, he1⟩)

lemma addEdge_keys (u v : Nat) (c : Int) (G : AdjL)
    (hu : u ∈ G.map Prod.fst) (hv : v ∈ G.map Prod.fst) :
    (addEdge u v c G).map Prod.fst = G.map Prod.fst := by
  unfold addEdge
  rw [addNode_mem u G hu, addNode_mem v G hv, List.map_map]
  refine List.map_congr_left fun e _ => ?_
  by_cases he : e.1 = u
  · simp [he]
  · simp [he]

lemma setAdj_mem (v : Nat) (c : Int) :
    ∀ (adj : List (Nat × Int)) (w : Nat × Int), w ∈ setAdj v c adj →
      w ∈ adj ∨ w = (v, c) := by
  intro adj
  induction adj with
  | nil =>
    intro w hw
    rw [show setAdj v c [] = [(v, c)] from rfl, List.mem_singleton] at hw
    right
    exact hw
  | cons p rest ih =>
    intro w hw
    obtain ⟨pw, pc⟩ := p
    rw [show setAdj v c ((pw, pc) :: rest)
      = if pw = v then (pw, c) :: rest else (pw, pc) :: setAdj v c rest
      from rfl] at hw
    by_cases hpv : pw = v
    · rw [if_pos hpv] at hw
      rcases List.mem_cons.mp hw with rfl | hw'
      · right
        rw [hpv]
      · left
        exact List.mem_cons_of_mem _ hw'
    · rw [if_neg hpv] at hw
      rcases List.mem_cons.mp hw with rfl | hw'
      · left
        exact List.mem_cons_self _ _
      · rcases ih w hw' with h | h
        · left
          exact List.mem_cons_of_mem _ h
        · right
          exact h

end NX

namespace Gen

lemma edgesOf_addNode (n : Nat) (G : NX.AdjL) :
    edgesOf (NX.addNode n G) = edgesOf G := by
  unfold NX.addNode
  split
  · rfl
  · unfold edgesOf
    rw [List.flatMap_append]
    simp

lemma edgesOf_addEdge_mem (u v : Nat) (c : Int) (G : NX.AdjL) :
    ∀ e ∈ edgesOf (NX.addEdge u v c G),
      e ∈ edgesOf G ∨ e = (u, v, c) := by
  intro e he
  unfold NX.addEdge at he
  unfold edgesOf at he
  rw [List.mem_flatMap] at he
  obtain ⟨row, hrow, he2⟩ := he
  rw [List.mem_map] at hrow
  obtain ⟨row₀, hrow₀, hfrow⟩ := hrow
  have habsorb : ∀ e', e' ∈ edgesOf (NX.addNode v (NX.addNode u G)) →
      e' ∈ edgesOf G := by
    intro e' he'
    rwa [edgesOf_addNode, edgesOf_addNode] at he'
  by_cases hru : row₀.1 = u
  · rw [if_pos hru] at hfrow
    subst hfrow
    rw [List.mem_map] at he2
    obtain ⟨w, hw, hew⟩ := he2
    rcases NX.setAdj_mem v c row₀.2 w hw with h | h
    · left
      refine habsorb e ?_
      unfold edgesOf
      rw [List.mem_flatMap]
      exact ⟨row₀, hrow₀, by rw [List.mem_map]; exact ⟨w, h, hew⟩⟩
    · right
      subst h
      rw [← hew, hru]
  · rw [if_neg hru] at hfrow
    subst hfrow
    left
    refine habsorb e ?_
    unfold edgesOf
    rw [List.mem_flatMap]
    exact ⟨row₀, hrow₀, he2⟩

lemma foldl_addNode_nodes :
    ∀ (l : List Nat) (G : NX.AdjL), (∀ n ∈ l, ¬ n ∈ G.map Prod.fst) →
      l.Nodup →
      l.foldl (fun G n => NX.addNode n G) G
        = G ++ l.map (fun n => (n, [])) := by
  intro l
  induction l with
  | nil =>
    intro G _ _
    simp
  | cons n rest ih =>
    intro G hfresh hnd
    rw [List.foldl_cons,
      NX.addNode_not_mem n G (hfresh n (List.mem_cons_self _ _))]
    rw [ih (G ++ [(n, [])]) ?_ (List.nodup_cons.mp hnd).2]
    · simp
    · intro m hm
      rw [List.map_append]
      intro hmem
      rcases List.mem_append.mp hmem with hmem' | hmem'
      · exact hfresh m (List.mem_cons_of_mem _ hm) hmem'
      · have : m = n := by simpa using hmem'
        exact (List.nodup_cons.mp hnd).1 (this ▸ hm)

lemma range_graph_nodes (N : Nat) :
    ((List.range N).foldl (fun G n => NX.addNode n G) ([] : NX.AdjL))
      = (List.range N).map (fun n => (n, [])) := by
  rw [foldl_addNode_nodes (List.range N) [] (by simp) (List.nodup_range N)]
  rfl

lemma range_graph_edges (N : Nat) :
    edgesOf ((List.range N).map (fun n => (n, ([] : List (Nat × Int)))))
      = [] := by
  induction N with
  | zero => rfl
  | succ n ih =>
    rw [List.range_succ, List.map_append]
    unfold edgesOf at ih ⊢
    rw [List.flatMap_append, ih]
    rfl

end Gen

namespace Gen

lemma enumFrom_mem {α : Type} :
    ∀ (l : List α) (n : Nat) (ie : Nat × α),
      ie ∈ List.enumFrom n l → ie.2 ∈ l := by
  intro l
  induction l with
  | nil =>
    intro n ie h
    cases h
  | cons a rest ih =>
    intro n ie h
    rw [show List.enumFrom n (a :: rest)
      = (n, a) :: List.enumFrom (n + 1) rest from rfl] at h
    rcases List.mem_cons.mp h with rfl | h'
    · exact List.mem_cons_self _ _
    · exact List.mem_cons_of_mem _ (ih (n + 1) ie h')

lemma slice_enum_mem (N : Nat) (p : ℚ) (shuffled : List (Nat × Nat))
    (hsh : shuffled.Perm (possible_edges N)) :
    ∀ ie ∈ (pySlice shuffled (pyInt ((shuffled.length : ℚ) * p))).enum,
      ie.2 ∈ possible_edges N := by
  intro ie hie
  have h2 : ie.2 ∈ pySlice shuffled (pyInt ((shuffled.length : ℚ) * p)) :=
    enumFrom_mem _ 0 ie hie
  have h3 : ie.2 ∈ shuffled := by
    unfold pySlice at h2
    split at h2 <;> exact List.take_subset _ _ h2
  exact hsh.mem_iff.mp h3

/-- Invariant of the edge-insertion fold: the node set stays `range N`
and every recorded edge is a candidate edge with an in-range capacity. -/
lemma fold_addEdge_inv (N : Nat) (minC maxC : Int) (caps : Nat → Int)
    (hcaps : ∀ i, minC ≤ caps i ∧ caps i ≤ maxC) :
    ∀ (l : List (Nat × Nat × Nat)) (G : NX.AdjL),
      (∀ ie ∈ l, ie.2 ∈ possible_edges N) →
      G.map Prod.fst = List.range N →
      (∀ e ∈ edgesOf G, e.1 ≠ e.2.1 ∧ e.2.1 ≠ 0 ∧ e.1 ≠ N - 1 ∧
        e.1 < N ∧ e.2.1 < N ∧ minC ≤ e.2.2 ∧ e.2.2 ≤ maxC) →
      (l.foldl (fun G ie => NX.addEdge ie.2.1 ie.2.2 (caps ie.1) G)
          G).map Prod.fst = List.range N ∧
      ∀ e ∈ edgesOf (l.foldl
          (fun G ie => NX.addEdge ie.2.1 ie.2.2 (caps ie.1) G) G),
        e.1 ≠ e.2.1 ∧ e.2.1 ≠ 0 ∧ e.1 ≠ N - 1 ∧
        e.1 < N ∧ e.2.1 < N ∧ minC ≤ e.2.2 ∧ e.2.2 ≤ maxC := by
  intro l
  induction l with
  | nil =>
    intro G _ hkeys hedges
    exact ⟨hkeys, hedges⟩
  | cons ie rest ih =>
    intro G hmem hkeys hedges
    obtain ⟨i, u, v⟩ := ie
    have hpos : (u, v) ∈ possible_edges N :=
      hmem (i, u, v) (List.mem_cons_self _ _)
    rw [mem_possible_edges] at hpos
    obtain ⟨huN, hvN, huv, hv0, husink⟩ := hpos
    have hu : u ∈ G.map Prod.fst := by
      rw [hkeys]
      exact List.mem_range.mpr huN
    have hv : v ∈ G.map Prod.fst := by
      rw [hkeys]
      exact List.mem_range.mpr hvN
    rw [List.foldl_cons]
    refine ih (NX.addEdge u v (caps i) G)
      (fun ie' h' => hmem ie' (List.mem_cons_of_mem _ h')) ?_ ?_
    · rw [NX.addEdge_keys u v (caps i) G hu hv]
      exact hkeys
    · intro e he
      rcases edgesOf_addEdge_mem u v (caps i) G e he with h | h
      · exact hedges e h
      · subst h
        exact ⟨huv, hv0, husink, huN, hvN, (hcaps i).1, (hcaps i).2⟩

end Gen

/-- **C6 (amended)**: every graph produced by
`GraphGenerator.generate_graph` (graph_generator.py) has exactly the
nodes `0 … N-1`, no self-loop, no edge into the source 0, no edge out
of the sink `N-1`, and every edge capacity within
`[minCapacity, maxCapacity]` (the contract of `random.randint`, taken
as a hypothesis on the capacity oracle).  The `generate_random_graph`
of `main.py`, which the claim also cites, excludes only self-loops and
satisfies none of the endpoint restrictions; the counterexample
exhibits a draw producing an edge into the source. -/
theorem C6_generator_structure (N : Nat) (p : ℚ) (minC maxC : Int)
    (shuffled : List (Nat × Nat)) (caps : Nat → Int)
    (hsh : shuffled.Perm (Gen.possible_edges N))
    (hcaps : ∀ i, minC ≤ caps i ∧ caps i ≤ maxC) :
    (Gen.generate_graph N p shuffled caps).map Prod.fst = List.range N ∧
    ∀ e ∈ Gen.edgesOf (Gen.generate_graph N p shuffled caps),
      e.1 ≠ e.2.1 ∧ e.2.1 ≠ 0 ∧ e.1 ≠ N - 1 ∧ e.1 < N ∧ e.2.1 < N ∧
        minC ≤ e.2.2 ∧ e.2.2 ≤ maxC := by
  have hG0keys : (((List.range N).foldl (fun G n => NX.addNode n G)
      ([] : NX.AdjL)).map Prod.fst) = List.range N := by
    rw [Gen.range_graph_nodes, List.map_map]
    exact List.map_id (List.range N)
  have hG0edges : ∀ e ∈ Gen.edgesOf
      ((List.range N).foldl (fun G n => NX.addNode n G) ([] : NX.AdjL)),
      e.1 ≠ e.2.1 ∧ e.2.1 ≠ 0 ∧ e.1 ≠ N - 1 ∧ e.1 < N ∧ e.2.1 < N ∧
        minC ≤ e.2.2 ∧ e.2.2 ≤ maxC := by
    intro e he
    rw [Gen.range_graph_nodes, Gen.range_graph_edges] at he
    cases he
  unfold Gen.generate_graph
  exact Gen.fold_addEdge_inv N minC maxC caps hcaps _ _
    (Gen.slice_enum_mem N p shuffled hsh) hG0keys hG0edges

/-- Witness for C6 at scenario 5 of the spec: N = 2, p = 1, capacity
range [5, 5]. -/
theorem C6_generator_structure_witness :
    (Gen.possible_edges 2).Perm (Gen.possible_edges 2) ∧
    (∀ _ : Nat, (5 : Int) ≤ 5 ∧ (5 : Int) ≤ 5) ∧
    ((Gen.generate_graph 2 1 (Gen.possible_edges 2)
        (fun _ => 5)).map Prod.fst = List.range 2 ∧
      ∀ e ∈ Gen.edgesOf (Gen.generate_graph 2 1 (Gen.possible_edges 2)
          (fun _ => 5)),
        e.1 ≠ e.2.1 ∧ e.2.1 ≠ 0 ∧ e.1 ≠ 2 - 1 ∧ e.1 < 2 ∧ e.2.1 < 2 ∧
          (5 : Int) ≤ e.2.2 ∧ e.2.2 ≤ 5) :=
  ⟨List.Perm.refl _, fun _ => ⟨le_refl _, le_refl _⟩,
    C6_generator_structure 2 1 5 5 (Gen.possible_edges 2) (fun _ => 5)
      (List.Perm.refl _) (fun _ => ⟨le_refl _, le_refl _⟩)⟩

/-- Counterexample for C6 as stated: the claim also covers
`generate_random_graph` of `main.py`, which adds an edge for every
ordered pair `(i, j)` with `i ≠ j` whose coin flip succeeds.  On a
2-vertex graph the draw that succeeds exactly at `(1, 0)` — a possible
outcome of the independent `np.random.rand()` calls — produces an edge
from vertex 1 (the sink) into vertex 0 (the source), so the generated
graph has an edge whose head is the source and whose tail is the
sink. -/
theorem C6_counterexample :
    MainPy.generate_random_graph 2 (fun i j => i == 1 && j == 0)
      (fun _ _ => 5) 1 0 = 5 := by decide

namespace NX

lemma setAdj_append (v : Nat) (c : Int) :
    ∀ (adj : List (Nat × Int)), (∀ w ∈ adj, w.1 ≠ v) →
      setAdj v c adj = adj ++ [(v, c)] := by
  intro adj
  induction adj with
  | nil =>
    intro _
    rfl
  | cons p rest ih =>
    intro h
    obtain ⟨pw, pc⟩ := p
    rw [show setAdj v c ((pw, pc) :: rest)
      = if pw = v then (pw, c) :: rest else (pw, pc) :: setAdj v c rest
      from rfl]
    rw [if_neg (h (pw, pc) (List.mem_cons_self _ _))]
    rw [ih (fun w hw => h w (List.mem_cons_of_mem _ hw))]
    rfl

end NX

namespace Gen

lemma edgesOf_cons (k : Nat) (adj : List (Nat × Int)) (G : NX.AdjL) :
    edgesOf ((k, adj) :: G)
      = adj.map (fun w => (k, w.1, w.2)) ++ edgesOf G := by
  unfold edgesOf
  rw [List.flatMap_cons]

/-- Setting a fresh edge `u → v` inside the row of `u` inserts exactly
one new record into the edge list, up to permutation. -/
lemma edgesOf_mapSet_perm (u v : Nat) (c : Int) :
    ∀ (G : NX.AdjL), (G.map Prod.fst).Nodup →
      u ∈ G.map Prod.fst → (u, v) ∉ pairsOf G →
      (edgesOf (G.map
          (fun e => if e.1 = u then (e.1, NX.setAdj v c e.2) else e))).Perm
        ((u, v, c) :: edgesOf G) := by
  intro G
  induction G with
  | nil =>
    intro _ hu _
    cases hu
  | cons row G' ih =>
    intro hnd hu hfresh
    obtain ⟨k, adj⟩ := row
    have hnd' : (k :: G'.map Prod.fst).Nodup := hnd
    have hknotin : k ∉ G'.map Prod.fst := (List.nodup_cons.mp hnd').1
    have hu' : u ∈ k :: G'.map Prod.fst := hu
    by_cases hk : k = u
    · subst hk
      rw [List.map_cons]
      have hrow : (if (k, adj).1 = k then ((k, adj).1, NX.setAdj v c (k, adj).2)
          else (k, adj)) = (k, NX.setAdj v c adj) := by simp
      rw [hrow]
      have hG' : G'.map
          (fun e => if e.1 = k then (e.1, NX.setAdj v c e.2) else e)
          = G' := by
        have hcongr : ∀ e ∈ G',
            (fun e => if e.1 = k then (e.1, NX.setAdj v c e.2) else e) e
              = id e := by
          intro e he
          have hek : e.1 ≠ k := by
            intro h
            exact hknotin (h ▸ List.mem_map.mpr ⟨e, he, rfl⟩)
          simp [hek]
        rw [List.map_congr_left hcongr, List.map_id]
      rw [hG']
      have hadj : ∀ w ∈ adj, w.1 ≠ v := by
        intro w hw hwv
        apply hfresh
        unfold pairsOf
        rw [List.mem_map]
        refine ⟨(k, w.1, w.2), ?_, by rw [hwv]⟩
        rw [edgesOf_cons]
        exact List.mem_append_left _ (List.mem_map.mpr ⟨w, hw, rfl⟩)
      rw [NX.setAdj_append v c adj hadj]
      rw [edgesOf_cons, edgesOf_cons, List.map_append]
      rw [show ([(v, c)] : List (Nat × Int)).map (fun w => (k, w.1, w.2))
        = [(k, v, c)] from rfl]
      rw [List.append_assoc]
      exact List.perm_middle
    · rw [List.map_cons]
      have hrow : (if (k, adj).1 = u then ((k, adj).1, NX.setAdj v c (k, adj).2)
          else (k, adj)) = (k, adj) := by simp [hk]
      rw [hrow]
      have hu'' : u ∈ G'.map Prod.fst := by
        rcases List.mem_cons.mp hu' with h | h
        · exact absurd h.symm hk
        · exact h
      have hfresh' : (u, v) ∉ pairsOf G' := by
        intro hmem
        apply hfresh
        unfold pairsOf at hmem ⊢
        rw [List.mem_map] at hmem ⊢
        obtain ⟨e, he, hee⟩ := hmem
        refine ⟨e, ?_, hee⟩
        rw [edgesOf_cons]
        exact List.mem_append_right _ he
      have hperm := ih (List.nodup_cons.mp hnd').2 hu'' hfresh'
      rw [edgesOf_cons, edgesOf_cons]
      exact (List.Perm.append_left _ hperm).trans List.perm_middle

lemma edgesOf_addEdge_perm (u v : Nat) (c : Int) (G : NX.AdjL)
    (hnd : (G.map Prod.fst).Nodup)
    (hu : u ∈ G.map Prod.fst) (hv : v ∈ G.map Prod.fst)
    (hfresh : (u, v) ∉ pairsOf G) :
    (edgesOf (NX.addEdge u v c G)).Perm ((u, v, c) :: edgesOf G) := by
  unfold NX.addEdge
  rw [NX.addNode_mem u G hu, NX.addNode_mem v G hv]
  exact edgesOf_mapSet_perm u v c G hnd hu hfresh

lemma possible_edges_nodup (N : Nat) : (possible_edges N).Nodup := by
  unfold possible_edges
  rw [List.nodup_flatMap]
  have hfst : ∀ (u : Nat) (pr : Nat × Nat),
      pr ∈ (List.range N).filterMap (fun v =>
        if u = v then none
        else if v = 0 then none
        else if u = N - 1 then none
        else some (u, v)) → pr.1 = u := by
    intro u pr hpr
    rw [List.mem_filterMap] at hpr
    obtain ⟨b, _, hb⟩ := hpr
    split_ifs at hb
    rw [← Option.some.inj hb]
  constructor
  · intro u _
    refine List.Nodup.filterMap ?_ (List.nodup_range N)
    intro a a' b hb hb'
    have h1 : b = (u, a) := by
      simp only [Option.mem_def] at hb
      split_ifs at hb
      exact (Option.some.inj hb).symm
    have h2 : b = (u, a') := by
      simp only [Option.mem_def] at hb'
      split_ifs at hb'
      exact (Option.some.inj hb').symm
    rw [h1] at h2
    exact congrArg Prod.snd h2
  · refine List.Pairwise.imp ?_ (List.nodup_range N)
    intro a b hab x hxa hxb
    exact hab ((hfst a x hxa) ▸ (hfst b x hxb))

/-- The edge-insertion fold records exactly the processed pairs, up to
permutation. -/
lemma fold_addEdge_pairs (N : Nat) (caps : Nat → Int) :
    ∀ (l : List (Nat × Nat × Nat)) (G : NX.AdjL),
      (∀ ie ∈ l, ie.2 ∈ possible_edges N) →
      G.map Prod.fst = List.range N →
      (l.map (fun ie => ie.2)).Nodup →
      (∀ ie ∈ l, ie.2 ∉ pairsOf G) →
      (pairsOf (l.foldl
          (fun G ie => NX.addEdge ie.2.1 ie.2.2 (caps ie.1) G) G)).Perm
        ((l.map (fun ie => ie.2)) ++ pairsOf G) := by
  intro l
  induction l with
  | nil =>
    intro G _ _ _ _
    exact List.Perm.refl _
  | cons ie rest ih =>
    intro G hmem hkeys hnd hfresh
    obtain ⟨i, u, v⟩ := ie
    have hpos : (u, v) ∈ possible_edges N :=
      hmem (i, u, v) (List.mem_cons_self _ _)
    have hposs := (mem_possible_edges N u v).mp hpos
    have hu : u ∈ G.map Prod.fst := by
      rw [hkeys]
      exact List.mem_range.mpr hposs.1
    have hv : v ∈ G.map Prod.fst := by
      rw [hkeys]
      exact List.mem_range.mpr hposs.2.1
    have hkeysnd : (G.map Prod.fst).Nodup := by
      rw [hkeys]
      exact List.nodup_range N
    have haddperm := edgesOf_addEdge_perm u v (caps i) G hkeysnd hu hv
      (hfresh (i, u, v) (List.mem_cons_self _ _))
    have haddpairs : (pairsOf (NX.addEdge u v (caps i) G)).Perm
        ((u, v) :: pairsOf G) := by
      unfold pairsOf
      have hmapped := haddperm.map (fun e : Nat × Nat × Int => (e.1, e.2.1))
      simpa using hmapped
    have hndrest : (rest.map (fun ie => ie.2)).Nodup :=
      (List.nodup_cons.mp hnd).2
    have hheadfresh : (u, v) ∉ rest.map (fun ie => ie.2) :=
      (List.nodup_cons.mp hnd).1
    rw [List.foldl_cons]
    have hih := ih (NX.addEdge u v (caps i) G)
      (fun ie' h' => hmem ie' (List.mem_cons_of_mem _ h'))
      (by rw [NX.addEdge_keys u v (caps i) G hu hv]; exact hkeys)
      hndrest
      ?_
    · refine hih.trans ?_
      refine (List.Perm.append_left _ haddpairs).trans ?_
      exact List.perm_middle
    · intro ie' h' hmem'
      have h1 := haddpairs.mem_iff.mp hmem'
      rcases List.mem_cons.mp h1 with h2 | h2
      · exact hheadfresh (h2 ▸ List.mem_map.mpr ⟨ie', h', rfl⟩)
      · exact hfresh ie' (List.mem_cons_of_mem _ h') h2

end Gen

/-- Counterexample for C5 as stated.  First, for
`GraphGenerator.generate_graph` with the valid input N = 3, p = 1/2
(capacities drawn as 5, the unshuffled candidate order being one
possible shuffle), the generator selects `int(3 * 0.5) = 1` edge, not
`round(3 * 0.5) = 2` as the claim requires.  Second, the claim also
cites `generate_random_graph` of `main.py`, which flips an independent
coin per ordered pair: on a 2-vertex graph, the all-tails draw yields 0
edges and the all-heads draw yields 2 edges, so its edge count is not
any fixed function of the input parameters at all. -/
theorem C5_counterexample :
    ((Gen.edgesOf (Gen.generate_graph 3 (1/2) (Gen.possible_edges 3)
      (fun _ => 5))).length = 1 ∧
    (round (((Gen.possible_edges 3).length : ℚ) * (1/2))).toNat = 2) ∧
    MainPy.matrixEdgeCount 2 (MainPy.generate_random_graph 2
      (fun _ _ => false) (fun _ _ => 5)) = 0 ∧
    MainPy.matrixEdgeCount 2 (MainPy.generate_random_graph 2
      (fun i j => i != j) (fun _ _ => 5)) = 2 := by
  refine ⟨⟨?_, ?_⟩, by decide, by decide⟩
  · have hl : (Gen.possible_edges 3).length = 3 := by decide
    have h : Gen.pyInt (((Gen.possible_edges 3).length : ℚ) * (1/2)) = 1 := by
      rw [hl]
      norm_num [Gen.pyInt]
    unfold Gen.generate_graph
    rw [h]
    decide
  · have hl : (Gen.possible_edges 3).length = 3 := by decide
    rw [hl]
    norm_num [round_eq]
    rfl

/-- **C5 (amended)**: for every valid input of
`GraphGenerator.generate_graph` (graph_generator.py), the generated
graph has exactly `int(p × |candidates|)` edges — Python `int`
truncation, not `round` — and the chosen edges are a subset of the
candidate pairs sampled without replacement (no pair occurs twice).
The `generate_random_graph` of `main.py`, which the claim also cites,
instead flips an independent coin per ordered pair (probability 0.3,
excluding only self-loops), so its edge count is a property of the
random draws, not of the parameters; the counterexample exhibits two
draws with different edge counts. -/
theorem C5_amended_edge_count (N : Nat) (p : ℚ)
    (shuffled : List (Nat × Nat)) (caps : Nat → Int)
    (hsh : shuffled.Perm (Gen.possible_edges N))
    (hp0 : 0 ≤ p) (hp1 : p ≤ 1) :
    (Gen.edgesOf (Gen.generate_graph N p shuffled caps)).length
      = (Gen.pyInt ((shuffled.length : ℚ) * p)).toNat ∧
    (∀ pr ∈ Gen.pairsOf (Gen.generate_graph N p shuffled caps),
      pr ∈ Gen.possible_edges N) ∧
    (Gen.pairsOf (Gen.generate_graph N p shuffled caps)).Nodup := by
  have hq0 : (0 : ℚ) ≤ (shuffled.length : ℚ) * p :=
    mul_nonneg (Nat.cast_nonneg _) hp0
  have hpyeq : Gen.pyInt ((shuffled.length : ℚ) * p)
      = ⌊(shuffled.length : ℚ) * p⌋ := by
    unfold Gen.pyInt
    rw [if_neg (not_lt.mpr hq0)]
  have hn0 : 0 ≤ Gen.pyInt ((shuffled.length : ℚ) * p) := by
    rw [hpyeq]
    exact Int.le_floor.mpr (by exact_mod_cast hq0)
  have hnlen : Gen.pyInt ((shuffled.length : ℚ) * p)
      ≤ (shuffled.length : Int) := by
    rw [hpyeq]
    calc ⌊(shuffled.length : ℚ) * p⌋ ≤ ⌊(shuffled.length : ℚ)⌋ :=
          Int.floor_le_floor
            (mul_le_of_le_one_right (Nat.cast_nonneg _) hp1)
      _ = (shuffled.length : Int) := Int.floor_natCast _
  have hslice_len : (Gen.pySlice shuffled
      (Gen.pyInt ((shuffled.length : ℚ) * p))).length
        = (Gen.pyInt ((shuffled.length : ℚ) * p)).toNat := by
    unfold Gen.pySlice
    rw [if_pos hn0, List.length_take]
    omega
  have hslice_nodup : (Gen.pySlice shuffled
      (Gen.pyInt ((shuffled.length : ℚ) * p))).Nodup := by
    have hshn : shuffled.Nodup :=
      hsh.symm.nodup (Gen.possible_edges_nodup N)
    unfold Gen.pySlice
    split <;> exact (List.take_sublist _ _).nodup hshn
  have hG0pairs : Gen.pairsOf ((List.range N).foldl
      (fun G n => NX.addNode n G) ([] : NX.AdjL)) = [] := by
    unfold Gen.pairsOf
    rw [Gen.range_graph_nodes, Gen.range_graph_edges]
    rfl
  have hG0keys : (((List.range N).foldl (fun G n => NX.addNode n G)
      ([] : NX.AdjL)).map Prod.fst) = List.range N := by
    rw [Gen.range_graph_nodes, List.map_map]
    exact List.map_id (List.range N)
  have henum_snd : ((Gen.pySlice shuffled
        (Gen.pyInt ((shuffled.length : ℚ) * p))).enum).map
          (fun ie => ie.2)
      = Gen.pySlice shuffled (Gen.pyInt ((shuffled.length : ℚ) * p)) :=
    List.enum_map_snd _
  have hperm := Gen.fold_addEdge_pairs N caps
    ((Gen.pySlice shuffled (Gen.pyInt ((shuffled.length : ℚ) * p))).enum)
    ((List.range N).foldl (fun G n => NX.addNode n G) [])
    (Gen.slice_enum_mem N p shuffled hsh)
    hG0keys
    (by rw [henum_snd]; exact hslice_nodup)
    (by intro ie _ hmem; rw [hG0pairs] at hmem; cases hmem)
  rw [henum_snd, hG0pairs, List.append_nil] at hperm
  have hperm' : (Gen.pairsOf (Gen.generate_graph N p shuffled caps)).Perm
      (Gen.pySlice shuffled (Gen.pyInt ((shuffled.length : ℚ) * p))) := by
    unfold Gen.generate_graph
    exact hperm
  refine ⟨?_, ?_, ?_⟩
  · have h1 : (Gen.pairsOf (Gen.generate_graph N p shuffled caps)).length
        = (Gen.edgesOf (Gen.generate_graph N p shuffled caps)).length := by
      unfold Gen.pairsOf
      rw [List.length_map]
    rw [← h1, hperm'.length_eq, hslice_len]
  · intro pr hpr
    have h2 := hperm'.mem_iff.mp hpr
    have h3 : pr ∈ shuffled := by
      unfold Gen.pySlice at h2
      split at h2 <;> exact List.take_subset _ _ h2
    exact hsh.mem_iff.mp h3
  · exact hperm'.symm.nodup hslice_nodup

/-- Witness for C5 (amended) at N = 3, p = 1/2. -/
theorem C5_amended_edge_count_witness :
    (Gen.possible_edges 3).Perm (Gen.possible_edges 3) ∧
    (0 : ℚ) ≤ 1/2 ∧ (1/2 : ℚ) ≤ 1 ∧
    ((Gen.edgesOf (Gen.generate_graph 3 (1/2) (Gen.possible_edges 3)
        (fun _ => 5))).length
      = (Gen.pyInt (((Gen.possible_edges 3).length : ℚ) * (1/2))).toNat ∧
      (∀ pr ∈ Gen.pairsOf (Gen.generate_graph 3 (1/2)
          (Gen.possible_edges 3) (fun _ => 5)),
        pr ∈ Gen.possible_edges 3) ∧
      (Gen.pairsOf (Gen.generate_graph 3 (1/2) (Gen.possible_edges 3)
        (fun _ => 5))).Nodup) :=
  ⟨List.Perm.refl _, by norm_num, by norm_num,
    C5_amended_edge_count 3 (1/2) (Gen.possible_edges 3) (fun _ => 5)
      (List.Perm.refl _) (by norm_num) (by norm_num)⟩

/-- Counterexample for C10 as stated: the generator called with
N = 1 (< 2) does not fail with `InvalidParameters`; it returns the
normal one-vertex graph with no edges. -/
theorem C10_counterexample :
    Gen.generate_graph 1 (1/2) [] (fun _ => 5) = [(0, [])] := by
  have h : Gen.pyInt ((([] : List (Nat × Nat)).length : ℚ) * (1/2)) = 0 := by
    simp [Gen.pyInt]
  unfold Gen.generate_graph
  rw [h]
  rfl

/-- **C10 (amended)**: the generator performs no parameter validation.
With N = 1 it returns the one-vertex, zero-edge graph for every edge
probability and every capacity oracle, instead of failing. -/
theorem C10_amended_no_validation :
    ∀ (p : ℚ) (caps : Nat → Int),
      Gen.generate_graph 1 p [] caps = [(0, [])] := by
  intro p caps
  have h : Gen.pyInt ((([] : List (Nat × Nat)).length : ℚ) * p) = 0 := by
    simp [Gen.pyInt]
  unfold Gen.generate_graph
  rw [h]
  rfl

namespace MainPy

lemma count_unvis_flip (ind : Nat) (vis : Vis) :
    ∀ (l : List Nat), l.Nodup → ind ∈ l → vis ind = false →
      (l.filter (fun x => !(if x = ind then true else vis x))).length + 1
        = (l.filter (fun x => !vis x)).length := by
  intro l
  induction l with
  | nil =>
    intro _ h
    cases h
  | cons a rest ih =>
    intro hnd hmem hvind
    rcases List.mem_cons.mp hmem with rfl | hmem'
    · rw [List.filter_cons, List.filter_cons]
      have h1 : (!(if ind = ind then true else vis ind)) = false := by simp
      have h2 : (!vis ind) = true := by
        rw [hvind]
        rfl
      rw [h1, h2]
      have hcongr : rest.filter (fun x => !(if x = ind then true else vis x))
          = rest.filter (fun x => !vis x) := by
        refine List.filter_congr fun x hx => ?_
        have hxa : x ≠ ind := by
          intro h
          exact (List.nodup_cons.mp hnd).1 (h ▸ hx)
        rw [if_neg hxa]
      rw [hcongr]
      simp
    · have haind : a ≠ ind := by
        intro h
        exact (List.nodup_cons.mp hnd).1 (h ▸ hmem')
      rw [List.filter_cons, List.filter_cons]
      have h1 : (!(if a = ind then true else vis a)) = !vis a := by
        rw [if_neg haind]
      rw [h1]
      have hih := ih (List.nodup_cons.mp hnd).2 hmem' hvind
      by_cases hva : (!vis a) = true
      · rw [if_pos hva, if_pos hva]
        simp only [List.length_cons]
        omega
      · rw [if_neg hva, if_neg hva]
        exact hih

lemma bfsScan_measure (V : Nat) (g : Res) (t u : Nat) :
    ∀ (cand q : List Nat) (vis : Vis) (par : Par)
      (q' : List Nat) (vis' : Vis) (par' : Par) (found : Bool),
      bfsScan g t u cand q vis par = (q', vis', par', found) →
      (∀ i ∈ cand, i < V) →
      unvis V vis' + q'.length ≤ unvis V vis + q.length := by
  intro cand
  induction cand with
  | nil =>
    intro q vis par q' vis' par' found h _
    simp only [bfsScan] at h
    cases h
    exact le_refl _
  | cons ind rest ih =>
    intro q vis par q' vis' par' found h hc
    simp only [bfsScan] at h
    by_cases hcond : vis ind = false ∧ 0 < g u ind
    · rw [if_pos hcond] at h
      have hflip : unvis V (fun x => if x = ind then true else vis x) + 1
          = unvis V vis := by
        unfold unvis
        exact count_unvis_flip ind vis (List.range V) (List.nodup_range V)
          (List.mem_range.mpr (hc ind (List.mem_cons_self _ _))) hcond.1
      by_cases hit : ind = t
      · rw [if_pos hit] at h
        cases h
        simp only [List.length_append, List.length_singleton]
        generalize hA : unvis V (fun x => if x = ind then true else vis x)
          = A at hflip ⊢
        omega
      · rw [if_neg hit] at h
        have hthis := ih _ _ _ _ _ _ _ h
          (fun i hi => hc i (List.mem_cons_of_mem _ hi))
        simp only [List.length_append, List.length_singleton] at hthis
        generalize hA : unvis V (fun x => if x = ind then true else vis x)
          = A at hflip hthis
        omega
    · rw [if_neg hcond] at h
      exact ih _ _ _ _ _ _ _ h (fun i hi => hc i (List.mem_cons_of_mem _ hi))

/-- The fuel `V + 2` used by the embedding of `Graph.bfs` is always
sufficient: each iteration pops one vertex and every enqueued vertex is
a freshly discovered one, so the measure `unvisited + queue length`
strictly decreases. -/
lemma bfsLoop_isSome (V : Nat) (g : Res) (t : Nat) :
    ∀ (fuel : Nat) (q : List Nat) (vis : Vis) (par : Par),
      unvis V vis + q.length < fuel →
      (bfsLoop V g t fuel q vis par).isSome := by
  intro fuel
  induction fuel with
  | zero =>
    intro q vis par h
    exact absurd h (Nat.not_lt_zero _)
  | succ n ih =>
    intro q vis par h
    cases q with
    | nil => simp [bfsLoop]
    | cons u qrest =>
      simp only [bfsLoop]
      rcases hsc : bfsScan g t u (List.range V) qrest vis par with
        ⟨q₁, vis₁, par₁, fnd⟩
      have hm := bfsScan_measure V g t u (List.range V) qrest vis par
        q₁ vis₁ par₁ fnd hsc (fun i hi => List.mem_range.mp hi)
      cases fnd with
      | true => simp
      | false =>
        refine ih q₁ vis₁ par₁ ?_
        simp only [List.length_cons] at h
        omega

/-- `Graph.bfs` never runs out of fuel. -/
lemma bfs_fuel_sufficient (V : Nat) (g : Res) (s t : Nat) (par : Par) :
    (bfsLoop V g t (V + 2) [s] (fun x => x == s) par).isSome := by
  apply bfsLoop_isSome
  have h1 : unvis V (fun x => x == s) ≤ V := by
    unfold unvis
    calc (List.filter _ (List.range V)).length
        ≤ (List.range V).length := List.length_filter_le _ _
      _ = V := List.length_range V
  have h2 : ([s] : List Nat).length = 1 := rfl
  omega

end MainPy

namespace NX

lemma any_eq_find?_isSome {α : Type} (p : α → Bool) (l : List α) :
    l.any p = (l.find? p).isSome := by
  cases h : (l.find? p).isSome
  · rw [Bool.eq_false_iff]
    intro hany
    rw [List.any_eq_true] at hany
    rw [← List.find?_isSome] at hany
    rw [h] at hany
    cases hany
  · rw [List.find?_isSome] at h
    rw [List.any_eq_true]
    exact h

lemma pget_isSome_eq (x : Nat) (par : List (Nat × Option Nat)) :
    (pget x par).isSome = (par.find? (fun e => e.1 == x)).isSome := by
  unfold pget
  cases h : par.find? (fun e => e.1 == x) <;> simp

lemma pmem_eq_pget_isSome (x : Nat) (par : List (Nat × Option Nat)) :
    pmem x par = (pget x par).isSome := by
  rw [pget_isSome_eq]
  exact any_eq_find?_isSome _ par

lemma pmem_append (x w : Nat) (o : Option Nat)
    (par : List (Nat × Option Nat)) :
    pmem x (par ++ [(w, o)]) = (pmem x par || w == x) := by
  unfold pmem
  rw [List.any_append]
  simp

lemma pget_append (x w : Nat) (o : Option Nat)
    (par : List (Nat × Option Nat)) :
    pget x (par ++ [(w, o)]) =
      match pget x par with
      | some r => some r
      | none => if w = x then some o else none := by
  unfold pget
  rw [List.find?_append]
  cases h : par.find? (fun e => e.1 == x) with
  | some e => simp [Option.or]
  | none =>
    by_cases hw : w = x
    · simp [Option.or, List.find?, hw]
    · have hwx : (w == x) = false := by
        simp [hw]
      simp [Option.or, List.find?, hwx, hw]

end NX

namespace NX

lemma adjOf_setCap (x a b : Nat) (c : Int) (G : AdjL) :
    adjOf x (setCap a b c G) =
      if x = a
      then (adjOf a G).map (fun w => if w.1 = b then (w.1, c) else w)
      else adjOf x G := by
  have hcomp : ((fun (e : Nat × List (Nat × Int)) => e.1 == x) ∘
      (fun e => if e.1 = a
        then (e.1, e.2.map (fun w => if w.1 = b then (w.1, c) else w))
        else e))
      = (fun (e : Nat × List (Nat × Int)) => e.1 == x) := by
    funext e
    by_cases h : e.1 = a <;> simp [h]
  unfold setCap
  by_cases hx : x = a
  · subst hx
    rw [if_pos rfl]
    unfold adjOf
    rw [List.find?_map, hcomp]
    cases hf : G.find? (fun e => e.1 == x) with
    | none => simp
    | some e =>
      have he1 : e.1 = x := by simpa using List.find?_some hf
      simp only [Option.map_some']
      rw [if_pos he1]
  · rw [if_neg hx]
    unfold adjOf
    rw [List.find?_map, hcomp]
    cases hf : G.find? (fun e => e.1 == x) with
    | none => simp
    | some e =>
      have he1 : e.1 = x := by simpa using List.find?_some hf
      simp only [Option.map_some']
      have hea : ¬ e.1 = a := by rw [he1]; exact hx
      rw [if_neg hea]

end NX

namespace NX

lemma find?_inner_map (y b : Nat) (c : Int) (adj : List (Nat × Int)) :
    (adj.map (fun w => if w.1 = b then (w.1, c) else w)).find?
        (fun w => w.1 == y) =
      Option.map (fun w => if w.1 = b then (w.1, c) else w)
        (adj.find? (fun w => w.1 == y)) := by
  rw [List.find?_map]
  have hcomp : ((fun (w : Nat × Int) => w.1 == y) ∘
      (fun w => if w.1 = b then (w.1, c) else w))
      = (fun (w : Nat × Int) => w.1 == y) := by
    funext w
    by_cases h : w.1 = b <;> simp [h]
  rw [hcomp]

lemma getCap_setCap (x y a b : Nat) (c : Int) (G : AdjL) :
    getCap x y (setCap a b c G) =
      if x = a ∧ y = b ∧ epresent a b G = true then c
      else getCap x y G := by
  unfold getCap epresent
  rw [adjOf_setCap]
  by_cases hx : x = a
  · subst hx
    rw [if_pos rfl, find?_inner_map]
    cases hf : (adjOf x G).find? (fun w => w.1 == y) with
    | none =>
      simp only [Option.map_none']
      by_cases hy : y = b
      · subst hy
        rw [hf]
        simp
      · rw [if_neg (by rintro ⟨-, h, -⟩; exact hy h)]
    | some w =>
      have hw1 : w.1 = y := by simpa using List.find?_some hf
      simp only [Option.map_some']
      by_cases hy : y = b
      · subst hy
        rw [if_pos hw1]
        rw [if_pos ⟨trivial, rfl, by rw [hf]; rfl⟩]
      · have hwb : ¬ w.1 = b := by rw [hw1]; exact hy
        rw [if_neg hwb, if_neg (by rintro ⟨-, h, -⟩; exact hy h)]
  · rw [if_neg hx, if_neg (by rintro ⟨h, -, -⟩; exact hx h)]

lemma epresent_setCap (x y a b : Nat) (c : Int) (G : AdjL) :
    epresent x y (setCap a b c G) = epresent x y G := by
  unfold epresent
  rw [adjOf_setCap]
  by_cases hx : x = a
  · subst hx
    rw [if_pos rfl, find?_inner_map]
    cases hf : (adjOf x G).find? (fun w => w.1 == y) <;> simp
  · rw [if_neg hx]

lemma find?_setAdj (y v : Nat) (c : Int) (adj : List (Nat × Int)) :
    (setAdj v c adj).find? (fun w => w.1 == y) =
      if y = v then some (v, c)
      else adj.find? (fun w => w.1 == y) := by
  induction adj with
  | nil =>
    by_cases h : y = v
    · subst h
      simp [setAdj, List.find?]
    · have hvy : (v == y) = false := by simp [Ne.symm h]
      simp [setAdj, List.find?, hvy, h]
  | cons wc rest ih =>
    obtain ⟨w, cc⟩ := wc
    rw [show setAdj v c ((w, cc) :: rest)
      = if w = v then (w, c) :: rest else (w, cc) :: setAdj v c rest
      from rfl]
    by_cases hwv : w = v
    · subst hwv
      by_cases hy : y = w
      · subst hy
        simp [List.find?]
      · have hwy : (w == y) = false := by simp [Ne.symm hy]
        simp [List.find?, hwy, hy]
    · rw [if_neg hwv]
      by_cases hy : y = w
      · subst hy
        have hyv : ¬ y = v := fun h => hwv h
        rw [List.find?_cons_of_pos _ (by simp), List.find?_cons_of_pos _ (by simp), if_neg hyv]
      · have hne : ¬ (((w, cc) : Nat × Int).1 == y) = true := by simp [Ne.symm hy]
        rw [@List.find?_cons_of_neg _ (fun w => w.1 == y) ((w, cc) : Nat × Int)
            (setAdj v c rest) hne,
          @List.find?_cons_of_neg _ (fun w => w.1 == y) ((w, cc) : Nat × Int)
            rest hne, ih]

end NX

namespace NX

lemma adjOf_addNode (x n : Nat) (G : AdjL) :
    adjOf x (addNode n G) = adjOf x G := by
  unfold addNode
  by_cases h : G.any (fun e => e.1 == n)
  · rw [if_pos h]
  · rw [if_neg h]
    unfold adjOf
    rw [List.find?_append]
    cases hf : G.find? (fun e => e.1 == x) with
    | some e => simp [Option.or]
    | none =>
      by_cases hx : n = x
      · subst hx
        simp [Option.or, List.find?]
      · have hnx : (n == x) = false := by simp [hx]
        simp [Option.or, List.find?, hnx]

end NX

namespace NX

lemma addNode_key_isSome (n : Nat) (G : AdjL) :
    ((addNode n G).find? (fun e => e.1 == n)).isSome := by
  unfold addNode
  by_cases h : G.any (fun e => e.1 == n)
  · rw [if_pos h, ← any_eq_find?_isSome]
    exact h
  · rw [if_neg h, List.find?_append]
    cases hf : G.find? (fun e => e.1 == n) with
    | some e => simp [Option.or]
    | none => simp [Option.or, List.find?]

lemma addNode_key_mono (x n : Nat) (G : AdjL)
    (h : (G.find? (fun e => e.1 == x)).isSome) :
    ((addNode n G).find? (fun e => e.1 == x)).isSome := by
  unfold addNode
  by_cases hn : G.any (fun e => e.1 == n)
  · rw [if_pos hn]
    exact h
  · rw [if_neg hn, List.find?_append]
    cases hf : G.find? (fun e => e.1 == x) with
    | some e => simp [Option.or]
    | none => rw [hf] at h; cases h

lemma adjOf_addEdge (x u v : Nat) (c : Int) (G : AdjL) :
    adjOf x (addEdge u v c G) =
      if x = u then setAdj v c (adjOf u G) else adjOf x G := by
  have hadj2 : ∀ y, adjOf y (addNode v (addNode u G)) = adjOf y G := by
    intro y
    rw [adjOf_addNode, adjOf_addNode]
  unfold addEdge
  have hcomp : ((fun (e : Nat × List (Nat × Int)) => e.1 == x) ∘
      (fun e => if e.1 = u then (e.1, setAdj v c e.2) else e))
      = (fun (e : Nat × List (Nat × Int)) => e.1 == x) := by
    funext e
    by_cases h : e.1 = u <;> simp [h]
  by_cases hx : x = u
  · subst hx
    rw [if_pos rfl]
    conv_lhs => unfold adjOf
    rw [List.find?_map, hcomp]
    cases hf : (addNode v (addNode x G)).find? (fun e => e.1 == x) with
    | none =>
      exfalso
      have h1 : ((addNode x G).find? (fun e => e.1 == x)).isSome :=
        addNode_key_isSome x G
      have h2 := addNode_key_mono x v (addNode x G) h1
      rw [hf] at h2
      cases h2
    | some e =>
      have he1 : e.1 = x := by simpa using List.find?_some hf
      simp only [Option.map_some']
      rw [if_pos he1]
      have he2 : e.2 = adjOf x G := by
        rw [← hadj2 x]
        unfold adjOf
        rw [hf]
      rw [he2]
  · rw [if_neg hx]
    conv_lhs => unfold adjOf
    rw [List.find?_map, hcomp]
    cases hf : (addNode v (addNode u G)).find? (fun e => e.1 == x) with
    | none =>
      have : adjOf x G = [] := by
        rw [← hadj2 x]
        unfold adjOf
        rw [hf]
      rw [this]
      simp
    | some e =>
      have he1 : e.1 = x := by simpa using List.find?_some hf
      simp only [Option.map_some']
      have hea : ¬ e.1 = u := by rw [he1]; exact hx
      rw [if_neg hea]
      rw [← hadj2 x]
      unfold adjOf
      rw [hf]

end NX

namespace NX

lemma epresent_addNode (x y n : Nat) (G : AdjL) :
    epresent x y (addNode n G) = epresent x y G := by
  unfold epresent
  rw [adjOf_addNode]

lemma getCap_addEdge (x y u v : Nat) (c : Int) (G : AdjL) :
    getCap x y (addEdge u v c G) =
      if x = u ∧ y = v then c else getCap x y G := by
  unfold getCap
  rw [adjOf_addEdge]
  by_cases hx : x = u
  · subst hx
    rw [if_pos rfl, find?_setAdj]
    by_cases hy : y = v
    · subst hy
      rw [if_pos rfl, if_pos ⟨rfl, rfl⟩]
    · rw [if_neg hy, if_neg (by rintro ⟨-, h⟩; exact hy h)]
  · rw [if_neg hx, if_neg (by rintro ⟨h, -⟩; exact hx h)]

lemma epresent_addEdge (x y u v : Nat) (c : Int) (G : AdjL) :
    epresent x y (addEdge u v c G) =
      (epresent x y G || (x == u && y == v)) := by
  unfold epresent
  rw [adjOf_addEdge]
  by_cases hx : x = u
  · subst hx
    rw [if_pos rfl, find?_setAdj]
    by_cases hy : y = v
    · subst hy
      simp
    · have hyv : (y == v) = false := by simp [hy]
      rw [if_neg hy]
      simp [hyv]
  · have hxu : (x == u) = false := by simp [hx]
    rw [if_neg hx]
    simp [hxu]

lemma keys_map_keyfix (G : AdjL)
    (f : Nat × List (Nat × Int) → Nat × List (Nat × Int))
    (hf : ∀ e, (f e).1 = e.1) :
    (G.map f).map Prod.fst = G.map Prod.fst := by
  rw [List.map_map]
  exact List.map_congr_left (fun e _ => hf e)

lemma keys_setCap (a b : Nat) (c : Int) (G : AdjL) :
    (setCap a b c G).map Prod.fst = G.map Prod.fst := by
  unfold setCap
  apply keys_map_keyfix
  intro e
  by_cases h : e.1 = a <;> simp [h]

lemma keys_addNode_sub (x n : Nat) (G : AdjL) (h : x ∈ G.map Prod.fst) :
    x ∈ (addNode n G).map Prod.fst := by
  unfold addNode
  by_cases hn : G.any (fun e => e.1 == n)
  · rw [if_pos hn]
    exact h
  · rw [if_neg hn, List.map_append]
    exact List.mem_append_left _ h

lemma keys_addNode_self (n : Nat) (G : AdjL) :
    n ∈ (addNode n G).map Prod.fst := by
  unfold addNode
  by_cases hn : G.any (fun e => e.1 == n)
  · rw [if_pos hn]
    rw [List.any_eq_true] at hn
    obtain ⟨e, he, h1⟩ := hn
    rw [beq_iff_eq] at h1
    exact List.mem_map.mpr ⟨e, he, h1⟩
  · rw [if_neg hn, List.map_append]
    exact List.mem_append_right _ (by simp)

lemma keys_addEdge (u v : Nat) (c : Int) (G : AdjL) :
    (addEdge u v c G).map Prod.fst
      = (addNode v (addNode u G)).map Prod.fst := by
  unfold addEdge
  apply keys_map_keyfix
  intro e
  by_cases h : e.1 = u <;> simp [h]

lemma keys_addEdge_sub (x u v : Nat) (c : Int) (G : AdjL)
    (h : x ∈ G.map Prod.fst) :
    x ∈ (addEdge u v c G).map Prod.fst := by
  rw [keys_addEdge]
  exact keys_addNode_sub x v _ (keys_addNode_sub x u G h)

lemma keys_addEdge_left (u v : Nat) (c : Int) (G : AdjL) :
    u ∈ (addEdge u v c G).map Prod.fst := by
  rw [keys_addEdge]
  exact keys_addNode_sub u v _ (keys_addNode_self u G)

lemma keys_addEdge_right (u v : Nat) (c : Int) (G : AdjL) :
    v ∈ (addEdge u v c G).map Prod.fst := by
  rw [keys_addEdge]
  exact keys_addNode_self v _

end NX

namespace NX

lemma setAdj_keys (v : Nat) (c : Int) (adj : List (Nat × Int)) :
    (setAdj v c adj).map Prod.fst =
      if v ∈ adj.map Prod.fst then adj.map Prod.fst
      else adj.map Prod.fst ++ [v] := by
  induction adj with
  | nil => simp [setAdj]
  | cons wc rest ih =>
    obtain ⟨w, cc⟩ := wc
    rw [show setAdj v c ((w, cc) :: rest)
      = if w = v then (w, c) :: rest else (w, cc) :: setAdj v c rest
      from rfl]
    by_cases hwv : w = v
    · subst hwv
      simp
    · rw [if_neg hwv]
      simp only [List.map_cons]
      rw [ih]
      have hvm : (v ∈ w :: rest.map Prod.fst) ↔ (v ∈ rest.map Prod.fst) := by
        constructor
        · intro h
          rcases List.mem_cons.mp h with h | h
          · exact absurd h.symm hwv
          · exact h
        · exact fun h => List.mem_cons_of_mem _ h
      by_cases hv : v ∈ rest.map Prod.fst
      · rw [if_pos hv, if_pos (hvm.mpr hv)]
      · rw [if_neg hv, if_neg (fun h => hv (hvm.mp h))]
        simp

lemma keysNd_addNode (n : Nat) (G : AdjL) (h : KeysNd G) :
    KeysNd (addNode n G) := by
  unfold addNode
  by_cases hn : G.any (fun e => e.1 == n)
  · rw [if_pos hn]
    exact h
  · rw [if_neg hn]
    unfold KeysNd
    rw [List.map_append]
    have hnot : ¬ n ∈ G.map Prod.fst := by
      intro hm
      obtain ⟨e, he, h1⟩ := List.mem_map.mp hm
      exact hn (List.any_eq_true.mpr ⟨e, he, by rw [beq_iff_eq]; exact h1⟩)
    refine List.nodup_append.mpr ⟨h, List.nodup_singleton n, ?_⟩
    intro a ha hb
    simp at hb
    subst hb
    exact hnot ha

lemma keysNd_addEdge (u v : Nat) (c : Int) (G : AdjL) (h : KeysNd G) :
    KeysNd (addEdge u v c G) := by
  unfold KeysNd
  rw [keys_addEdge]
  exact keysNd_addNode v _ (keysNd_addNode u _ h)

lemma keysNd_setCap (a b : Nat) (c : Int) (G : AdjL) (h : KeysNd G) :
    KeysNd (setCap a b c G) := by
  unfold KeysNd
  rw [keys_setCap]
  exact h

lemma innerNd_setAdj (v : Nat) (c : Int) (adj : List (Nat × Int))
    (h : (adj.map Prod.fst).Nodup) :
    ((setAdj v c adj).map Prod.fst).Nodup := by
  rw [setAdj_keys]
  by_cases hv : v ∈ adj.map Prod.fst
  · rw [if_pos hv]
    exact h
  · rw [if_neg hv]
    refine List.nodup_append.mpr ⟨h, List.nodup_singleton v, ?_⟩
    intro a ha hb
    simp at hb
    subst hb
    exact hv ha

lemma mem_map_of_mem_map {G : AdjL}
    {f : Nat × List (Nat × Int) → Nat × List (Nat × Int)} {e' : Nat × List (Nat × Int)}
    (h : e' ∈ G.map f) : ∃ e ∈ G, f e = e' :=
  List.mem_map.mp h

lemma innerNd_addNode (n : Nat) (G : AdjL) (h : InnerNd G) :
    InnerNd (addNode n G) := by
  unfold addNode
  by_cases hn : G.any (fun e => e.1 == n)
  · rw [if_pos hn]
    exact h
  · rw [if_neg hn]
    intro e he
    rcases List.mem_append.mp he with he | he
    · exact h e he
    · rw [List.mem_singleton] at he
      subst he
      simp

lemma innerNd_addEdge (u v : Nat) (c : Int) (G : AdjL) (h : InnerNd G) :
    InnerNd (addEdge u v c G) := by
  unfold addEdge
  intro e' he'
  obtain ⟨e, he, rfl⟩ := List.mem_map.mp he'
  have hinner : (e.2.map Prod.fst).Nodup :=
    innerNd_addNode v _ (innerNd_addNode u G h) e he
  by_cases h1 : e.1 = u
  · rw [if_pos h1]
    exact innerNd_setAdj v c e.2 hinner
  · rw [if_neg h1]
    exact hinner

lemma innerNd_setCap (a b : Nat) (c : Int) (G : AdjL) (h : InnerNd G) :
    InnerNd (setCap a b c G) := by
  unfold setCap
  intro e' he'
  obtain ⟨e, he, rfl⟩ := List.mem_map.mp he'
  by_cases h1 : e.1 = a
  · rw [if_pos h1]
    have : ((e.2.map (fun w => if w.1 = b then (w.1, c) else w)).map Prod.fst)
        = e.2.map Prod.fst := by
      rw [List.map_map]
      refine List.map_congr_left (fun w _ => ?_)
      by_cases hw : w.1 = b <;> simp [hw]
    show ((e.2.map (fun w => if w.1 = b then (w.1, c) else w)).map Prod.fst).Nodup
    rw [this]
    exact h e he
  · rw [if_neg h1]
    exact h e he

end NX

namespace NX

lemma adjOf_cases (u : Nat) (G : AdjL) :
    adjOf u G = [] ∨ ∃ e ∈ G, e.1 = u ∧ adjOf u G = e.2 := by
  unfold adjOf
  cases hf : G.find? (fun e => e.1 == u) with
  | none => exact Or.inl rfl
  | some e =>
    refine Or.inr ⟨e, List.mem_of_find?_eq_some hf, ?_, rfl⟩
    simpa using List.find?_some hf

lemma closedT_addNode (n : Nat) (G : AdjL) (h : ClosedT G) :
    ClosedT (addNode n G) := by
  unfold addNode
  by_cases hn : G.any (fun e => e.1 == n)
  · rw [if_pos hn]
    exact h
  · rw [if_neg hn]
    intro e he w hw
    rcases List.mem_append.mp he with he | he
    · rw [List.map_append]
      exact List.mem_append_left _ (h e he w hw)
    · rw [List.mem_singleton] at he
      subst he
      cases hw

lemma setAdj_mem_keys (v : Nat) (c : Int) (adj : List (Nat × Int))
    (w : Nat × Int) (hw : w ∈ setAdj v c adj) :
    w ∈ adj ∨ w.1 = v := by
  rcases setAdj_mem v c adj w hw with h | h
  · exact Or.inl h
  · exact Or.inr (by rw [h])

lemma closedT_addEdge (u v : Nat) (c : Int) (G : AdjL) (h : ClosedT G) :
    ClosedT (addEdge u v c G) := by
  intro e' he' w hw
  unfold addEdge at he'
  obtain ⟨e, he, rfl⟩ := List.mem_map.mp he'
  have heG2 : ClosedT (addNode v (addNode u G)) :=
    closedT_addNode v _ (closedT_addNode u G h)
  have hkeys : ∀ x, x ∈ (addNode v (addNode u G)).map Prod.fst →
      x ∈ (addEdge u v c G).map Prod.fst := by
    intro x hx
    rw [keys_addEdge]
    exact hx
  by_cases h1 : e.1 = u
  · rw [if_pos h1] at hw
    rcases setAdj_mem_keys v c e.2 w hw with hmem | hv
    · exact hkeys w.1 (heG2 e he w hmem)
    · rw [hv]
      exact keys_addEdge_right u v c G
  · rw [if_neg h1] at hw
    exact hkeys w.1 (heG2 e he w hw)

lemma closedT_setCap (a b : Nat) (c : Int) (G : AdjL) (h : ClosedT G) :
    ClosedT (setCap a b c G) := by
  intro e' he' w hw
  unfold setCap at he'
  obtain ⟨e, he, rfl⟩ := List.mem_map.mp he'
  rw [keys_setCap]
  by_cases h1 : e.1 = a
  · rw [if_pos h1] at hw
    obtain ⟨w0, hw0, hww⟩ := List.mem_map.mp hw
    have : w.1 = w0.1 := by
      rw [← hww]
      by_cases hb : w0.1 = b <;> simp [hb]
    rw [this]
    exact h e he w0 hw0
  · rw [if_neg h1] at hw
    exact h e he w hw

lemma nonnegR_addNode (n : Nat) (G : AdjL) (h : NonnegR G) :
    NonnegR (addNode n G) := by
  unfold addNode
  by_cases hn : G.any (fun e => e.1 == n)
  · rw [if_pos hn]
    exact h
  · rw [if_neg hn]
    intro e he w hw
    rcases List.mem_append.mp he with he | he
    · exact h e he w hw
    · rw [List.mem_singleton] at he
      subst he
      cases hw

lemma nonnegR_addEdge (u v : Nat) (c : Int) (G : AdjL) (hc : 0 ≤ c)
    (h : NonnegR G) : NonnegR (addEdge u v c G) := by
  intro e' he' w hw
  unfold addEdge at he'
  obtain ⟨e, he, rfl⟩ := List.mem_map.mp he'
  have hG2 : NonnegR (addNode v (addNode u G)) :=
    nonnegR_addNode v _ (nonnegR_addNode u G h)
  by_cases h1 : e.1 = u
  · rw [if_pos h1] at hw
    rcases setAdj_mem v c e.2 w hw with hmem | hvc
    · exact hG2 e he w hmem
    · rw [hvc]
      exact hc
  · rw [if_neg h1] at hw
    exact hG2 e he w hw

lemma nonnegR_setCap (a b : Nat) (c : Int) (G : AdjL) (hc : 0 ≤ c)
    (h : NonnegR G) : NonnegR (setCap a b c G) := by
  intro e' he' w hw
  unfold setCap at he'
  obtain ⟨e, he, rfl⟩ := List.mem_map.mp he'
  by_cases h1 : e.1 = a
  · rw [if_pos h1] at hw
    obtain ⟨w0, hw0, hww⟩ := List.mem_map.mp hw
    by_cases hb : w0.1 = b
    · rw [if_pos hb] at hww
      rw [← hww]
      exact hc
    · rw [if_neg hb] at hww
      rw [← hww]
      exact h e he w0 hw0
  · rw [if_neg h1] at hw
    exact h e he w hw

lemma getCap_nonneg (x y : Nat) (G : AdjL) (h : NonnegR G) :
    0 ≤ getCap x y G := by
  unfold getCap
  cases hf : (adjOf x G).find? (fun w => w.1 == y) with
  | none => exact le_refl 0
  | some w =>
    have hwmem : w ∈ adjOf x G := List.mem_of_find?_eq_some hf
    rcases adjOf_cases x G with hempty | ⟨e, he, -, hadj⟩
    · rw [hempty] at hwmem
      cases hwmem
    · rw [hadj] at hwmem
      exact h e he w hwmem

end NX

namespace NX

lemma hasEdge_eq_epresent (u v : Nat) (G : AdjL) (h : KeysNd G) :
    hasEdge u v G = epresent u v G := by
  induction G with
  | nil => rfl
  | cons e rest ih =>
    have hnd : KeysNd rest := by
      have := h
      unfold KeysNd at this ⊢
      rw [List.map_cons, List.nodup_cons] at this
      exact this.2
    have hhead : ¬ e.1 ∈ rest.map Prod.fst := by
      have := h
      unfold KeysNd at this
      rw [List.map_cons, List.nodup_cons] at this
      exact this.1
    unfold hasEdge epresent adjOf
    rw [List.any_cons]
    by_cases he : e.1 = u
    · have hbeq : (e.1 == u) = true := by rw [beq_iff_eq]; exact he
      have hrest : rest.any (fun e' => e'.1 == u && e'.2.any (fun w => w.1 == v))
          = false := by
        rw [Bool.eq_false_iff]
        intro hany
        obtain ⟨e', he', hcond⟩ := List.any_eq_true.mp hany
        rw [Bool.and_eq_true] at hcond
        rw [beq_iff_eq] at hcond
        exact hhead (he ▸ hcond.1 ▸ List.mem_map.mpr ⟨e', he', rfl⟩)
      rw [hrest, @List.find?_cons_of_pos _ (fun e : Nat × List (Nat × Int) => e.1 == u) e rest hbeq]
      simp only [Bool.or_false, hbeq, Bool.true_and]
      exact any_eq_find?_isSome _ e.2
    · have hbeq : (e.1 == u) = false := by simp [he]
      rw [@List.find?_cons_of_neg _ (fun e : Nat × List (Nat × Int) => e.1 == u) e rest (by simp [he])]
      simp only [hbeq, Bool.false_and, Bool.false_or]
      have := ih hnd
      unfold hasEdge epresent adjOf at this
      exact this

end NX

namespace NX

lemma augPair_conserve (a b : Nat) (pf : Int) (R : AdjL) (hsym : SymR R)
    (x y : Nat) :
    getCap x y (setCap b a
        (getCap b a (setCap a b (getCap a b R - pf) R) + pf)
        (setCap a b (getCap a b R - pf) R)) +
      getCap y x (setCap b a
        (getCap b a (setCap a b (getCap a b R - pf) R) + pf)
        (setCap a b (getCap a b R - pf) R))
      = getCap x y R + getCap y x R := by
  have hba : epresent b a (setCap a b (getCap a b R - pf) R)
      = epresent a b R := by
    rw [epresent_setCap]
    exact hsym b a
  by_cases hE : epresent a b R = true
  · have h1 : ∀ x' y', getCap x' y' (setCap a b (getCap a b R - pf) R)
        = if x' = a ∧ y' = b then getCap a b R - pf else getCap x' y' R := by
      intro x' y'
      rw [getCap_setCap]
      by_cases hc : x' = a ∧ y' = b
      · rw [if_pos ⟨hc.1, hc.2, hE⟩, if_pos hc]
      · rw [if_neg (fun hcc => hc ⟨hcc.1, hcc.2.1⟩), if_neg hc]
    have h2 : ∀ x' y', getCap x' y' (setCap b a
          (getCap b a (setCap a b (getCap a b R - pf) R) + pf)
          (setCap a b (getCap a b R - pf) R))
        = if x' = b ∧ y' = a
          then getCap b a (setCap a b (getCap a b R - pf) R) + pf
          else getCap x' y' (setCap a b (getCap a b R - pf) R) := by
      intro x' y'
      rw [getCap_setCap]
      by_cases hc : x' = b ∧ y' = a
      · rw [if_pos ⟨hc.1, hc.2, by rw [hba]; exact hE⟩, if_pos hc]
      · rw [if_neg (fun hcc => hc ⟨hcc.1, hcc.2.1⟩), if_neg hc]
    rw [h2 x y, h2 y x, h1 b a, h1 x y, h1 y x]
    by_cases hab : a = b <;> by_cases hxa : x = a <;> by_cases hxb : x = b <;>
      by_cases hya : y = a <;> by_cases hyb : y = b <;>
      simp_all
  · have hEf : epresent a b R = false := by
      cases h : epresent a b R
      · rfl
      · exact absurd h hE
    have h1 : ∀ x' y', getCap x' y' (setCap a b (getCap a b R - pf) R)
        = getCap x' y' R := by
      intro x' y'
      rw [getCap_setCap, if_neg]
      rintro ⟨-, -, h⟩
      rw [hEf] at h
      cases h
    have h2 : getCap x y (setCap b a
          (getCap b a (setCap a b (getCap a b R - pf) R) + pf)
          (setCap a b (getCap a b R - pf) R))
        = getCap x y (setCap a b (getCap a b R - pf) R) ∧
        getCap y x (setCap b a
          (getCap b a (setCap a b (getCap a b R - pf) R) + pf)
          (setCap a b (getCap a b R - pf) R))
        = getCap y x (setCap a b (getCap a b R - pf) R) := by
      constructor <;>
      · rw [getCap_setCap, if_neg]
        rintro ⟨-, -, h⟩
        rw [hba, hEf] at h
        cases h
    rw [h2.1, h2.2, h1 x y, h1 y x]

end NX

namespace NX

lemma augPair_epresent (a b : Nat) (pf : Int) (R : AdjL) (x y : Nat) :
    epresent x y (setCap b a
        (getCap b a (setCap a b (getCap a b R - pf) R) + pf)
        (setCap a b (getCap a b R - pf) R))
      = epresent x y R := by
  rw [epresent_setCap, epresent_setCap]

lemma augFold_conserve (pf : Int) :
    ∀ (l : List (Nat × Nat)) (R : AdjL), SymR R →
      (∀ x y, getCap x y (l.foldl (fun R e =>
            let R1 := setCap e.1 e.2 (getCap e.1 e.2 R - pf) R
            setCap e.2 e.1 (getCap e.2 e.1 R1 + pf) R1) R) +
          getCap y x (l.foldl (fun R e =>
            let R1 := setCap e.1 e.2 (getCap e.1 e.2 R - pf) R
            setCap e.2 e.1 (getCap e.2 e.1 R1 + pf) R1) R)
        = getCap x y R + getCap y x R) ∧
      SymR (l.foldl (fun R e =>
            let R1 := setCap e.1 e.2 (getCap e.1 e.2 R - pf) R
            setCap e.2 e.1 (getCap e.2 e.1 R1 + pf) R1) R) := by
  intro l
  induction l with
  | nil => exact fun R h => ⟨fun x y => rfl, h⟩
  | cons e rest ih =>
    intro R hsym
    simp only [List.foldl_cons]
    have hsym' : SymR (setCap e.2 e.1
        (getCap e.2 e.1 (setCap e.1 e.2 (getCap e.1 e.2 R - pf) R) + pf)
        (setCap e.1 e.2 (getCap e.1 e.2 R - pf) R)) := by
      intro x y
      rw [augPair_epresent, augPair_epresent]
      exact hsym x y
    obtain ⟨hcons, hsymf⟩ := ih _ hsym'
    refine ⟨fun x y => ?_, hsymf⟩
    rw [hcons x y]
    exact augPair_conserve e.1 e.2 pf R hsym x y

lemma applyAug_conserve (pf : Int) (p : List Nat) (R : AdjL)
    (hsym : SymR R) (x y : Nat) :
    getCap x y (applyAug pf p R) + getCap y x (applyAug pf p R)
      = getCap x y R + getCap y x R :=
  (augFold_conserve pf (p.zip p.tail) R hsym).1 x y

lemma applyAug_symR (pf : Int) (p : List Nat) (R : AdjL) (hsym : SymR R) :
    SymR (applyAug pf p R) :=
  (augFold_conserve pf (p.zip p.tail) R hsym).2

end NX

namespace NX

lemma rows_empty_foldl_addNode :
    ∀ (ns : List Nat) (R : AdjL), (∀ e ∈ R, e.2 = ([] : List (Nat × Int))) →
      ∀ e ∈ ns.foldl (fun R n => addNode n R) R, e.2 = [] := by
  intro ns
  induction ns with
  | nil => exact fun R h => h
  | cons n rest ih =>
    intro R h
    simp only [List.foldl_cons]
    refine ih (addNode n R) ?_
    intro e he
    unfold addNode at he
    by_cases hn : R.any (fun e => e.1 == n)
    · rw [if_pos hn] at he
      exact h e he
    · rw [if_neg hn] at he
      rcases List.mem_append.mp he with he | he
      · exact h e he
      · rw [List.mem_singleton] at he
        rw [he]

lemma keysNd_foldl_addNode :
    ∀ (ns : List Nat) (R : AdjL), KeysNd R →
      KeysNd (ns.foldl (fun R n => addNode n R) R) := by
  intro ns
  induction ns with
  | nil => exact fun R h => h
  | cons n rest ih =>
    intro R h
    exact ih (addNode n R) (keysNd_addNode n R h)

lemma epresent_rows_empty (R : AdjL)
    (h : ∀ e ∈ R, e.2 = ([] : List (Nat × Int))) (x y : Nat) :
    epresent x y R = false := by
  unfold epresent
  rcases adjOf_cases x R with hadj | ⟨e, he, -, hadj⟩
  · rw [hadj]
    rfl
  · rw [hadj, h e he]
    rfl

lemma buildStep_symR (u v : Nat) (c : Int) (R : AdjL) (hnd : KeysNd R)
    (hsym : SymR R) :
    SymR (if hasEdge v u (addEdge u v c R) then addEdge u v c R
      else addEdge v u 0 (addEdge u v c R)) := by
  by_cases hbr : hasEdge v u (addEdge u v c R) = true
  · rw [if_pos hbr]
    have htrue : epresent v u (addEdge u v c R) = true := by
      rw [← hasEdge_eq_epresent v u _ (keysNd_addEdge u v c R hnd)]
      exact hbr
    rw [epresent_addEdge] at htrue
    simp only [Bool.or_eq_true, Bool.and_eq_true, beq_iff_eq] at htrue
    intro x y
    apply Bool.eq_iff_iff.mpr
    rw [epresent_addEdge, epresent_addEdge]
    simp only [Bool.or_eq_true, Bool.and_eq_true, beq_iff_eq]
    constructor
    · rintro (hEp | ⟨rfl, rfl⟩)
      · left
        rw [← hsym x y]
        exact hEp
      · exact htrue
    · rintro (hEp | ⟨rfl, rfl⟩)
      · left
        rw [hsym x y]
        exact hEp
      · exact htrue
  · rw [if_neg hbr]
    intro x y
    apply Bool.eq_iff_iff.mpr
    rw [epresent_addEdge, epresent_addEdge, epresent_addEdge,
      epresent_addEdge]
    simp only [Bool.or_eq_true, Bool.and_eq_true, beq_iff_eq]
    constructor
    · rintro ((hEp | ⟨rfl, rfl⟩) | ⟨rfl, rfl⟩)
      · left
        left
        rw [← hsym x y]
        exact hEp
      · right
        exact ⟨rfl, rfl⟩
      · left
        right
        exact ⟨rfl, rfl⟩
    · rintro ((hEp | ⟨rfl, rfl⟩) | ⟨rfl, rfl⟩)
      · left
        left
        rw [hsym x y]
        exact hEp
      · right
        exact ⟨rfl, rfl⟩
      · left
        right
        exact ⟨rfl, rfl⟩

end NX

namespace NX

lemma buildStep_invs (u v : Nat) (c : Int) (R : AdjL)
    (h : KeysNd R ∧ InnerNd R ∧ ClosedT R ∧ SymR R) :
    KeysNd (if hasEdge v u (addEdge u v c R) then addEdge u v c R
        else addEdge v u 0 (addEdge u v c R)) ∧
      InnerNd (if hasEdge v u (addEdge u v c R) then addEdge u v c R
        else addEdge v u 0 (addEdge u v c R)) ∧
      ClosedT (if hasEdge v u (addEdge u v c R) then addEdge u v c R
        else addEdge v u 0 (addEdge u v c R)) ∧
      SymR (if hasEdge v u (addEdge u v c R) then addEdge u v c R
        else addEdge v u 0 (addEdge u v c R)) := by
  obtain ⟨h1, h2, h3, h4⟩ := h
  refine ⟨?_, ?_, ?_, buildStep_symR u v c R h1 h4⟩ <;>
    by_cases hbr : hasEdge v u (addEdge u v c R) = true
  · rw [if_pos hbr]
    exact keysNd_addEdge u v c R h1
  · rw [if_neg hbr]
    exact keysNd_addEdge v u 0 _ (keysNd_addEdge u v c R h1)
  · rw [if_pos hbr]
    exact innerNd_addEdge u v c R h2
  · rw [if_neg hbr]
    exact innerNd_addEdge v u 0 _ (innerNd_addEdge u v c R h2)
  · rw [if_pos hbr]
    exact closedT_addEdge u v c R h3
  · rw [if_neg hbr]
    exact closedT_addEdge v u 0 _ (closedT_addEdge u v c R h3)

lemma buildFold_invs :
    ∀ (es : List (Nat × Nat × Int)) (R : AdjL),
      KeysNd R ∧ InnerNd R ∧ ClosedT R ∧ SymR R →
      KeysNd (es.foldl (fun R e =>
          let R1 := addEdge e.1 e.2.1 e.2.2 R
          if hasEdge e.2.1 e.1 R1 then R1 else addEdge e.2.1 e.1 0 R1) R) ∧
      InnerNd (es.foldl (fun R e =>
          let R1 := addEdge e.1 e.2.1 e.2.2 R
          if hasEdge e.2.1 e.1 R1 then R1 else addEdge e.2.1 e.1 0 R1) R) ∧
      ClosedT (es.foldl (fun R e =>
          let R1 := addEdge e.1 e.2.1 e.2.2 R
          if hasEdge e.2.1 e.1 R1 then R1 else addEdge e.2.1 e.1 0 R1) R) ∧
      SymR (es.foldl (fun R e =>
          let R1 := addEdge e.1 e.2.1 e.2.2 R
          if hasEdge e.2.1 e.1 R1 then R1 else addEdge e.2.1 e.1 0 R1) R) := by
  intro es
  induction es with
  | nil => exact fun R h => h
  | cons e rest ih =>
    intro R h
    simp only [List.foldl_cons]
    exact ih _ (buildStep_invs e.1 e.2.1 e.2.2 R h)

lemma innerNd_foldl_addNode :
    ∀ (ns : List Nat) (R : AdjL), InnerNd R →
      InnerNd (ns.foldl (fun R n => addNode n R) R) := by
  intro ns
  induction ns with
  | nil => exact fun R h => h
  | cons n rest ih =>
    intro R h
    exact ih (addNode n R) (innerNd_addNode n R h)

lemma buildResidual_invs (G : NXGraph) :
    KeysNd (buildResidual G) ∧ InnerNd (buildResidual G) ∧
      ClosedT (buildResidual G) ∧ SymR (buildResidual G) := by
  unfold buildResidual
  apply buildFold_invs
  have hrows : ∀ e ∈ G.nodes.foldl (fun R n => addNode n R) [],
      e.2 = ([] : List (Nat × Int)) :=
    rows_empty_foldl_addNode G.nodes [] (by intro e he; cases he)
  refine ⟨keysNd_foldl_addNode G.nodes [] (by simp [KeysNd]),
    innerNd_foldl_addNode G.nodes [] (by intro e he; cases he), ?_, ?_⟩
  · intro e he w hw
    rw [hrows e he] at hw
    cases hw
  · intro x y
    rw [epresent_rows_empty _ hrows x y, epresent_rows_empty _ hrows y x]

end NX

namespace NX

lemma nxRtg_conserve {s t : Nat} {st st' : AdjL × Int}
    (h : Relation.ReflTransGen (NXStep s t) st st') (hsym : SymR st.1) :
    SymR st'.1 ∧ ∀ x y, getCap x y st'.1 + getCap y x st'.1
      = getCap x y st.1 + getCap y x st.1 := by
  induction h with
  | refl => exact ⟨hsym, fun x y => rfl⟩
  | tail hrtg hstep ih =>
    obtain ⟨hsym2, hcons⟩ := ih
    obtain ⟨p, pf, hb, hpm, hR, ha⟩ := hstep
    rw [hR]
    refine ⟨applyAug_symR pf p _ hsym2, fun x y => ?_⟩
    rw [applyAug_conserve pf p _ hsym2 x y]
    exact hcons x y

end NX
namespace NX

lemma dchain_det {R : AdjL} {s : Nat} {par : List (Nat × Option Nat)} :
    ∀ {l₁ : List Nat} {v : Nat} {l₂ : List Nat},
      DChain R s par (v :: l₁) → DChain R s par (v :: l₂) →
      l₁ = l₂ := by
  intro l₁
  induction l₁ with
  | nil =>
    intro v l₂ h₁ h₂
    cases h₁ with
    | base =>
      cases h₂ with
      | base => rfl
      | step _ _ _ hv _ _ _ => exact absurd rfl hv
  | cons u l₁' ih =>
    intro v l₂ h₁ h₂
    cases h₁ with
    | step _ _ _ hv hp hpos hch₁ =>
      cases h₂ with
      | base => exact absurd rfl hv
      | step _ u₂ l₂' _ hp₂ _ hch₂ =>
        have hu : u = u₂ := by
          have := hp.symm.trans hp₂
          simpa using this
        subst hu
        rw [ih hch₁ hch₂]

lemma dchain_mem_suffix {R : AdjL} {s : Nat}
    {par : List (Nat × Option Nat)} :
    ∀ {L : List Nat}, DChain R s par L → ∀ {x : Nat}, x ∈ L →
      ∃ m, DChain R s par (x :: m) ∧ (x :: m).length ≤ L.length := by
  intro L h
  induction h with
  | base =>
    intro x hx
    rw [List.mem_singleton] at hx
    subst hx
    exact ⟨[], DChain.base, le_refl _⟩
  | step v u l hv hp hpos hch ih =>
    intro x hx
    rcases List.mem_cons.mp hx with rfl | hx'
    · exact ⟨u :: l, DChain.step _ u l hv hp hpos hch, le_refl _⟩
    · obtain ⟨m, hm, hlen⟩ := ih hx'
      exact ⟨m, hm, Nat.le_succ_of_le hlen⟩

lemma dchain_nodup {R : AdjL} {s : Nat} {par : List (Nat × Option Nat)} :
    ∀ {L : List Nat}, DChain R s par L → L.Nodup := by
  intro L h
  induction h with
  | base => simp
  | step v u l hv hp hpos hch ih =>
    refine List.nodup_cons.mpr ⟨?_, ih⟩
    intro hmem
    obtain ⟨m, hm, hlen⟩ := dchain_mem_suffix hch hmem
    have hdet := dchain_det hm (DChain.step v u l hv hp hpos hch)
    rw [hdet] at hlen
    simp at hlen

lemma dchain_last {R : AdjL} {s : Nat} {par : List (Nat × Option Nat)} :
    ∀ {L : List Nat}, DChain R s par L → L.getLast? = some s := by
  intro L h
  induction h with
  | base => rfl
  | step v u l _ _ _ _ ih => rw [List.getLast?_cons_cons]; exact ih

lemma dchain_keys {R : AdjL} {s : Nat} {par : List (Nat × Option Nat)}
    (hs : (pget s par).isSome) :
    ∀ {L : List Nat}, DChain R s par L → ∀ x ∈ L, (pget x par).isSome := by
  intro L h
  induction h with
  | base =>
    intro x hx
    rw [List.mem_singleton] at hx
    subst hx
    exact hs
  | step v u l hv hp hpos hch ih =>
    intro x hx
    rcases List.mem_cons.mp hx with rfl | hx'
    · rw [hp]
      rfl
    · exact ih x hx'

lemma pget_isSome_mem_keys {x : Nat} {par : List (Nat × Option Nat)}
    (h : (pget x par).isSome) : x ∈ par.map Prod.fst := by
  unfold pget at h
  cases hf : par.find? (fun e => e.1 == x) with
  | none => rw [hf] at h; cases h
  | some e =>
    have he1 : e.1 = x := by simpa using List.find?_some hf
    exact List.mem_map.mpr ⟨e, List.mem_of_find?_eq_some hf, he1⟩

lemma dchain_length_le {R : AdjL} {s : Nat}
    {par : List (Nat × Option Nat)} {L : List Nat}
    (h : DChain R s par L) (hs : (pget s par).isSome) :
    L.length ≤ par.length := by
  have hnd : L.Nodup := dchain_nodup h
  have hsub : L.toFinset ⊆ (par.map Prod.fst).toFinset := by
    intro x hx
    rw [List.mem_toFinset] at hx
    rw [List.mem_toFinset]
    exact pget_isSome_mem_keys (dchain_keys hs h x hx)
  have hcard := Finset.card_le_card hsub
  rw [List.toFinset_card_of_nodup hnd] at hcard
  calc L.length ≤ (par.map Prod.fst).toFinset.card := hcard
    _ ≤ (par.map Prod.fst).length := List.toFinset_card_le _
    _ = par.length := List.length_map _ _

lemma reconstruct_spec {R : AdjL} {s : Nat} {par : List (Nat × Option Nat)}
    (hs : pget s par = some none) :
    ∀ {L : List Nat} (v : Nat) (l : List Nat), L = v :: l →
      DChain R s par L → ∀ fuel, L.length ≤ fuel → ∀ acc,
      reconstruct par fuel v acc = some (acc ++ L) := by
  intro L
  intro v l hL h
  induction h generalizing v l with
  | base =>
    cases hL
    intro fuel hfuel acc
    obtain ⟨f, rfl⟩ : ∃ f, fuel = f + 1 := by
      cases fuel with
      | zero => simp at hfuel
      | succ f => exact ⟨f, rfl⟩
    show reconstruct par (f + 1) s acc = some (acc ++ [s])
    unfold reconstruct
    rw [hs]
  | step v' u l' hv hp hpos hch ih =>
    cases hL
    intro fuel hfuel acc
    obtain ⟨f, rfl⟩ : ∃ f, fuel = f + 1 := by
      cases fuel with
      | zero => simp at hfuel
      | succ f => exact ⟨f, rfl⟩
    show reconstruct par (f + 1) v' acc = some (acc ++ v' :: u :: l')
    unfold reconstruct
    rw [hp]
    show reconstruct par f u (acc ++ [v']) = some (acc ++ v' :: u :: l')
    have hlen : (u :: l').length ≤ f := by
      simp only [List.length_cons] at hfuel ⊢
      omega
    rw [ih u l' rfl f hlen (acc ++ [v'])]
    rw [List.append_assoc]
    rfl

end NX

namespace NX

lemma nxScan_eq_foldl (u : Nat) :
    ∀ (adj : List (Nat × Int)) (st : List Nat × List (Nat × Option Nat)),
      adj.foldl
        (fun (st : List Nat × List (Nat × Option Nat)) w =>
          if pmem w.1 st.2 = false ∧ 0 < w.2 then
            (st.1 ++ [w.1], st.2 ++ [(w.1, some u)])
          else st) st
      = nxScan u adj st := by
  intro adj
  induction adj with
  | nil => intro st; rfl
  | cons w adj ih =>
    intro st
    rw [List.foldl_cons, ih]
    rfl

end NX

namespace NX

lemma pget_append_of_isSome {x w : Nat} {o : Option Nat}
    {par : List (Nat × Option Nat)} (h : (pget x par).isSome) :
    pget x (par ++ [(w, o)]) = pget x par := by
  rw [pget_append]
  cases hp : pget x par with
  | none => rw [hp] at h; cases h
  | some r => rfl

lemma pget_append_fresh {w : Nat} {o : Option Nat}
    {par : List (Nat × Option Nat)} (h : pmem w par = false) :
    pget w (par ++ [(w, o)]) = some o := by
  rw [pget_append]
  have hnone : pget w par = none := by
    rw [pmem_eq_pget_isSome] at h
    cases hp : pget w par with
    | none => rfl
    | some r => rw [hp] at h; cases h
  rw [hnone]
  rw [if_pos rfl]

lemma dchain_lift {R : AdjL} {s : Nat} {par : List (Nat × Option Nat)}
    (w : Nat) (o : Option Nat) :
    ∀ {L : List Nat}, DChain R s par L →
      DChain R s (par ++ [(w, o)]) L := by
  intro L h
  induction h with
  | base => exact DChain.base
  | step v u l hv hp hpos hch ih =>
    refine DChain.step v u l hv ?_ hpos ih
    rw [pget_append_of_isSome (by rw [hp]; rfl)]
    exact hp

lemma filter_length_mono {α : Type} (p p' : α → Bool) (l : List α)
    (hmono : ∀ x, p' x = true → p x = true) :
    (l.filter p').length ≤ (l.filter p).length := by
  induction l with
  | nil => exact le_refl 0
  | cons a rest ih =>
    cases hp' : p' a with
    | true =>
      rw [List.filter_cons_of_pos hp', List.filter_cons_of_pos (hmono a hp')]
      simpa using ih
    | false =>
      rw [List.filter_cons_of_neg (by rw [hp']; exact Bool.false_ne_true)]
      cases hp : p a with
      | true =>
        rw [List.filter_cons_of_pos hp]
        exact le_trans ih (by simp)
      | false =>
        rw [List.filter_cons_of_neg (by rw [hp]; exact Bool.false_ne_true)]
        exact ih

lemma filter_length_lt {α : Type} (p p' : α → Bool) (l : List α)
    (hmono : ∀ x, p' x = true → p x = true) (w : α) (hw : w ∈ l)
    (hpw : p w = true) (hp'w : p' w = false) :
    (l.filter p').length < (l.filter p).length := by
  induction l with
  | nil => cases hw
  | cons a rest ih =>
    rcases List.mem_cons.mp hw with rfl | hwr
    · rw [List.filter_cons_of_pos hpw,
        List.filter_cons_of_neg (by rw [hp'w]; exact Bool.false_ne_true)]
      have := filter_length_mono p p' rest hmono
      simp only [List.length_cons]
      omega
    · have hlt := ih hwr
      cases hp' : p' a with
      | true =>
        rw [List.filter_cons_of_pos hp', List.filter_cons_of_pos (hmono a hp')]
        simpa using hlt
      | false =>
        rw [List.filter_cons_of_neg (by rw [hp']; exact Bool.false_ne_true)]
        cases hp : p a with
        | true =>
          rw [List.filter_cons_of_pos hp]
          simp only [List.length_cons]
          omega
        | false =>
          rw [List.filter_cons_of_neg (by rw [hp]; exact Bool.false_ne_true)]
          exact hlt

lemma find?_of_mem_nodup (adj : List (Nat × Int))
    (hnd : (adj.map Prod.fst).Nodup) (w : Nat × Int) (hw : w ∈ adj) :
    adj.find? (fun x => x.1 == w.1) = some w := by
  induction adj with
  | nil => cases hw
  | cons a rest ih =>
    rw [List.map_cons, List.nodup_cons] at hnd
    rcases List.mem_cons.mp hw with rfl | hwr
    · exact List.find?_cons_of_pos _ (by simp)
    · have hne : ¬ a.1 = w.1 := by
        intro h
        exact hnd.1 (h ▸ List.mem_map.mpr ⟨w, hwr, rfl⟩)
      rw [@List.find?_cons_of_neg _ (fun x : Nat × Int => x.1 == w.1) a rest
        (by simp [hne])]
      exact ih hnd.2 hwr

lemma adjOf_innerNd (u : Nat) (G : AdjL) (h : InnerNd G) :
    ((adjOf u G).map Prod.fst).Nodup := by
  rcases adjOf_cases u G with hadj | ⟨e, he, -, hadj⟩
  · rw [hadj]
    exact List.nodup_nil
  · rw [hadj]
    exact h e he

lemma getCap_of_mem_adjOf (u : Nat) (G : AdjL) (h : InnerNd G)
    (w : Nat × Int) (hw : w ∈ adjOf u G) : getCap u w.1 G = w.2 := by
  unfold getCap
  rw [find?_of_mem_nodup (adjOf u G) (adjOf_innerNd u G h) w hw]

lemma mem_adjOf_keys (u : Nat) (G : AdjL) (h : ClosedT G)
    (w : Nat × Int) (hw : w ∈ adjOf u G) : w.1 ∈ G.map Prod.fst := by
  rcases adjOf_cases u G with hadj | ⟨e, he, -, hadj⟩
  · rw [hadj] at hw
    cases hw
  · rw [hadj] at hw
    exact h e he w hw

end NX

namespace NX

lemma nxScan_inv (R : AdjL) (s u : Nat) :
    ∀ (adj : List (Nat × Int)) (q : List Nat)
      (par : List (Nat × Option Nat)),
      (∀ w ∈ adj, getCap u w.1 R = w.2) →
      (∀ w ∈ adj, w.1 ∈ R.map Prod.fst) →
      (∃ lu, DChain R s par (u :: lu)) →
      pget s par = some none →
      (∀ x, pmem x par = true → ∃ l, DChain R s par (x :: l)) →
      (∀ x ∈ q, pmem x par = true) →
      pget s (nxScan u adj (q, par)).2 = some none ∧
      (∀ x, pmem x (nxScan u adj (q, par)).2 = true →
        ∃ l, DChain R s (nxScan u adj (q, par)).2 (x :: l)) ∧
      (∀ x ∈ (nxScan u adj (q, par)).1,
        pmem x (nxScan u adj (q, par)).2 = true) ∧
      unpar R (nxScan u adj (q, par)).2 + (nxScan u adj (q, par)).1.length
        ≤ unpar R par + q.length := by
  intro adj
  induction adj with
  | nil =>
    intro q par _ _ _ h1 h2 h3
    exact ⟨h1, h2, h3, le_refl _⟩
  | cons w adj ih =>
    intro q par hcap hkeys hu h1 h2 h3
    rw [show nxScan u (w :: adj) (q, par)
      = nxScan u adj
        (if pmem w.1 par = false ∧ 0 < w.2 then
          (q ++ [w.1], par ++ [(w.1, some u)])
        else (q, par)) from rfl]
    by_cases hacc : pmem w.1 par = false ∧ 0 < w.2
    · rw [if_pos hacc]
      obtain ⟨lu, hchu⟩ := hu
      have hws : w.1 ≠ s := by
        intro hws
        have : pmem s par = true := by
          rw [pmem_eq_pget_isSome, h1]
          rfl
        rw [← hws] at this
        rw [this] at hacc
        exact Bool.false_ne_true hacc.1.symm
      have hchw : DChain R s (par ++ [(w.1, some u)]) (w.1 :: u :: lu) := by
        refine DChain.step w.1 u lu hws ?_ ?_ (dchain_lift w.1 (some u) hchu)
        · exact pget_append_fresh hacc.1
        · rw [← hcap w (List.mem_cons_self _ _)] at hacc
          exact hacc.2
      have h1' : pget s (par ++ [(w.1, some u)]) = some none := by
        rw [pget_append_of_isSome (by rw [h1]; rfl)]
        exact h1
      have h2' : ∀ x, pmem x (par ++ [(w.1, some u)]) = true →
          ∃ l, DChain R s (par ++ [(w.1, some u)]) (x :: l) := by
        intro x hx
        rw [pmem_append] at hx
        rcases Bool.or_eq_true_iff.mp hx with hold | hnew
        · obtain ⟨l, hl⟩ := h2 x hold
          exact ⟨l, dchain_lift w.1 (some u) hl⟩
        · rw [beq_iff_eq] at hnew
          subst hnew
          exact ⟨u :: lu, hchw⟩
      have h3' : ∀ x ∈ q ++ [w.1], pmem x (par ++ [(w.1, some u)]) = true := by
        intro x hx
        rw [pmem_append]
        rcases List.mem_append.mp hx with hxq | hxw
        · rw [h3 x hxq]
          rfl
        · rw [List.mem_singleton] at hxw
          subst hxw
          simp
      have hu' : ∃ lu', DChain R s (par ++ [(w.1, some u)]) (u :: lu') :=
        ⟨lu, dchain_lift w.1 (some u) hchu⟩
      obtain ⟨c1, c2, c3, c4⟩ := ih (q ++ [w.1]) (par ++ [(w.1, some u)])
        (fun w' hw' => hcap w' (List.mem_cons_of_mem _ hw'))
        (fun w' hw' => hkeys w' (List.mem_cons_of_mem _ hw'))
        hu' h1' h2' h3'
      refine ⟨c1, c2, c3, le_trans c4 ?_⟩
      have hmeasure : unpar R (par ++ [(w.1, some u)]) < unpar R par := by
        unfold unpar
        refine filter_length_lt _ _ _ ?_ w.1
          (hkeys w (List.mem_cons_self _ _)) ?_ ?_
        · intro x hx
          rw [Bool.not_eq_true'] at hx ⊢
          rw [pmem_append] at hx
          rcases Bool.or_eq_false_iff.mp hx with ⟨h', -⟩
          exact h'
        · rw [Bool.not_eq_true']
          exact hacc.1
        · rw [Bool.not_eq_false']
          rw [pmem_append]
          simp
      rw [List.length_append, List.length_singleton]
      omega
    · rw [if_neg hacc]
      exact ih q par
        (fun w' hw' => hcap w' (List.mem_cons_of_mem _ hw'))
        (fun w' hw' => hkeys w' (List.mem_cons_of_mem _ hw'))
        hu h1 h2 h3

end NX

namespace NX

lemma dchain_to_augPath {R : AdjL} {s : Nat}
    {par : List (Nat × Option Nat)} :
    ∀ {L : List Nat}, DChain R s par L →
      ∃ p, p = L.reverse ∧ p ≠ [] ∧ p.head? = some s ∧
        p.getLast? = L.head? ∧
        ∀ pr ∈ p.zip p.tail, 0 < getCap pr.1 pr.2 R := by
  intro L h
  induction h with
  | base =>
    refine ⟨[s], rfl, by simp, by simp, by simp, ?_⟩
    intro pr hpr
    cases hpr
  | step v u l hv hp hpos hch ih =>
    obtain ⟨p, hrev, hne, hhead, hlast, hpairs⟩ := ih
    obtain ⟨a, p', rfl⟩ : ∃ a p', p = a :: p' := by
      cases p with
      | nil => exact absurd rfl hne
      | cons a p' => exact ⟨a, p', rfl⟩
    refine ⟨(a :: p') ++ [v], ?_, by simp, by simpa using hhead, ?_, ?_⟩
    · rw [List.reverse_cons, ← hrev]
    · rw [List.getLast?_concat]
      rfl
    · have hw : (a :: p').getLast? = some u := by
        rw [hlast]
        rfl
      have e := MainPy.chainPairs_concat (a :: p') v u hw
      intro pr hpr
      rw [show ((a :: p') ++ [v]).zip ((a :: p') ++ [v]).tail
          = MainPy.chainPairs ((a :: p') ++ [v]) from rfl, e] at hpr
      rcases List.mem_append.mp hpr with hpr' | hpr'
      · exact hpairs pr hpr'
      · rw [List.mem_singleton] at hpr'
        subst hpr'
        exact hpos

end NX

namespace NX

lemma nxBfsLoop_master (R : AdjL) (s t : Nat) (hInner : InnerNd R)
    (hClosed : ClosedT R) :
    ∀ (fuel : Nat) (q : List Nat) (par : List (Nat × Option Nat)),
      pget s par = some none →
      (∀ x, pmem x par = true → ∃ l, DChain R s par (x :: l)) →
      (∀ x ∈ q, pmem x par = true) →
      unpar R par + q.length < fuel →
      ∃ res, bfsLoop R t fuel q par = some res ∧
        ∀ p, res = some p → p ≠ [] ∧ p.head? = some s ∧
          p.getLast? = some t ∧
          (∀ pr ∈ p.zip p.tail, 0 < getCap pr.1 pr.2 R) ∧ p.Nodup := by
  intro fuel
  induction fuel with
  | zero =>
    intro q par _ _ _ hm
    omega
  | succ f ih =>
    intro q par h1 h2 h3 hm
    cases q with
    | nil =>
      refine ⟨none, rfl, ?_⟩
      intro p hp
      cases hp
    | cons u q' =>
      by_cases hut : u = t
      · obtain ⟨lt, hcht⟩ := h2 u (h3 u (List.mem_cons_self _ _))
        have hlen : (u :: lt).length ≤ par.length :=
          dchain_length_le hcht (by rw [h1]; rfl)
        have hrec : reconstruct par (par.length + 1) u []
            = some (u :: lt) := by
          have := reconstruct_spec h1 u lt rfl hcht (par.length + 1)
            (by omega) []
          simpa using this
        rw [show bfsLoop R t (f + 1) (u :: q') par
          = if u = t then
              match reconstruct par (par.length + 1) u [] with
              | some p => some (some p.reverse)
              | none => none
            else
              bfsLoop R t f
                ((adjOf u R).foldl
                  (fun (st : List Nat × List (Nat × Option Nat)) w =>
                    if pmem w.1 st.2 = false ∧ 0 < w.2 then
                      (st.1 ++ [w.1], st.2 ++ [(w.1, some u)])
                    else st) (q', par)).1
                ((adjOf u R).foldl
                  (fun (st : List Nat × List (Nat × Option Nat)) w =>
                    if pmem w.1 st.2 = false ∧ 0 < w.2 then
                      (st.1 ++ [w.1], st.2 ++ [(w.1, some u)])
                    else st) (q', par)).2
          from rfl]
        rw [if_pos hut, hrec]
        refine ⟨some (u :: lt).reverse, rfl, ?_⟩
        intro p hp
        obtain rfl : (u :: lt).reverse = p := by
          injection hp
        obtain ⟨p0, hp0, hne, hhead, hlast, hpairs⟩ :=
          dchain_to_augPath hcht
        subst hp0
        refine ⟨hne, hhead, ?_, hpairs,
          List.nodup_reverse.mpr (dchain_nodup hcht)⟩
        rw [hlast]
        rw [show (u :: lt).head? = some u from rfl, hut]
      · obtain ⟨lu, hchu⟩ := h2 u (h3 u (List.mem_cons_self _ _))
        have hcap : ∀ w ∈ adjOf u R, getCap u w.1 R = w.2 :=
          fun w hw => getCap_of_mem_adjOf u R hInner w hw
        have hkeys : ∀ w ∈ adjOf u R, w.1 ∈ R.map Prod.fst :=
          fun w hw => mem_adjOf_keys u R hClosed w hw
        have h3' : ∀ x ∈ q', pmem x par = true :=
          fun x hx => h3 x (List.mem_cons_of_mem _ hx)
        obtain ⟨c1, c2, c3, c4⟩ := nxScan_inv R s u (adjOf u R) q' par
          hcap hkeys ⟨lu, hchu⟩ h1 h2 h3'
        rw [show bfsLoop R t (f + 1) (u :: q') par
          = if u = t then
              match reconstruct par (par.length + 1) u [] with
              | some p => some (some p.reverse)
              | none => none
            else
              bfsLoop R t f
                ((adjOf u R).foldl
                  (fun (st : List Nat × List (Nat × Option Nat)) w =>
                    if pmem w.1 st.2 = false ∧ 0 < w.2 then
                      (st.1 ++ [w.1], st.2 ++ [(w.1, some u)])
                    else st) (q', par)).1
                ((adjOf u R).foldl
                  (fun (st : List Nat × List (Nat × Option Nat)) w =>
                    if pmem w.1 st.2 = false ∧ 0 < w.2 then
                      (st.1 ++ [w.1], st.2 ++ [(w.1, some u)])
                    else st) (q', par)).2
          from rfl]
        rw [if_neg hut, nxScan_eq_foldl]
        refine ih (nxScan u (adjOf u R) (q', par)).1
          (nxScan u (adjOf u R) (q', par)).2 c1 c2 c3 ?_
        have : unpar R par + (u :: q').length = unpar R par + q'.length + 1 := by
          rw [List.length_cons]
          omega
        omega

end NX

namespace NX

lemma nxBfs_spec (R : AdjL) (s t : Nat) (hInner : InnerNd R)
    (hClosed : ClosedT R) :
    ∃ res, bfs R s t = some res ∧
      ∀ p, res = some p → p ≠ [] ∧ p.head? = some s ∧
        p.getLast? = some t ∧
        (∀ pr ∈ p.zip p.tail, 0 < getCap pr.1 pr.2 R) ∧ p.Nodup := by
  unfold bfs
  refine nxBfsLoop_master R s t hInner hClosed (R.length + 2) [s]
    [(s, none)] ?_ ?_ ?_ ?_
  · unfold pget
    rw [List.find?_cons_of_pos _ (by simp)]
  · intro x hx
    unfold pmem at hx
    rw [List.any_cons] at hx
    have hsx : s = x := by
      rcases Bool.or_eq_true_iff.mp hx with h | h
      · simpa using h
      · simp at h
    subst hsx
    exact ⟨[], DChain.base⟩
  · intro x hx
    rw [List.mem_singleton] at hx
    subst hx
    unfold pmem
    rw [List.any_cons]
    simp
  · have hle : unpar R [(s, none)] ≤ R.length := by
      unfold unpar
      calc ((R.map Prod.fst).filter _).length
          ≤ (R.map Prod.fst).length := List.length_filter_le _ _
        _ = R.length := List.length_map _ _
    rw [List.length_singleton]
    omega

lemma pathFold_spec (R : AdjL) :
    ∀ (l : List (Nat × Nat)) (acc : Option Int),
      (l ≠ [] ∨ acc ≠ none) →
      ∃ r, l.foldl (fun acc e => some (match acc with
          | none => getCap e.1 e.2 R
          | some a => min a (getCap e.1 e.2 R))) acc = some r ∧
        (∀ a, acc = some a → r ≤ a) ∧
        (∀ pr ∈ l, r ≤ getCap pr.1 pr.2 R) ∧
        ((∀ pr ∈ l, 0 < getCap pr.1 pr.2 R) →
          (∀ a, acc = some a → 1 ≤ a) → 1 ≤ r) := by
  intro l
  induction l with
  | nil =>
    intro acc hne
    cases acc with
    | none =>
      rcases hne with h | h
      · exact absurd rfl h
      · exact absurd rfl h
    | some a =>
      refine ⟨a, rfl, ?_, ?_, ?_⟩
      · intro a' ha'
        injection ha' with h
        omega
      · intro pr hpr
        cases hpr
      · intro _ hb
        exact hb a rfl
  | cons e l' ih =>
    intro acc hne
    rw [List.foldl_cons]
    cases acc with
    | none =>
      obtain ⟨r, hr, hracc, hrmem, hrpos⟩ := ih (some (getCap e.1 e.2 R))
        (Or.inr (by intro h; cases h))
      refine ⟨r, hr, ?_, ?_, ?_⟩
      · intro a ha
        cases ha
      · intro pr hpr
        rcases List.mem_cons.mp hpr with rfl | hpr'
        · exact hracc _ rfl
        · exact hrmem pr hpr'
      · intro hpos _
        refine hrpos (fun pr hpr => hpos pr (List.mem_cons_of_mem _ hpr)) ?_
        intro a ha
        injection ha with h
        have := hpos e (List.mem_cons_self _ _)
        omega
    | some a =>
      obtain ⟨r, hr, hracc, hrmem, hrpos⟩ :=
        ih (some (min a (getCap e.1 e.2 R))) (Or.inr (by intro h; cases h))
      refine ⟨r, hr, ?_, ?_, ?_⟩
      · intro a' ha'
        injection ha' with h
        subst h
        exact le_trans (hracc _ rfl) (min_le_left _ _)
      · intro pr hpr
        rcases List.mem_cons.mp hpr with rfl | hpr'
        · exact le_trans (hracc _ rfl) (min_le_right _ _)
        · exact hrmem pr hpr'
      · intro hpos hb
        refine hrpos (fun pr hpr => hpos pr (List.mem_cons_of_mem _ hpr)) ?_
        intro a' ha'
        injection ha' with h
        have h1 : 1 ≤ a := hb a rfl
        have h2 := hpos e (List.mem_cons_self _ _)
        have hmin : min a (getCap e.1 e.2 R) = a ∨
            min a (getCap e.1 e.2 R) = getCap e.1 e.2 R := min_choice _ _
        rcases hmin with hm | hm <;> omega

lemma pathMin_spec (R : AdjL) (p : List Nat)
    (hzip : p.zip p.tail ≠ [])
    (hpos : ∀ pr ∈ p.zip p.tail, 0 < getCap pr.1 pr.2 R) :
    ∃ r, pathMin R p = some r ∧ 1 ≤ r ∧
      ∀ pr ∈ p.zip p.tail, r ≤ getCap pr.1 pr.2 R := by
  obtain ⟨r, hr, _, hmem, hpos'⟩ :=
    pathFold_spec R (p.zip p.tail) none (Or.inl hzip)
  exact ⟨r, hr, hpos' hpos (fun a ha => by cases ha), hmem⟩

lemma path_zip_ne {s t : Nat} (p : List Nat) (hne : p ≠ [])
    (hhead : p.head? = some s) (hlast : p.getLast? = some t)
    (hst : s ≠ t) : p.zip p.tail ≠ [] := by
  cases p with
  | nil => exact absurd rfl hne
  | cons x rest =>
    cases rest with
    | nil =>
      exfalso
      have hx : x = s := by simpa using hhead
      have hx' : x = t := by simpa using hlast
      exact hst (hx ▸ hx' ▸ rfl)
    | cons y rest' =>
      intro h
      cases h

end NX

namespace NX

lemma nxStep_mono {s t : Nat} {R : AdjL} {a : Int} {R' : AdjL} {a' : Int}
    (hInner : InnerNd R) (hClosed : ClosedT R) (hst : s ≠ t)
    (h : NXStep s t (R, a) (R', a')) : a ≤ a' := by
  obtain ⟨p, pf, hb, hpm, hR, ha⟩ := h
  obtain ⟨res, hres, hfacts⟩ := nxBfs_spec R s t hInner hClosed
  have hsp : res = some p := by
    have := hres.symm.trans hb
    injection this
  obtain ⟨hne, hhead, hlast, hpos, hnd⟩ := hfacts p hsp
  obtain ⟨r, hr, hr1, hrmem⟩ := pathMin_spec R p
    (path_zip_ne p hne hhead hlast hst) hpos
  have hrpf : r = pf := by
    have := hr.symm.trans hpm
    injection this
  subst hrpf
  have ha' : a' = a + r := ha
  omega

lemma nxNoPath_bfs (R : AdjL) (s t : Nat) (hInner : InnerNd R)
    (hClosed : ClosedT R)
    (hno : ¬ ∃ p, AugPathNX R s t p) :
    bfs R s t = some none := by
  obtain ⟨res, hres, hfacts⟩ := nxBfs_spec R s t hInner hClosed
  cases res with
  | none => exact hres
  | some p =>
    exfalso
    obtain ⟨hne, hhead, hlast, hpos, -⟩ := hfacts p rfl
    exact hno ⟨p, hne, hhead, hlast, hpos⟩

lemma nxNoPath_find (G : NXGraph) (s t : Nat)
    (hno : ¬ ∃ p, AugPathNX (buildResidual G) s t p) :
    find_max_flow G s t = some 0 := by
  obtain ⟨-, hInner, hClosed, -⟩ := buildResidual_invs G
  unfold find_max_flow
  obtain ⟨n, hn⟩ : ∃ n, 1 + G.edges.foldl (fun a e => a + e.2.2.toNat) 0
      = n + 1 := ⟨G.edges.foldl (fun a e => a + e.2.2.toNat) 0, by omega⟩
  rw [hn]
  show nxLoop s t (n + 1) (buildResidual G) 0 = some 0
  unfold nxLoop
  rw [nxNoPath_bfs (buildResidual G) s t hInner hClosed hno]

end NX

namespace NX

lemma epresent_of_getCap_pos {x y : Nat} {G : AdjL}
    (h : 0 < getCap x y G) : epresent x y G = true := by
  unfold getCap at h
  unfold epresent
  cases hf : (adjOf x G).find? (fun w => w.1 == y) with
  | none =>
    rw [hf] at h
    have h' : (0 : Int) < 0 := h
    omega
  | some w => rfl

lemma sum_map_overwrite (b : Nat) (c : Int) :
    ∀ (adj : List (Nat × Int)), ((adj.map Prod.fst).Nodup) →
      ((adj.map (fun w => if w.1 = b then (w.1, c) else w)).map
          (fun w => w.2)).sum
        = match adj.find? (fun w => w.1 == b) with
          | some w => (adj.map (fun w => w.2)).sum - w.2 + c
          | none => (adj.map (fun w => w.2)).sum := by
  intro adj
  induction adj with
  | nil => intro _; rfl
  | cons a rest ih =>
    intro hnd
    rw [List.map_cons, List.nodup_cons] at hnd
    by_cases hab : a.1 = b
    · rw [List.map_cons, if_pos hab]
      rw [@List.find?_cons_of_pos _ (fun w : Nat × Int => w.1 == b) a rest
        (by simp [hab])]
      have hrest : rest.map (fun w => if w.1 = b then (w.1, c) else w)
          = rest := by
        conv_rhs => rw [← List.map_id rest]
        refine List.map_congr_left (fun w hw => ?_)
        show (if w.1 = b then (w.1, c) else w) = w
        rw [if_neg]
        intro hwb
        exact hnd.1 (hab ▸ hwb ▸ List.mem_map.mpr ⟨w, hw, rfl⟩)
      rw [hrest]
      simp only [List.map_cons, List.sum_cons]
      ring
    · rw [List.map_cons, if_neg hab]
      rw [@List.find?_cons_of_neg _ (fun w : Nat × Int => w.1 == b) a rest
        (by simp [hab])]
      have := ih hnd.2
      cases hf : rest.find? (fun w => w.1 == b) with
      | some w =>
        rw [hf] at this
        simp only [List.map_cons, List.sum_cons]
        rw [this]
        ring
      | none =>
        rw [hf] at this
        simp only [List.map_cons, List.sum_cons]
        rw [this]

lemma nxRowSum_setCap_other (s a b : Nat) (c : Int) (G : AdjL)
    (ha : a ≠ s) :
    nxRowSum s (setCap a b c G) = nxRowSum s G := by
  unfold nxRowSum
  rw [adjOf_setCap, if_neg (fun h => ha h.symm)]

lemma nxRowSum_setCap_row (s b : Nat) (c : Int) (G : AdjL)
    (hnd : ((adjOf s G).map Prod.fst).Nodup)
    (hpres : epresent s b G = true) :
    nxRowSum s (setCap s b c G) = nxRowSum s G - getCap s b G + c := by
  unfold nxRowSum getCap
  rw [adjOf_setCap, if_pos rfl]
  rw [sum_map_overwrite b c (adjOf s G) hnd]
  unfold epresent at hpres
  cases hf : (adjOf s G).find? (fun w => w.1 == b) with
  | none => rw [hf] at hpres; cases hpres
  | some w => rfl

lemma nxRowSum_nonneg (s : Nat) (G : AdjL) (h : NonnegR G) :
    0 ≤ nxRowSum s G := by
  unfold nxRowSum
  refine List.sum_nonneg ?_
  intro x hx
  obtain ⟨w, hw, rfl⟩ := List.mem_map.mp hx
  rcases adjOf_cases s G with hadj | ⟨e, he, -, hadj⟩
  · rw [hadj] at hw
    cases hw
  · rw [hadj] at hw
    exact h e he w hw

end NX

namespace NX

lemma augFold_innerNd (pf : Int) :
    ∀ (l : List (Nat × Nat)) (R : AdjL), InnerNd R →
      InnerNd (l.foldl (fun R e =>
        let R1 := setCap e.1 e.2 (getCap e.1 e.2 R - pf) R
        setCap e.2 e.1 (getCap e.2 e.1 R1 + pf) R1) R) := by
  intro l
  induction l with
  | nil => exact fun R h => h
  | cons e rest ih =>
    intro R h
    rw [List.foldl_cons]
    exact ih _ (innerNd_setCap _ _ _ _ (innerNd_setCap _ _ _ _ h))

lemma augFold_closedT (pf : Int) :
    ∀ (l : List (Nat × Nat)) (R : AdjL), ClosedT R →
      ClosedT (l.foldl (fun R e =>
        let R1 := setCap e.1 e.2 (getCap e.1 e.2 R - pf) R
        setCap e.2 e.1 (getCap e.2 e.1 R1 + pf) R1) R) := by
  intro l
  induction l with
  | nil => exact fun R h => h
  | cons e rest ih =>
    intro R h
    rw [List.foldl_cons]
    exact ih _ (closedT_setCap _ _ _ _ (closedT_setCap _ _ _ _ h))

lemma augFold_rowsum_other (s : Nat) (pf : Int) :
    ∀ (l : List (Nat × Nat)) (R : AdjL),
      (∀ pr ∈ l, pr.1 ≠ s ∧ pr.2 ≠ s) →
      nxRowSum s (l.foldl (fun R e =>
        let R1 := setCap e.1 e.2 (getCap e.1 e.2 R - pf) R
        setCap e.2 e.1 (getCap e.2 e.1 R1 + pf) R1) R) = nxRowSum s R := by
  intro l
  induction l with
  | nil => exact fun R _ => rfl
  | cons e rest ih =>
    intro R h
    rw [List.foldl_cons]
    have he := h e (List.mem_cons_self _ _)
    rw [ih _ (fun pr hpr => h pr (List.mem_cons_of_mem _ hpr))]
    show nxRowSum s (setCap e.2 e.1 _ (setCap e.1 e.2 _ R)) = nxRowSum s R
    rw [nxRowSum_setCap_other s e.2 e.1 _ _ he.2,
      nxRowSum_setCap_other s e.1 e.2 _ _ he.1]

lemma applyAug_nonneg (pf : Int) (hpf : 0 ≤ pf) :
    ∀ (p : List Nat) (R : AdjL), InnerNd R → NonnegR R → p.Nodup →
      (∀ pr ∈ p.zip p.tail, pf ≤ getCap pr.1 pr.2 R) →
      NonnegR (applyAug pf p R) := by
  intro p
  induction p with
  | nil => exact fun R _ h _ _ => h
  | cons a rest ihp =>
    intro R hInner hNn hnd hbound
    cases rest with
    | nil => exact hNn
    | cons b rest' =>
      have hzip : (a :: b :: rest').zip (a :: b :: rest').tail
          = (a, b) :: ((b :: rest').zip rest') := rfl
      have hstep : applyAug pf (a :: b :: rest') R
          = applyAug pf (b :: rest')
            (setCap b a
              (getCap b a (setCap a b (getCap a b R - pf) R) + pf)
              (setCap a b (getCap a b R - pf) R)) := rfl
      rw [hstep]
      have hfirst : pf ≤ getCap a b R :=
        hbound (a, b) (by rw [hzip]; exact List.mem_cons_self _ _)
      have hNn1 : NonnegR (setCap a b (getCap a b R - pf) R) :=
        nonnegR_setCap a b _ R (by omega) hNn
      have hNn2 : NonnegR (setCap b a
          (getCap b a (setCap a b (getCap a b R - pf) R) + pf)
          (setCap a b (getCap a b R - pf) R)) := by
        refine nonnegR_setCap b a _ _ ?_ hNn1
        have := getCap_nonneg b a _ hNn1
        omega
      have hInner2 : InnerNd (setCap b a
          (getCap b a (setCap a b (getCap a b R - pf) R) + pf)
          (setCap a b (getCap a b R - pf) R)) :=
        innerNd_setCap _ _ _ _ (innerNd_setCap _ _ _ _ hInner)
      have hnd' : (b :: rest').Nodup := (List.nodup_cons.mp hnd).2
      have hna : a ∉ b :: rest' := (List.nodup_cons.mp hnd).1
      refine ihp _ hInner2 hNn2 hnd' ?_
      intro pr hpr
      have hmem := List.of_mem_zip hpr
      have hpr1 : pr.1 ∈ b :: rest' := hmem.1
      have hpr2 : pr.2 ∈ rest' := hmem.2
      have hne1 : ¬ (pr.1 = a ∧ pr.2 = b) := by
        rintro ⟨h1, -⟩
        exact hna (h1 ▸ hpr1)
      have hne2 : ¬ (pr.1 = b ∧ pr.2 = a) := by
        rintro ⟨-, h2⟩
        exact hna (h2 ▸ List.mem_cons_of_mem _ hpr2)
      have hcap : getCap pr.1 pr.2 (setCap b a
          (getCap b a (setCap a b (getCap a b R - pf) R) + pf)
          (setCap a b (getCap a b R - pf) R)) = getCap pr.1 pr.2 R := by
        rw [getCap_setCap, if_neg (fun hc => hne2 ⟨hc.1, hc.2.1⟩),
          getCap_setCap, if_neg (fun hc => hne1 ⟨hc.1, hc.2.1⟩)]
      rw [hcap]
      exact hbound pr (by rw [hzip]; exact List.mem_cons_of_mem _ hpr)

lemma applyAug_rowsum (s : Nat) (pf : Int) (p : List Nat) (R : AdjL)
    (hInner : InnerNd R) (hhead : p.head? = some s)
    (hnotin : s ∉ p.tail) (hzipne : p.zip p.tail ≠ [])
    (hpos : ∀ pr ∈ p.zip p.tail, 0 < getCap pr.1 pr.2 R) :
    nxRowSum s (applyAug pf p R) = nxRowSum s R - pf := by
  cases p with
  | nil => cases hhead
  | cons a rest =>
    obtain rfl : s = a := by
      have h : a = s := by simpa using hhead
      exact h.symm
    cases rest with
    | nil => exact absurd rfl hzipne
    | cons b rest' =>
      have hzip : (s :: b :: rest').zip (s :: b :: rest').tail
          = (s, b) :: ((b :: rest').zip rest') := rfl
      have hstep : applyAug pf (s :: b :: rest') R
          = applyAug pf (b :: rest')
            (setCap b s
              (getCap b s (setCap s b (getCap s b R - pf) R) + pf)
              (setCap s b (getCap s b R - pf) R)) := rfl
      rw [hstep]
      have hbs : b ≠ s := by
        intro h
        exact hnotin (h ▸ List.mem_cons_self _ _)
      have hposs : 0 < getCap s b R :=
        hpos (s, b) (by rw [hzip]; exact List.mem_cons_self _ _)
      have h1 : nxRowSum s (setCap s b (getCap s b R - pf) R)
          = nxRowSum s R - pf := by
        rw [nxRowSum_setCap_row s b _ R (adjOf_innerNd s R hInner)
          (epresent_of_getCap_pos hposs)]
        ring
      have h2 : nxRowSum s (setCap b s
          (getCap b s (setCap s b (getCap s b R - pf) R) + pf)
          (setCap s b (getCap s b R - pf) R))
          = nxRowSum s R - pf := by
        rw [nxRowSum_setCap_other s b s _ _ hbs]
        exact h1
      have hother : ∀ pr ∈ (b :: rest').zip rest', pr.1 ≠ s ∧ pr.2 ≠ s := by
        intro pr hpr
        have hmem := List.of_mem_zip hpr
        constructor
        · intro h
          exact hnotin (h ▸ hmem.1)
        · intro h
          exact hnotin (h ▸ List.mem_cons_of_mem _ hmem.2)
      unfold applyAug
      rw [augFold_rowsum_other s pf ((b :: rest').zip (b :: rest').tail) _
        hother]
      exact h2

end NX

namespace NX

lemma nxLoop_isSome (s t : Nat) (hst : s ≠ t) :
    ∀ (fuel : Nat) (R : AdjL) (acc : Int),
      InnerNd R → ClosedT R → NonnegR R →
      (nxRowSum s R).toNat < fuel →
      (nxLoop s t fuel R acc).isSome = true := by
  intro fuel
  induction fuel with
  | zero =>
    intro R acc _ _ _ hm
    omega
  | succ f ih =>
    intro R acc hInner hClosed hNn hm
    obtain ⟨res, hres, hfacts⟩ := nxBfs_spec R s t hInner hClosed
    show (nxLoop s t (f + 1) R acc).isSome = true
    unfold nxLoop
    rw [hres]
    cases res with
    | none => rfl
    | some p =>
      obtain ⟨hne, hhead, hlast, hpos, hnd⟩ := hfacts p rfl
      have hzipne := path_zip_ne p hne hhead hlast hst
      obtain ⟨r, hr, hr1, hrmem⟩ := pathMin_spec R p hzipne hpos
      show ((match pathMin R p with
        | none => none
        | some pf => nxLoop s t f (applyAug pf p R) (acc + pf)).isSome)
        = true
      rw [hr]
      show (nxLoop s t f (applyAug r p R) (acc + r)).isSome = true
      have hnotin : s ∉ p.tail := by
        cases p with
        | nil => exact absurd rfl hne
        | cons a rest =>
          obtain rfl : s = a := by
            have h : a = s := by simpa using hhead
            exact h.symm
          exact (List.nodup_cons.mp hnd).1
      have hrow := applyAug_rowsum s r p R hInner hhead hnotin hzipne hpos
      have hNn' : NonnegR (applyAug r p R) :=
        applyAug_nonneg r (by omega) p R hInner hNn hnd hrmem
      have hpos0 : 0 ≤ nxRowSum s R := nxRowSum_nonneg s R hNn
      have hpos1 : 0 ≤ nxRowSum s (applyAug r p R) :=
        nxRowSum_nonneg s _ hNn'
      refine ih (applyAug r p R) (acc + r)
        (by unfold applyAug; exact augFold_innerNd r _ R hInner)
        (by unfold applyAug; exact augFold_closedT r _ R hClosed)
        hNn' ?_
      rw [hrow] at hpos1 ⊢
      omega

end NX

namespace NX

lemma setAdj_sum_le (v : Nat) (c : Int) :
    ∀ (adj : List (Nat × Int)), (∀ w ∈ adj, 0 ≤ w.2) →
      ((setAdj v c adj).map (fun w => w.2)).sum
        ≤ (adj.map (fun w => w.2)).sum + c := by
  intro adj
  induction adj with
  | nil =>
    intro _
    simp [setAdj]
  | cons a rest ih =>
    intro hnn
    rw [show setAdj v c (a :: rest)
      = if a.1 = v then (a.1, c) :: rest else a :: setAdj v c rest by
        rcases a with ⟨w, cc⟩
        rfl]
    by_cases hav : a.1 = v
    · rw [if_pos hav]
      simp only [List.map_cons, List.sum_cons]
      have := hnn a (List.mem_cons_self _ _)
      omega
    · rw [if_neg hav]
      simp only [List.map_cons, List.sum_cons]
      have := ih (fun w hw => hnn w (List.mem_cons_of_mem _ hw))
      omega

lemma nxRowSum_addEdge (s u v : Nat) (c : Int) (G : AdjL) :
    nxRowSum s (addEdge u v c G)
      = if u = s
        then ((setAdj v c (adjOf s G)).map (fun w => w.2)).sum
        else nxRowSum s G := by
  unfold nxRowSum
  rw [adjOf_addEdge]
  by_cases h : u = s
  · rw [if_pos h, if_pos h.symm, h]
  · rw [if_neg h, if_neg (fun hh => h hh.symm)]

lemma adjOf_nonneg (s : Nat) (G : AdjL) (h : NonnegR G) :
    ∀ w ∈ adjOf s G, 0 ≤ w.2 := by
  intro w hw
  rcases adjOf_cases s G with hadj | ⟨e, he, -, hadj⟩
  · rw [hadj] at hw
    cases hw
  · rw [hadj] at hw
    exact h e he w hw

lemma buildStep_rowsum (s u v : Nat) (c : Int) (R : AdjL)
    (hNn : NonnegR R) (hc : 0 ≤ c) :
    NonnegR (if hasEdge v u (addEdge u v c R) then addEdge u v c R
        else addEdge v u 0 (addEdge u v c R)) ∧
      nxRowSum s (if hasEdge v u (addEdge u v c R) then addEdge u v c R
        else addEdge v u 0 (addEdge u v c R)) ≤ nxRowSum s R + c := by
  have hNn1 : NonnegR (addEdge u v c R) := nonnegR_addEdge u v c R hc hNn
  have hsum1 : nxRowSum s (addEdge u v c R) ≤ nxRowSum s R + c := by
    rw [nxRowSum_addEdge]
    by_cases h : u = s
    · rw [if_pos h]
      have := setAdj_sum_le v c (adjOf s R) (adjOf_nonneg s R hNn)
      unfold nxRowSum
      omega
    · rw [if_neg h]
      omega
  by_cases hbr : hasEdge v u (addEdge u v c R) = true
  · rw [if_pos hbr]
    exact ⟨hNn1, hsum1⟩
  · rw [if_neg hbr]
    refine ⟨nonnegR_addEdge v u 0 _ (le_refl 0) hNn1, ?_⟩
    have hsum2 : nxRowSum s (addEdge v u 0 (addEdge u v c R))
        ≤ nxRowSum s (addEdge u v c R) + 0 := by
      rw [nxRowSum_addEdge]
      by_cases h : v = s
      · rw [if_pos h]
        have := setAdj_sum_le u 0 (adjOf s (addEdge u v c R))
          (adjOf_nonneg s _ hNn1)
        unfold nxRowSum
        omega
      · rw [if_neg h]
        omega
    omega

lemma buildFold_rowsum (s : Nat) :
    ∀ (es : List (Nat × Nat × Int)) (R : AdjL),
      NonnegR R → (∀ e ∈ es, 0 ≤ e.2.2) →
      NonnegR (es.foldl (fun R e =>
          let R1 := addEdge e.1 e.2.1 e.2.2 R
          if hasEdge e.2.1 e.1 R1 then R1 else addEdge e.2.1 e.1 0 R1) R) ∧
      nxRowSum s (es.foldl (fun R e =>
          let R1 := addEdge e.1 e.2.1 e.2.2 R
          if hasEdge e.2.1 e.1 R1 then R1 else addEdge e.2.1 e.1 0 R1) R)
        ≤ nxRowSum s R + ((es.map (fun e => e.2.2.toNat)).sum : Int) := by
  intro es
  induction es with
  | nil =>
    intro R h _
    exact ⟨h, by simp⟩
  | cons e rest ih =>
    intro R h hc
    rw [List.foldl_cons]
    obtain ⟨hNn', hsum'⟩ := buildStep_rowsum s e.1 e.2.1 e.2.2 R h
      (hc e (List.mem_cons_self _ _))
    obtain ⟨hNnf, hsumf⟩ := ih _ hNn'
      (fun e' he' => hc e' (List.mem_cons_of_mem _ he'))
    refine ⟨hNnf, ?_⟩
    rw [List.map_cons, List.sum_cons]
    have hce : e.2.2 ≤ (e.2.2.toNat : Int) := Int.self_le_toNat _
    have hfinal : nxRowSum s (List.foldl (fun R e =>
        let R1 := addEdge e.1 e.2.1 e.2.2 R
        if hasEdge e.2.1 e.1 R1 then R1 else addEdge e.2.1 e.1 0 R1)
        (if hasEdge e.2.1 e.1 (addEdge e.1 e.2.1 e.2.2 R)
          then addEdge e.1 e.2.1 e.2.2 R
          else addEdge e.2.1 e.1 0 (addEdge e.1 e.2.1 e.2.2 R)) rest)
        ≤ nxRowSum s R + ((e.2.2.toNat : Int)
          + (rest.map (fun e => (e.2.2.toNat : Int))).sum) := by
      omega
    exact hfinal

lemma rows_empty_rowsum (s : Nat) (R : AdjL)
    (h : ∀ e ∈ R, e.2 = ([] : List (Nat × Int))) :
    nxRowSum s R = 0 := by
  unfold nxRowSum
  rcases adjOf_cases s R with hadj | ⟨e, he, -, hadj⟩
  · rw [hadj]
    rfl
  · rw [hadj, h e he]
    rfl

lemma foldl_toNat_sum :
    ∀ (es : List (Nat × Nat × Int)) (a : Nat),
      es.foldl (fun a e => a + e.2.2.toNat) a
        = a + (es.map (fun e => e.2.2.toNat)).sum := by
  intro es
  induction es with
  | nil => intro a; simp
  | cons e rest ih =>
    intro a
    rw [List.foldl_cons, ih, List.map_cons, List.sum_cons]
    omega

lemma buildResidual_nonneg_rowsum (G : NXGraph) (s : Nat)
    (hc : ∀ e ∈ G.edges, 0 ≤ e.2.2) :
    NonnegR (buildResidual G) ∧
      nxRowSum s (buildResidual G)
        ≤ ((G.edges.map (fun e => e.2.2.toNat)).sum : Int) := by
  unfold buildResidual
  have hrows : ∀ e ∈ G.nodes.foldl (fun R n => addNode n R) [],
      e.2 = ([] : List (Nat × Int)) :=
    rows_empty_foldl_addNode G.nodes [] (by intro e he; cases he)
  have hNn0 : NonnegR (G.nodes.foldl (fun R n => addNode n R) []) := by
    intro e he w hw
    rw [hrows e he] at hw
    cases hw
  obtain ⟨hNn, hsum⟩ := buildFold_rowsum s G.edges _ hNn0 hc
  refine ⟨hNn, ?_⟩
  rw [rows_empty_rowsum s _ hrows] at hsum
  have hfinal : nxRowSum s (G.edges.foldl (fun R e =>
      let R1 := addEdge e.1 e.2.1 e.2.2 R
      if hasEdge e.2.1 e.1 R1 then R1 else addEdge e.2.1 e.1 0 R1)
      (G.nodes.foldl (fun R n => addNode n R) []))
      ≤ ((G.edges.map (fun e => e.2.2.toNat)).sum : Int) := by
    omega
  exact hfinal

end NX

namespace NX

lemma cast_map_sum :
    ∀ (es : List (Nat × Nat × Int)),
      (Nat.cast ((es.map (fun e => e.2.2.toNat)).sum) : Int)
        = (es.map (fun e => (e.2.2.toNat : Int))).sum := by
  intro es
  induction es with
  | nil => rfl
  | cons e rest ih =>
    rw [List.map_cons, List.sum_cons, List.map_cons, List.sum_cons, ← ih]
    omega

lemma nxFind_isSome (G : NXGraph) (s t : Nat) (hst : s ≠ t)
    (hc : ∀ e ∈ G.edges, 0 ≤ e.2.2) :
    (find_max_flow G s t).isSome = true := by
  obtain ⟨-, hInner, hClosed, -⟩ := buildResidual_invs G
  obtain ⟨hNn, hsum⟩ := buildResidual_nonneg_rowsum G s hc
  unfold find_max_flow
  apply nxLoop_isSome s t hst _ _ 0 hInner hClosed hNn
  rw [foldl_toNat_sum G.edges 0]
  have hlink := cast_map_sum G.edges
  omega

end NX

/-- **C2**: throughout any maxFlow computation — the residual matrix of
`Graph.ford_fulkerson` in `main.py` and the residual structure that
`FordFulkerson.find_max_flow` of `ford_fulkerson.py` builds — after
residual initialization and after every augmentation step, the sum
`residual(u,v) + residual(v,u)` of every ordered vertex pair equals the
value that sum held immediately after initialization. -/
theorem C2_residual_conservation :
    (∀ (V s t : Nat) (g₀ g : MainPy.Res) (p₀ p : MainPy.Par) (a₀ a : Int),
      Relation.ReflTransGen (MainPy.FFStep V s t) (g₀, p₀, a₀) (g, p, a) →
      ∀ u v, g u v + g v u = g₀ u v + g₀ v u) ∧
    (∀ (G : NX.NXGraph) (s t : Nat) (a₀ : Int) (R : NX.AdjL) (a : Int),
      Relation.ReflTransGen (NX.NXStep s t)
        (NX.buildResidual G, a₀) (R, a) →
      ∀ u v, NX.getCap u v R + NX.getCap v u R
        = NX.getCap u v (NX.buildResidual G)
          + NX.getCap v u (NX.buildResidual G)) := by
  constructor
  · intro V s t g₀ g p₀ p a₀ a h u v
    exact MainPy.rtg_conserve h u v
  · intro G s t a₀ R a h u v
    exact (NX.nxRtg_conserve h (NX.buildResidual_invs G).2.2.2).2 u v

/-- Witness for C2: after the first augmentation of the concrete
scenario, the pair sum of `(0,1)` is unchanged in both engines (the
NetworkX run finds the path `0 → 1 → 3` with bottleneck 2). -/
theorem C2_residual_conservation_witness :
    (scenG1 0 1 + scenG1 1 0 = scenM 0 1 + scenM 1 0) ∧
    (NX.getCap 0 1 (NX.applyAug 2 [0, 1, 3] (NX.buildResidual scenNX))
        + NX.getCap 1 0 (NX.applyAug 2 [0, 1, 3] (NX.buildResidual scenNX))
      = NX.getCap 0 1 (NX.buildResidual scenNX)
        + NX.getCap 1 0 (NX.buildResidual scenNX)) := by
  constructor
  · have hb : MainPy.bfs 4 scenM 0 3 scenPar0 = (true, scenPar1) := rfl
    have hw : MainPy.walkMin 4 scenM 0 scenPar1 5 3 none
        = some scenPf1 := rfl
    have hu : MainPy.updWalk 4 0 scenPf1 scenPar1 5 3 scenM
        = some scenG1 := rfl
    have hstep : MainPy.FFStep 4 0 3 (scenM, scenPar0, 0)
        (scenG1, scenPar1, 0 + scenPf1) :=
      ⟨scenPar1, scenPf1, hb, hw, hu, rfl, rfl⟩
    exact C2_residual_conservation.1 4 0 3 scenM scenG1 scenPar0 scenPar1 0
      (0 + scenPf1) (Relation.ReflTransGen.single hstep) 0 1
  · have hstep : NX.NXStep 0 3 (NX.buildResidual scenNX, 0)
        (NX.applyAug 2 [0, 1, 3] (NX.buildResidual scenNX), 0 + 2) :=
      ⟨[0, 1, 3], 2, by decide, by decide, rfl, rfl⟩
    exact C2_residual_conservation.2 scenNX 0 3 0 _ (0 + 2)
      (Relation.ReflTransGen.single hstep) 0 1

/-- **C3**: for every input capacity graph with non-negative integer
capacities and distinct source and sink, the flow-augmentation loop
terminates after finitely many iterations — in `Graph.ford_fulkerson`
of `main.py` and in `FordFulkerson.find_max_flow` of
`ford_fulkerson.py` alike — and in both engines the accumulated total
flow is non-decreasing from one iteration to the next. -/
theorem C3_termination_monotonicity :
    (∀ (V : Nat) (g : MainPy.Res) (s t : Nat),
      (∀ u v, 0 ≤ g u v) → s ≠ t →
      (MainPy.ford_fulkerson V g s t).isSome ∧
      (∀ g₁ p₁ a₁ g₂ p₂ a₂, MainPy.FFStep V s t (g₁, p₁, a₁) (g₂, p₂, a₂) →
        a₁ ≤ a₂)) ∧
    (∀ (G : NX.NXGraph) (s t : Nat),
      (∀ e ∈ G.edges, 0 ≤ e.2.2) → s ≠ t →
      (NX.find_max_flow G s t).isSome ∧
      (∀ (R : NX.AdjL) (a : Int) (R' : NX.AdjL) (a' : Int),
        NX.InnerNd R → NX.ClosedT R → NX.NXStep s t (R, a) (R', a') →
        a ≤ a')) := by
  constructor
  · intro V g s t hnn hst
    constructor
    · unfold MainPy.ford_fulkerson
      exact MainPy.ffLoop_isSome V s t hst
        (1 + (MainPy.rowSumI V g s).toNat) g _ 0 hnn (by omega)
    · intro g₁ p₁ a₁ g₂ p₂ a₂ hstep
      obtain ⟨par', pf, hb, hw, hu, _, ha⟩ := hstep
      obtain ⟨l, hch, hpos⟩ := MainPy.bfs_true_chain hb
      have hts : t ≠ s := fun h => hst h.symm
      have hlen := MainPy.pureChain_length_le hch
      obtain ⟨r, hr, _, _, hr1⟩ :=
        MainPy.walkMin_spec V s g₁ par' l t hch hts (V + 1) hlen none
      have hrpf : r = pf := by
        rw [hr] at hw
        exact Option.some.inj hw
      subst hrpf
      have h1 : 1 ≤ r := hr1 hpos (by intro a ha'; cases ha')
      have ha' : a₂ = a₁ + r := ha
      omega
  · intro G s t hc hst
    constructor
    · exact NX.nxFind_isSome G s t hst hc
    · intro R a R' a' hInner hClosed hstep
      exact NX.nxStep_mono hInner hClosed hst hstep

/-- Witness for C3 at the concrete scenario, for both engines. -/
theorem C3_termination_monotonicity_witness :
    ((∀ u v, 0 ≤ scenM u v) ∧ (0 : Nat) ≠ 3 ∧
      (MainPy.ford_fulkerson 4 scenM 0 3).isSome) ∧
    ((∀ e ∈ scenNX.edges, 0 ≤ e.2.2) ∧
      (NX.find_max_flow scenNX 0 3).isSome) := by
  constructor
  · have hnn : ∀ u v, 0 ≤ scenM u v := by
      intro u v
      unfold scenM
      split_ifs <;> norm_num
    exact ⟨hnn, by decide,
      ((C3_termination_monotonicity.1) 4 scenM 0 3 hnn (by decide)).1⟩
  · have hc : ∀ e ∈ scenNX.edges, 0 ≤ e.2.2 := by decide
    exact ⟨hc,
      ((C3_termination_monotonicity.2) scenNX 0 3 hc (by decide)).1⟩

/-- **C7**: whenever no augmenting path from source to sink exists in
the freshly initialized residual structure, maxFlow returns flow 0,
terminating right after the first failed search — a normal result, not
an error — in `Graph.ford_fulkerson` of `main.py` (which additionally
leaves the matrix untouched) and in `FordFulkerson.find_max_flow` of
`ford_fulkerson.py` alike. -/
theorem C7_no_path_returns_zero :
    (∀ (V : Nat) (g : MainPy.Res) (s t : Nat),
      (¬ ∃ p, MainPy.AugPath g s t p) →
      MainPy.ford_fulkerson V g s t = some (0, g)) ∧
    (∀ (G : NX.NXGraph) (s t : Nat),
      (¬ ∃ p, NX.AugPathNX (NX.buildResidual G) s t p) →
      NX.find_max_flow G s t = some 0) := by
  constructor
  · intro V g s t h
    unfold MainPy.ford_fulkerson
    obtain ⟨n, hn⟩ : ∃ n, 1 + (MainPy.rowSumI V g s).toNat = n + 1 :=
      ⟨(MainPy.rowSumI V g s).toNat, by omega⟩
    rw [hn]
    simp only [MainPy.ffLoop]
    rcases hb : MainPy.bfs V g s t (fun _ => (-1 : Int)) with ⟨found, par'⟩
    cases found with
    | false => rfl
    | true =>
      exfalso
      obtain ⟨l, hch, hpos⟩ := MainPy.bfs_true_chain hb
      obtain ⟨p, hne, hhead, hlast, hpairs⟩ :=
        MainPy.pureChain_to_augPath hch hpos
      exact h ⟨p, hne, hhead, hlast, hpairs⟩
  · intro G s t h
    exact NX.nxNoPath_find G s t h

/-- Witness for C7: the two-vertex graph with no edges has no augmenting
path in either representation, and both runs return flow 0. -/
theorem C7_no_path_returns_zero_witness :
    ((¬ ∃ p, MainPy.AugPath (fun _ _ => (0 : Int)) 0 1 p) ∧
      MainPy.ford_fulkerson 2 (fun _ _ => (0 : Int)) 0 1
        = some (0, fun _ _ => (0 : Int))) ∧
    ((¬ ∃ p, NX.AugPathNX (NX.buildResidual ⟨[0, 1], []⟩) 0 1 p) ∧
      NX.find_max_flow ⟨[0, 1], []⟩ 0 1 = some 0) := by
  constructor
  · have hno : ¬ ∃ p, MainPy.AugPath (fun _ _ => (0 : Int)) 0 1 p := by
      rintro ⟨p, hne, hhead, hlast, hpairs⟩
      obtain ⟨a, p', rfl⟩ : ∃ a p', p = a :: p' := by
        cases p with
        | nil => exact absurd rfl hne
        | cons a p' => exact ⟨a, p', rfl⟩
      obtain rfl : a = 0 := by simpa using hhead
      cases p' with
      | nil => simp at hlast
      | cons b p'' =>
        have hmem : ((0 : Nat), b) ∈ (0 :: b :: p'').zip (b :: p'') :=
          List.mem_cons_self _ _
        have := hpairs (0, b) hmem
        simp at this
    exact ⟨hno, C7_no_path_returns_zero.1 2 _ 0 1 hno⟩
  · have hadj : ∀ x, NX.adjOf x (NX.buildResidual ⟨[0, 1], []⟩)
        = NX.adjOf x [((0 : Nat), ([] : List (Nat × Int))), (1, [])] :=
      fun x => rfl
    have hcap : ∀ x y, NX.getCap x y (NX.buildResidual ⟨[0, 1], []⟩)
        = 0 := by
      intro x y
      unfold NX.getCap
      rw [hadj x]
      rcases NX.adjOf_cases x [((0 : Nat), ([] : List (Nat × Int))), (1, [])]
        with hnil | ⟨e, he, -, hadj'⟩
      · rw [hnil]
        rfl
      · have he2 : e.2 = [] := by
          rcases List.mem_cons.mp he with rfl | he'
          · rfl
          · rcases List.mem_cons.mp he' with rfl | he''
            · rfl
            · cases he''
        rw [hadj', he2]
        rfl
    have hno : ¬ ∃ p, NX.AugPathNX (NX.buildResidual ⟨[0, 1], []⟩) 0 1 p := by
      rintro ⟨p, hne, hhead, hlast, hpairs⟩
      obtain ⟨a, p', rfl⟩ : ∃ a p', p = a :: p' := by
        cases p with
        | nil => exact absurd rfl hne
        | cons a p' => exact ⟨a, p', rfl⟩
      obtain rfl : a = 0 := by simpa using hhead
      cases p' with
      | nil => simp at hlast
      | cons b p'' =>
        have hmem : ((0 : Nat), b) ∈ (0 :: b :: p'').zip (b :: p'') :=
          List.mem_cons_self _ _
        have := hpairs (0, b) hmem
        rw [hcap 0 b] at this
        omega
    exact ⟨hno, C7_no_path_returns_zero.2 ⟨[0, 1], []⟩ 0 1 hno⟩
